import Mathlib

/-!
Verification development for the statement-cleaning core of the
repository: amount normalization, running-balance reconciliation,
date-token parsing and chronology repair.  The Python sources
(csv_cleaning.py and date_cleaning.py) are embedded shallowly:
monetary values are exact rationals, the Python float round(x, 2) is
modelled as rounding to an integer number of cents, table cells are
strings or optional rationals, and the pandas and difflib library
calls that the date parser delegates to are abstracted as parameters
of the embedding.
-/

/-! ## Cent arithmetic

Models the helper round_to_2 and the round(x, 2) calls of
calculate_difference_and_verify in csv_cleaning.py.  Python rounds
floats half to even; the model rounds half up.  The two agree on
every value whose double of cents is not an odd integer, and no
theorem below depends on the behaviour at such ties. -/

/-- Rounding a rational to two decimal places; models round(x, 2). -/
def r2 (q : ℚ) : ℚ := ((round (q * 100) : ℤ) : ℚ) / 100

/-- Property of being an exact number of cents. -/
def IsCent (q : ℚ) : Prop := ∃ k : ℤ, q = (k : ℚ) / 100

theorem isCent_r2 (q : ℚ) : IsCent (r2 q) := ⟨round (q * 100), rfl⟩

theorem isCent_zero : IsCent 0 := ⟨0, by norm_num⟩

theorem IsCent.r2_eq {q : ℚ} (h : IsCent q) : r2 q = q := by
  obtain ⟨k, rfl⟩ := h
  unfold r2
  rw [div_mul_cancel₀ _ (by norm_num : (100 : ℚ) ≠ 0), round_intCast]

theorem IsCent.add {a b : ℚ} (ha : IsCent a) (hb : IsCent b) : IsCent (a + b) := by
  obtain ⟨k, rfl⟩ := ha
  obtain ⟨m, rfl⟩ := hb
  exact ⟨k + m, by push_cast; ring⟩

theorem IsCent.sub {a b : ℚ} (ha : IsCent a) (hb : IsCent b) : IsCent (a - b) := by
  obtain ⟨k, rfl⟩ := ha
  obtain ⟨m, rfl⟩ := hb
  exact ⟨k - m, by push_cast; ring⟩

theorem r2_zero : r2 0 = 0 := isCent_zero.r2_eq

/-! ## Ledger reconciliation

Embedding of calculate_difference_and_verify (csv_cleaning.py,
lines 799-1062).  A ledger row carries the normalized debit, credit
and balance cells; an absent or non-numeric cell (NaN, empty, nan,
none, unconvertible) is none.  The function first rounds the three
columns to cents, with the helper round_to_2 sending absent cells to
0.0, computes Difference for every row from index 1, and, when every
difference lies strictly between -1 and 1 and there is more than one
row, rewrites every balance forward from the row-0 seed and
recomputes the differences. -/

/-- One normalized ledger row as seen by the reconciler. -/
structure AmtRow where
  debit : Option ℚ
  credit : Option ℚ
  balance : Option ℚ
deriving DecidableEq

/-- Models round_to_2: an absent cell becomes 0.0, a numeric cell is
rounded to two decimals. -/
def r2cell : Option ℚ → ℚ
  | none => 0
  | some q => r2 q

/-- Debit column after the initial column-wide rounding. -/
def colDebit (rows : List AmtRow) : List ℚ := rows.map fun r => r2cell r.debit

/-- Credit column after the initial column-wide rounding. -/
def colCredit (rows : List AmtRow) : List ℚ := rows.map fun r => r2cell r.credit

/-- Balance column (the Balance_Adjusted working column) after the
initial column-wide rounding. -/
def colBalance (rows : List AmtRow) : List ℚ := rows.map fun r => r2cell r.balance

/-- Difference at row i before any adjustment: row 0 keeps the
initialization value 0, later rows get
round(prev_balance + credit + debit - balance, 2) with every operand
passed through round_to_2 again, as in the first loop of
calculate_difference_and_verify. -/
def rawDiffAt (b c d : List ℚ) (i : ℕ) : ℚ :=
  if i = 0 then 0
  else r2 (r2 (b.getD (i - 1) 0) + r2 (c.getD i 0) + r2 (d.getD i 0) - r2 (b.getD i 0))

/-- Difference of row i of a ledger before any adjustment. -/
def rowDiff (rows : List AmtRow) (i : ℕ) : ℚ :=
  rawDiffAt (colBalance rows) (colCredit rows) (colDebit rows) i

/-- Adjusted balance at row i: row 0 keeps its rounded balance as the
trusted seed, every later row is
round(previous adjusted balance + credit + debit, 2). -/
def adjBalAt (b c d : List ℚ) : ℕ → ℚ
  | 0 => r2 (b.getD 0 0)
  | i + 1 => r2 (adjBalAt b c d i + r2 (c.getD (i + 1) 0) + r2 (d.getD (i + 1) 0))

/-- Difference recomputed after the balances have been adjusted. -/
def adjDiffAt (adj c d : List ℚ) (i : ℕ) : ℚ :=
  if i = 0 then 0
  else r2 (r2 (adj.getD (i - 1) 0) + r2 (c.getD i 0) + r2 (d.getD i 0) - r2 (adj.getD i 0))

/-- Decision predicate of the adjustment branch: every difference lies
strictly between -1.0 and 1.0. -/
def inRange (l : List ℚ) : Bool := l.all fun q => decide (-1 < q) && decide (q < 1)

/-- Verdict all_correct: every difference has magnitude at most the
tolerance 0.001. -/
def allCorrect (l : List ℚ) : Bool := l.all fun q => decide (|q| ≤ 1 / 1000)

/-- Result of the reconciler: the Balance_Adjusted column, the
Difference column, and the two returned flags. -/
structure RecOut where
  balances : List ℚ
  diffs : List ℚ
  all_correct : Bool
  adjusted : Bool
deriving DecidableEq

/-- Embedding of calculate_difference_and_verify on a table that has
the three required columns. -/
def reconcile (rows : List AmtRow) : RecOut :=
  let b := colBalance rows
  let c := colCredit rows
  let d := colDebit rows
  let n := rows.length
  let diffs := (List.range n).map (rawDiffAt b c d)
  if inRange diffs ∧ 1 < n then
    let adj := (List.range n).map (adjBalAt b c d)
    let diffs2 := (List.range n).map (adjDiffAt adj c d)
    ⟨adj, diffs2, allCorrect diffs2, true⟩
  else
    ⟨b, diffs, allCorrect diffs, false⟩

/-! Helper lemmas about the reconciler. -/

theorem getD_range_map (f : ℕ → ℚ) {n i : ℕ} (h : i < n) (d : ℚ) :
    (((List.range n).map f).getD i d) = f i := by
  rw [List.getD_eq_getElem?_getD, List.getElem?_map, List.getElem?_range h]
  rfl

theorem isCent_getD_col {l : List ℚ} (hl : ∀ x ∈ l, IsCent x) (i : ℕ) :
    IsCent (l.getD i 0) := by
  rw [List.getD_eq_getElem?_getD]
  cases h : l[i]? with
  | none => exact isCent_zero
  | some v => exact hl v (List.getElem?_mem h)

theorem isCent_colCredit (rows : List AmtRow) : ∀ x ∈ colCredit rows, IsCent x := by
  intro x hx
  obtain ⟨r, _, rfl⟩ := List.mem_map.mp hx
  cases r.credit with
  | none => exact isCent_zero
  | some q => exact isCent_r2 q

theorem isCent_colDebit (rows : List AmtRow) : ∀ x ∈ colDebit rows, IsCent x := by
  intro x hx
  obtain ⟨r, _, rfl⟩ := List.mem_map.mp hx
  cases r.debit with
  | none => exact isCent_zero
  | some q => exact isCent_r2 q

theorem isCent_colBalance (rows : List AmtRow) : ∀ x ∈ colBalance rows, IsCent x := by
  intro x hx
  obtain ⟨r, _, rfl⟩ := List.mem_map.mp hx
  cases r.balance with
  | none => exact isCent_zero
  | some q => exact isCent_r2 q

theorem isCent_adjBalAt (b c d : List ℚ) (i : ℕ) : IsCent (adjBalAt b c d i) := by
  cases i with
  | zero => exact isCent_r2 _
  | succ j => exact isCent_r2 _

/-- After an adjustment pass the recomputed difference of every row in
range is exactly zero. -/
theorem adjDiff_eq_zero (b c d : List ℚ)
    (hc : ∀ x ∈ c, IsCent x) (hd : ∀ x ∈ d, IsCent x) {n i : ℕ} (hi : i < n) :
    adjDiffAt ((List.range n).map (adjBalAt b c d)) c d i = 0 := by
  cases i with
  | zero => rfl
  | succ j =>
    have hj : j < n := Nat.lt_of_succ_lt hi
    have hcC : IsCent (c.getD (j + 1) 0) := isCent_getD_col hc (j + 1)
    have hdC : IsCent (d.getD (j + 1) 0) := isCent_getD_col hd (j + 1)
    have hbal : IsCent (adjBalAt b c d j) := isCent_adjBalAt b c d j
    have hrec : adjBalAt b c d (j + 1) =
        adjBalAt b c d j + r2 (c.getD (j + 1) 0) + r2 (d.getD (j + 1) 0) := by
      show r2 _ = _
      exact ((hbal.add (isCent_r2 _)).add (isCent_r2 _)).r2_eq
    unfold adjDiffAt
    rw [if_neg (by omega)]
    rw [show j + 1 - 1 = j by omega]
    rw [getD_range_map _ hj, getD_range_map _ hi]
    rw [hbal.r2_eq, hcC.r2_eq, hdC.r2_eq]
    rw [(isCent_adjBalAt b c d (j + 1)).r2_eq, hrec]
    rw [hcC.r2_eq, hdC.r2_eq]
    rw [show adjBalAt b c d j + c.getD (j + 1) 0 + d.getD (j + 1) 0 -
        (adjBalAt b c d j + c.getD (j + 1) 0 + d.getD (j + 1) 0) = 0 by ring]
    exact r2_zero

/-- The in-range test of the adjustment branch succeeds when every
per-row difference from index 1 lies strictly between -1 and 1. -/
theorem inRange_of_rowDiff (rows : List AmtRow)
    (h : ∀ i, i < rows.length → 0 < i → -1 < rowDiff rows i ∧ rowDiff rows i < 1) :
    inRange ((List.range rows.length).map
      (rawDiffAt (colBalance rows) (colCredit rows) (colDebit rows))) = true := by
  rw [inRange, List.all_eq_true]
  intro x hx
  obtain ⟨i, hi, rfl⟩ := List.mem_map.mp hx
  rw [List.mem_range] at hi
  cases Nat.eq_zero_or_pos i with
  | inl h0 =>
    subst h0
    simp [rawDiffAt]
  | inr hpos =>
    obtain ⟨h1, h2⟩ := h i hi hpos
    rw [rowDiff] at h1 h2
    simp [h1, h2]

/-- C4 core: under the sub-unit hypothesis the reconciler takes the
adjustment branch. -/
theorem reconcile_adjust_branch (rows : List AmtRow) (hn : 1 < rows.length)
    (h : ∀ i, i < rows.length → 0 < i → -1 < rowDiff rows i ∧ rowDiff rows i < 1) :
    reconcile rows =
      ⟨(List.range rows.length).map
          (adjBalAt (colBalance rows) (colCredit rows) (colDebit rows)),
        (List.range rows.length).map
          (adjDiffAt ((List.range rows.length).map
              (adjBalAt (colBalance rows) (colCredit rows) (colDebit rows)))
            (colCredit rows) (colDebit rows)),
        allCorrect ((List.range rows.length).map
          (adjDiffAt ((List.range rows.length).map
              (adjBalAt (colBalance rows) (colCredit rows) (colDebit rows)))
            (colCredit rows) (colDebit rows))),
        true⟩ := by
  rw [reconcile]
  rw [if_pos ⟨inRange_of_rowDiff rows h, hn⟩]

/-- C1 and C4 share this fact: in the adjustment branch every
recomputed difference is zero, hence all_correct holds. -/
theorem allCorrect_adjusted (rows : List AmtRow) :
    allCorrect ((List.range rows.length).map
      (adjDiffAt ((List.range rows.length).map
          (adjBalAt (colBalance rows) (colCredit rows) (colDebit rows)))
        (colCredit rows) (colDebit rows))) = true := by
  rw [allCorrect, List.all_eq_true]
  intro x hx
  obtain ⟨i, hi, rfl⟩ := List.mem_map.mp hx
  rw [List.mem_range] at hi
  rw [adjDiff_eq_zero _ _ _ (isCent_colCredit rows) (isCent_colDebit rows) hi]
  norm_num

/-- Exact 3-row ledger from the C1 edge case: balances 100, 150, 90
with credit and debit cells that satisfy the running-balance equation
exactly (debit already carries its sign, as fixed upstream). -/
def c1ledger : List AmtRow :=
  [⟨none, none, some 100⟩, ⟨some 0, some 50, some 150⟩, ⟨some (-60), some 0, some 90⟩]

/-- Sub-unit noise ledger for C4: per-row differences 0, 0.01, -0.02. -/
def c4ledger : List AmtRow :=
  [⟨none, none, some 100⟩, ⟨some 0, some 50, some (14999 / 100)⟩,
    ⟨some (-60), some 0, some (9001 / 100)⟩]

/-- C1 counterexample: on the exact 3-row ledger the code takes the
adjustment branch, because zero differences also lie strictly inside
(-1, 1), so the returned flags are all_correct = true together with
adjusted = true, not adjusted = false as the claim states. -/
theorem reconcile_exact_counter :
    ¬ ((reconcile c1ledger).all_correct = true ∧ (reconcile c1ledger).adjusted = false) := by
  have hb := reconcile_adjust_branch c1ledger (by norm_num [c1ledger])
    (by
      intro i hi hpos
      have hi3 : i < 3 := by simpa [c1ledger] using hi
      interval_cases i <;>
        norm_num [rowDiff, rawDiffAt, colBalance, colCredit, colDebit, c1ledger,
          r2cell, r2, round_eq])
  rw [hb]
  simp

/-- C1 (amended): reconciling a ledger with more than one row whose
balances already satisfy the running-balance equation exactly returns
all_correct = true and adjusted = true: the adjustment branch is taken
even for exact ledgers, and the recomputed differences are all zero. -/
theorem reconcile_exact_all_correct_and_adjusted (rows : List AmtRow)
    (hn : 1 < rows.length) (h : ∀ i, i < rows.length → rowDiff rows i = 0) :
    (reconcile rows).all_correct = true ∧ (reconcile rows).adjusted = true := by
  have hb := reconcile_adjust_branch rows hn
    (fun i hi _ => by rw [h i hi]; norm_num)
  rw [hb]
  exact ⟨allCorrect_adjusted rows, rfl⟩

/-- Witness for the amended C1 at the concrete exact ledger. -/
theorem reconcile_exact_all_correct_and_adjusted_witness :
    (reconcile c1ledger).all_correct = true ∧ (reconcile c1ledger).adjusted = true := by
  refine reconcile_exact_all_correct_and_adjusted c1ledger (by norm_num [c1ledger]) ?_
  intro i hi
  have hi3 : i < 3 := by simpa [c1ledger] using hi
  interval_cases i <;>
    norm_num [rowDiff, rawDiffAt, colBalance, colCredit, colDebit, c1ledger,
      r2cell, r2, round_eq]

/-- C4: when every per-row difference from index 1 lies strictly
between -1.0 and 1.0 and the ledger has more than one row, the
reconciler sets adjusted = true, rebuilds every balance forward from
the trusted row-0 seed by adding the rounded credit and debit of
each row, and the recomputed difference is exactly zero for every
row. -/
theorem reconcile_subunit_adjust (rows : List AmtRow) (hn : 1 < rows.length)
    (h : ∀ i, i < rows.length → 0 < i → -1 < rowDiff rows i ∧ rowDiff rows i < 1) :
    (reconcile rows).adjusted = true ∧
      (∀ i, i < rows.length → (reconcile rows).diffs.getD i 0 = 0) ∧
      (∀ i, i < rows.length → 0 < i →
        (reconcile rows).balances.getD i 0 =
          (reconcile rows).balances.getD (i - 1) 0 +
            (colCredit rows).getD i 0 + (colDebit rows).getD i 0) := by
  rw [reconcile_adjust_branch rows hn h]
  refine ⟨rfl, ?_, ?_⟩
  · intro i hi
    show (((List.range rows.length).map _).getD i 0) = 0
    rw [getD_range_map _ hi]
    exact adjDiff_eq_zero _ _ _ (isCent_colCredit rows) (isCent_colDebit rows) hi
  · intro i hi hpos
    obtain ⟨j, rfl⟩ : ∃ j, i = j + 1 := ⟨i - 1, by omega⟩
    have hj : j < rows.length := Nat.lt_of_succ_lt hi
    show (((List.range rows.length).map _).getD (j + 1) 0) = _
    rw [getD_range_map _ hi]
    rw [show j + 1 - 1 = j by omega]
    rw [getD_range_map _ hj]
    have hcC : IsCent ((colCredit rows).getD (j + 1) 0) :=
      isCent_getD_col (isCent_colCredit rows) (j + 1)
    have hdC : IsCent ((colDebit rows).getD (j + 1) 0) :=
      isCent_getD_col (isCent_colDebit rows) (j + 1)
    show r2 _ = _
    rw [hcC.r2_eq, hdC.r2_eq]
    exact (((isCent_adjBalAt _ _ _ j).add hcC).add hdC).r2_eq

/-- Witness for C4 at the concrete ledger with differences
0, 0.01, -0.02. -/
theorem reconcile_subunit_adjust_witness :
    (reconcile c4ledger).adjusted = true ∧
      (∀ i, i < 3 → (reconcile c4ledger).diffs.getD i 0 = 0) := by
  have h := reconcile_subunit_adjust c4ledger (by norm_num [c4ledger])
    (by
      intro i hi hpos
      have hi3 : i < 3 := by simpa [c4ledger] using hi
      interval_cases i <;>
        norm_num [rowDiff, rawDiffAt, colBalance, colCredit, colDebit, c4ledger,
          r2cell, r2, round_eq])
  exact ⟨h.1, fun i hi => h.2.1 i (by simpa [c4ledger] using hi)⟩

/-- Filling of absent cells with an explicit numeric zero. -/
def fillZero (r : AmtRow) : AmtRow :=
  ⟨some (r.debit.getD 0), some (r.credit.getD 0), some (r.balance.getD 0)⟩

/-- C10: the reconciler treats an absent debit, credit or balance
cell exactly as the number 0.00, both in the difference formula and
in the forward balance recomputation: replacing every absent cell by
an explicit 0 leaves the whole result unchanged. -/
theorem reconcile_absent_as_zero (rows : List AmtRow) :
    reconcile (rows.map fillZero) = reconcile rows := by
  have hd : colDebit (rows.map fillZero) = colDebit rows := by
    rw [colDebit, colDebit, List.map_map]
    refine List.map_congr_left ?_
    intro r _
    cases h : r.debit with
    | none => simp [fillZero, r2cell, r2_zero, h]
    | some q => simp [fillZero, r2cell, h]
  have hc : colCredit (rows.map fillZero) = colCredit rows := by
    rw [colCredit, colCredit, List.map_map]
    refine List.map_congr_left ?_
    intro r _
    cases h : r.credit with
    | none => simp [fillZero, r2cell, r2_zero, h]
    | some q => simp [fillZero, r2cell, h]
  have hb : colBalance (rows.map fillZero) = colBalance rows := by
    rw [colBalance, colBalance, List.map_map]
    refine List.map_congr_left ?_
    intro r _
    cases h : r.balance with
    | none => simp [fillZero, r2cell, r2_zero, h]
    | some q => simp [fillZero, r2cell, h]
  rw [reconcile, reconcile, hd, hc, hb, List.length_map]

/-! ## Fail-soft stage runner

Embedding of run_step (csv_cleaning.py, lines 1113-1123): a stage body
either produces a new table or raises; the runner catches any raise
and hands the untouched input table to the next stage.  A raising
stage body is modelled as a function into Except. -/

/-- Models run_step: apply the stage body, return its output on
success and the input table on a fault. -/
def runStep {α ε : Type} (f : α → Except ε α) (x : α) : α :=
  match f x with
  | Except.ok y => y
  | Except.error _ => x

/-- C8: a fault raised inside a stage never crosses the stage
boundary; the faulting stage returns its input table unchanged and
the pipeline continues with the data passed through. -/
theorem runStep_fault_contained {α ε : Type} (f : α → Except ε α) (x : α) (e : ε)
    (h : f x = Except.error e) : runStep f x = x := by
  rw [runStep, h]

/-- Witness for C8: a stage that always faults returns the one-row
input ledger unchanged. -/
theorem runStep_fault_contained_witness :
    runStep (fun _ : List AmtRow => Except.error "stage fault") c1ledger = c1ledger :=
  runStep_fault_contained _ c1ledger "stage fault" rfl

/-! ## Character and string utilities

Small executable models of the Python string primitives used by the
amount and date functions: ASCII case mapping, whitespace stripping,
digit tests and decimal numerals.  All of them work on explicit
character lists. -/

/-- ASCII lower-casing of one character, models str.lower per char. -/
def lcC (c : Char) : Char :=
  if 65 ≤ c.toNat ∧ c.toNat ≤ 90 then Char.ofNat (c.toNat + 32) else c

/-- ASCII upper-casing of one character, models str.upper per char. -/
def ucC (c : Char) : Char :=
  if 97 ≤ c.toNat ∧ c.toNat ≤ 122 then Char.ofNat (c.toNat - 32) else c

/-- Python whitespace class for strip and the regex class backslash-s. -/
def isSpaceC (c : Char) : Bool :=
  decide (c.toNat = 32) || decide (c.toNat = 9) || decide (c.toNat = 10) ||
    decide (c.toNat = 13) || decide (c.toNat = 11) || decide (c.toNat = 12)

/-- Decimal digit test. -/
def isDigitC (c : Char) : Bool := decide (48 ≤ c.toNat ∧ c.toNat ≤ 57)

/-- Models str.strip: drop whitespace from both ends. -/
def stripL (l : List Char) : List Char :=
  ((l.dropWhile isSpaceC).reverse.dropWhile isSpaceC).reverse

/-- String-level strip. -/
def sstrip (s : String) : String := String.mk (stripL s.data)

/-- Value of a decimal digit string. -/
def natVal (l : List Char) : ℕ := l.foldl (fun n c => n * 10 + (c.toNat - 48)) 0

/-- Substring containment test, models the Python in operator. -/
def containsSeq : List Char → List Char → Bool
  | ns, [] => ns.isEmpty
  | ns, c :: rest => ns.isPrefixOf (c :: rest) || containsSeq ns rest

/-! ## Amount normalization

Embeddings of extract_amount (csv_cleaning.py, lines 144-185) and
parse_balance (lines 188-240).  Both clean the token, pick the first
numeric run, repair multiple decimal dots, and convert with float();
parse_balance additionally applies the DR sign rule.  The float()
conversion is modelled exactly over the tokens these functions can
produce, which consist of an optional leading minus, digits and at
most one dot after the repair step. -/

/-- Left-to-right removal of every CR and DR letter pair, models
re.sub on the pattern (cr|dr) with IGNORECASE. -/
def dropCrDr : List Char → List Char
  | [] => []
  | [a] => [a]
  | a :: b :: rest =>
    if (lcC a = 'c' ∨ lcC a = 'd') ∧ lcC b = 'r' then dropCrDr rest
    else a :: dropCrDr (b :: rest)

/-- First maximal run of digits and dots, models findall on the
pattern of one or more digit-or-dot characters. -/
def firstNumTok : List Char → Option (List Char)
  | [] => none
  | c :: rest =>
    if isDigitC c || decide (c = '.') then
      some (c :: rest.takeWhile fun x => isDigitC x || decide (x = '.'))
    else firstNumTok rest

/-- First numeric run with an optional leading minus, models findall
on the balance pattern that also keeps the sign. -/
def firstNumTokSigned : List Char → Option (List Char)
  | [] => none
  | ['-'] => none
  | '-' :: c :: rest =>
    if isDigitC c || decide (c = '.') then
      some ('-' :: c :: rest.takeWhile fun x => isDigitC x || decide (x = '.'))
    else firstNumTokSigned (c :: rest)
  | c :: rest =>
    if isDigitC c || decide (c = '.') then
      some (c :: rest.takeWhile fun x => isDigitC x || decide (x = '.'))
    else firstNumTokSigned rest

/-- Split on every dot keeping empty segments, models str.split. -/
def splitDots : List Char → List (List Char)
  | [] => [[]]
  | c :: rest =>
    if c = '.' then [] :: splitDots rest
    else
      match splitDots rest with
      | [] => [[c]]
      | p :: ps => (c :: p) :: ps

/-- Multiple-dot repair shared by extract_amount and parse_balance:
with more than two dot-separated segments, a three-digit final
segment makes every dot thousands grouping (all segments are joined),
otherwise only the final dot survives as the decimal point; with
exactly one dot and more than two digits after it, the digit string
is reinterpreted with the last two digits as cents. -/
def dotFix (l : List Char) : List Char :=
  let parts := splitDots l
  let lastP := parts.getLast?.getD []
  if 2 < parts.length then
    if lastP.length = 3 then parts.flatten
    else parts.dropLast.flatten ++ '.' :: lastP
  else if parts.length = 2 ∧ 2 < (parts.getD 1 []).length then
    let digits := parts.getD 0 [] ++ parts.getD 1 []
    digits.take (digits.length - 2) ++ '.' :: digits.drop (digits.length - 2)
  else l

/-- Unsigned float() on a digits-and-dots token: mantissa and number
of decimal places.  Fails exactly when the token has no digit or a
malformed shape, as float() does on such tokens. -/
def parseUFloatRaw? (l : List Char) : Option (ℕ × ℕ) :=
  let intp := l.takeWhile isDigitC
  let rest := l.dropWhile isDigitC
  if rest = [] then (if intp = [] then none else some (natVal intp, 0))
  else if rest.head? = some '.' ∧ rest.tail.all isDigitC ∧ ¬(intp = [] ∧ rest.tail = []) then
    some (natVal (intp ++ rest.tail), rest.tail.length)
  else none

/-- Signed float() returning an integer mantissa and decimal places. -/
def parseFloatRaw? (l : List Char) : Option (ℤ × ℕ) :=
  if l.head? = some '-' then (parseUFloatRaw? l.tail).map fun p => (-(p.1 : ℤ), p.2)
  else (parseUFloatRaw? l).map fun p => ((p.1 : ℤ), p.2)

/-- Numeric value of a mantissa with a count of decimal places. -/
def floatVal (m : ℤ) (e : ℕ) : ℚ := (m : ℚ) / 10 ^ e

/-- float() as a rational. -/
def parseFloat? (l : List Char) : Option ℚ :=
  (parseFloatRaw? l).map fun p => floatVal p.1 p.2

/-- Lower-cased stripped text of an amount token, with the sign test
taken before any cleaning, as in extract_amount. -/
def amtText (s : String) : List Char := (stripL s.data).map lcC

/-- Amount token after CR and DR removal and comma and space removal. -/
def amtClean (s : String) : List Char :=
  (dropCrDr (amtText s)).filter fun c => decide (c ≠ ',' ∧ c ≠ ' ')

/-- Sign factor of extract_amount: negative when the raw token
contains a minus anywhere. -/
def amtSign (s : String) : ℚ := if (amtText s).contains '-' then -1 else 1

/-- Embedding of extract_amount. -/
def extract_amount (s : String) : Option ℚ :=
  (firstNumTok (amtClean s)).bind fun raw =>
    (parseFloat? (dotFix raw)).map fun a =>
      if (amtText s).contains '-' then -a else a

/-- Upper-cased stripped text of a balance token. -/
def balText (s : String) : List Char := (stripL s.data).map ucC

/-- Magnitude computed by parse_balance before its sign rule: the
guard for empty, NAN and NONE, then CR and DR removal, comma and
space removal, the first signed numeric run, the dot repair and
float(). -/
def parseBalanceMag (s : String) : Option ℚ :=
  if balText s = [] ∨ balText s = ['N', 'A', 'N'] ∨ balText s = ['N', 'O', 'N', 'E'] then
    none
  else
    (firstNumTokSigned
        ((dropCrDr (balText s)).filter fun c => decide (c ≠ ',' ∧ c ≠ ' '))).bind
      fun raw => parseFloat? (dotFix raw)

/-- DR detection of parse_balance on the stripped upper-cased token. -/
def hasDRmark (s : String) : Bool := containsSeq ['D', 'R'] (balText s)

/-- Embedding of parse_balance: keep an already negative value, else
negate exactly when a DR marker is present. -/
def parse_balance (s : String) : Option ℚ :=
  (parseBalanceMag s).map fun a => if a < 0 then a else if hasDRmark s then -a else a

/-! Helper lemmas about the amount parsers. -/

theorem takeWhile_all_eq {p : Char → Bool} {l : List Char} (h : l.all p = true) :
    l.takeWhile p = l := by
  induction l with
  | nil => rfl
  | cons c rest ih =>
    rw [List.all_cons, Bool.and_eq_true] at h
    rw [List.takeWhile_cons, if_pos h.1, ih h.2]

theorem dropWhile_all_eq {p : Char → Bool} {l : List Char} (h : l.all p = true) :
    l.dropWhile p = [] := by
  induction l with
  | nil => rfl
  | cons c rest ih =>
    rw [List.all_cons, Bool.and_eq_true] at h
    rw [List.dropWhile_cons, if_pos h.1]
    exact ih h.2

theorem takeWhile_append_stop {p : Char → Bool} {a : List Char} {c : Char}
    (ha : a.all p = true) (hc : p c = false) (b : List Char) :
    (a ++ c :: b).takeWhile p = a := by
  induction a with
  | nil => simp [List.takeWhile_cons, hc]
  | cons x rest ih =>
    rw [List.all_cons, Bool.and_eq_true] at ha
    rw [List.cons_append, List.takeWhile_cons, if_pos ha.1, ih ha.2]

theorem dropWhile_append_stop {p : Char → Bool} {a : List Char} {c : Char}
    (ha : a.all p = true) (hc : p c = false) (b : List Char) :
    (a ++ c :: b).dropWhile p = c :: b := by
  induction a with
  | nil => simp [List.dropWhile_cons, hc]
  | cons x rest ih =>
    rw [List.all_cons, Bool.and_eq_true] at ha
    rw [List.cons_append, List.dropWhile_cons, if_pos ha.1]
    exact ih ha.2

theorem natVal_aux (b : List Char) (n : ℕ) :
    b.foldl (fun n c => n * 10 + (c.toNat - 48)) n =
      n * 10 ^ b.length + b.foldl (fun n c => n * 10 + (c.toNat - 48)) 0 := by
  induction b generalizing n with
  | nil => simp
  | cons c rest ih =>
    rw [List.foldl_cons, List.foldl_cons, ih (n * 10 + (c.toNat - 48)), ih (0 * 10 + (c.toNat - 48))]
    rw [List.length_cons]
    ring

theorem natVal_append (a b : List Char) :
    natVal (a ++ b) = natVal a * 10 ^ b.length + natVal b := by
  rw [natVal, natVal, natVal, List.foldl_append, natVal_aux]

theorem isDigitC_ne_minus {c : Char} (h : isDigitC c = true) : c ≠ '-' := by
  intro hc
  subst hc
  simp [isDigitC] at h

theorem isDigitC_ne_dot {c : Char} (h : isDigitC c = true) : c ≠ '.' := by
  intro hc
  subst hc
  simp [isDigitC] at h

theorem parseFloat_all_digits {l : List Char} (h0 : l ≠ []) (hd : l.all isDigitC = true) :
    parseFloat? l = some ((natVal l : ℚ)) := by
  have hhead : ¬ l.head? = some '-' := by
    cases l with
    | nil => simp
    | cons c rest =>
      rw [List.all_cons, Bool.and_eq_true] at hd
      simp only [List.head?, Option.some.injEq]
      intro hc
      exact isDigitC_ne_minus hd.1 hc
  rw [parseFloat?, parseFloatRaw?, if_neg hhead]
  rw [parseUFloatRaw?]
  simp only [takeWhile_all_eq hd, dropWhile_all_eq hd]
  simp only [if_pos trivial, if_neg h0, Option.map_some']
  rw [floatVal]
  push_cast
  norm_num

theorem parseFloat_int_frac {a b : List Char} (ha : a.all isDigitC = true)
    (hb : b.all isDigitC = true) (hne : ¬(a = [] ∧ b = [])) :
    parseFloat? (a ++ '.' :: b) =
      some ((natVal a : ℚ) + (natVal b : ℚ) / 10 ^ b.length) := by
  have hdot : isDigitC '.' = false := by decide
  have htake : (a ++ '.' :: b).takeWhile isDigitC = a := takeWhile_append_stop ha hdot b
  have hdrop : (a ++ '.' :: b).dropWhile isDigitC = '.' :: b := dropWhile_append_stop ha hdot b
  have hhead : ¬ (a ++ '.' :: b).head? = some '-' := by
    cases a with
    | nil => simp
    | cons c rest =>
      rw [List.all_cons, Bool.and_eq_true] at ha
      simp only [List.cons_append, List.head?, Option.some.injEq]
      intro hc
      exact isDigitC_ne_minus ha.1 hc
  rw [parseFloat?, parseFloatRaw?, if_neg hhead]
  rw [parseUFloatRaw?]
  simp only [htake, hdrop]
  rw [if_neg (by simp), if_pos ⟨rfl, by simpa using hb, by simpa using hne⟩]
  simp only [Option.map_some', List.tail_cons, List.length_cons]
  rw [floatVal, natVal_append]
  push_cast
  rw [add_div]
  congr 1
  rw [mul_div_assoc]
  norm_num

theorem firstNumTok_alphabet {l raw : List Char} (h : firstNumTok l = some raw) :
    raw.all (fun c => isDigitC c || decide (c = '.')) = true := by
  induction l with
  | nil => exact absurd h (by simp [firstNumTok])
  | cons c rest ih =>
    rw [firstNumTok] at h
    by_cases hc : (isDigitC c || decide (c = '.')) = true
    · rw [if_pos hc] at h
      obtain rfl := Option.some.injEq _ _ ▸ h
      injection h with h2
      rw [← h2, List.all_cons, Bool.and_eq_true]
      exact ⟨hc, List.all_takeWhile⟩
    · rw [if_neg hc] at h
      exact ih h

theorem splitDots_ne_nil (l : List Char) : splitDots l ≠ [] := by
  induction l with
  | nil => simp [splitDots]
  | cons c rest ih =>
    rw [splitDots]
    split
    · simp
    · cases h : splitDots rest with
      | nil => exact absurd h ih
      | cons p ps => simp [h]

theorem splitDots_flatten (l : List Char) :
    (splitDots l).flatten = l.filter fun c => decide (c ≠ '.') := by
  induction l with
  | nil => simp [splitDots]
  | cons c rest ih =>
    rw [splitDots, List.filter_cons]
    split
    · rename_i hdot
      rw [if_neg (by simp [hdot])]
      simpa using ih
    · rename_i hdot
      rw [if_pos (by simpa using hdot)]
      cases h : splitDots rest with
      | nil => exact absurd h (splitDots_ne_nil rest)
      | cons p ps =>
        have := ih
        rw [h] at this
        simp only [List.flatten_cons] at this ⊢
        rw [← this]
        simp

theorem filter_digit_of_alphabet {l : List Char}
    (h : l.all (fun c => isDigitC c || decide (c = '.')) = true) :
    (l.filter fun c => decide (c ≠ '.')) = l.filter isDigitC := by
  refine List.filter_congr ?_
  intro c hc
  rw [List.all_eq_true] at h
  have := h c hc
  rw [Bool.or_eq_true] at this
  cases this with
  | inl hd => simp [isDigitC_ne_dot hd, hd]
  | inr hd =>
    have : c = '.' := by simpa using hd
    subst this
    simp [isDigitC]

theorem all_digits_of_filter {l : List Char} :
    (l.filter isDigitC).all isDigitC = true := by
  rw [List.all_eq_true]
  intro c hc
  exact List.of_mem_filter hc

/-- Decomposition of the segments of a token into the leading
segments and the final one. -/
theorem splitDots_decomp (raw : List Char) :
    (splitDots raw).flatten =
      (splitDots raw).dropLast.flatten ++ (splitDots raw).getLast?.getD [] := by
  have hne := splitDots_ne_nil raw
  conv_lhs => rw [← List.dropLast_append_getLast hne]
  rw [List.flatten_append, List.getLast?_eq_getLast _ hne]
  simp

/-- Shared general fact for C5: with more than two dot segments and a
three-digit final segment, extract_amount returns the signed integer
made of all the digits in order, with no decimal shift. -/
theorem extract_amount_grouping {s : String} {raw : List Char}
    (hraw : firstNumTok (amtClean s) = some raw)
    (hlen : 2 < (splitDots raw).length)
    (hlast : ((splitDots raw).getLast?.getD []).length = 3) :
    extract_amount s = some (amtSign s * (natVal (raw.filter isDigitC) : ℚ)) := by
  have halpha := firstNumTok_alphabet hraw
  have hflat : (splitDots raw).flatten = raw.filter isDigitC := by
    rw [splitDots_flatten, filter_digit_of_alphabet halpha]
  have hne : (splitDots raw).flatten ≠ [] := by
    rw [splitDots_decomp raw]
    intro h
    rcases List.append_eq_nil.mp h with ⟨-, h2⟩
    rw [h2] at hlast
    simp at hlast
  have hdig : (splitDots raw).flatten.all isDigitC = true := by
    rw [hflat]
    exact all_digits_of_filter
  have hfix : dotFix raw = (splitDots raw).flatten := by
    rw [dotFix]
    simp only
    rw [if_pos hlen, if_pos hlast]
  rw [extract_amount, hraw, Option.some_bind]
  rw [hfix, parseFloat_all_digits hne hdig, hflat]
  rw [Option.map_some', amtSign]
  by_cases hcont : (amtText s).contains '-'
  · rw [if_pos hcont, if_pos hcont, neg_one_mul]
  · rw [if_neg hcont, if_neg hcont, one_mul]

/-- Shared general fact for C5: with more than two dot segments and a
final segment that does not have three digits, only the final dot is
kept as the decimal point. -/
theorem extract_amount_lastdot {s : String} {raw : List Char}
    (hraw : firstNumTok (amtClean s) = some raw)
    (hlen : 2 < (splitDots raw).length)
    (hlast : ((splitDots raw).getLast?.getD []).length ≠ 3)
    (hdig : raw.filter isDigitC ≠ []) :
    extract_amount s = some (amtSign s *
      ((natVal ((splitDots raw).dropLast.flatten) : ℚ) +
        (natVal ((splitDots raw).getLast?.getD []) : ℚ) /
          10 ^ ((splitDots raw).getLast?.getD []).length)) := by
  have halpha := firstNumTok_alphabet hraw
  have hflat : (splitDots raw).flatten = raw.filter isDigitC := by
    rw [splitDots_flatten, filter_digit_of_alphabet halpha]
  have hsplit := splitDots_decomp raw
  have hallflat : (splitDots raw).flatten.all isDigitC = true := by
    rw [hflat]
    exact all_digits_of_filter
  have hparts : ((splitDots raw).dropLast.flatten.all isDigitC = true) ∧
      (((splitDots raw).getLast?.getD []).all isDigitC = true) := by
    have := hallflat
    rw [hsplit, List.all_append, Bool.and_eq_true] at this
    exact this
  have hne : ¬((splitDots raw).dropLast.flatten = [] ∧
      (splitDots raw).getLast?.getD [] = []) := by
    rintro ⟨h1, h2⟩
    rw [← hflat, hsplit, h1, h2] at hdig
    simp at hdig
  have hfix : dotFix raw =
      (splitDots raw).dropLast.flatten ++ '.' :: (splitDots raw).getLast?.getD [] := by
    rw [dotFix]
    simp only
    rw [if_pos hlen, if_neg hlast]
  rw [extract_amount, hraw, Option.some_bind]
  rw [hfix, parseFloat_int_frac hparts.1 hparts.2 hne]
  rw [Option.map_some', amtSign]
  by_cases hcont : (amtText s).contains '-'
  · rw [if_pos hcont, if_pos hcont, neg_one_mul]
  · rw [if_neg hcont, if_neg hcont, one_mul]

/-- C5: normalize on the token 4.54.554 returns 454554.00, and in
general, when the numeric remainder of the token has more than two
dot-separated segments, a final segment of exactly three digits makes
every dot thousands grouping (all digits are concatenated with no
decimal shift), otherwise only the final dot acts as the true decimal
point.  This is the behaviour of extract_amount, the function cited
for the multiple-dot rule. -/
theorem extract_amount_multidot :
    extract_amount "4.54.554" = some 454554 ∧
    (∀ s raw, firstNumTok (amtClean s) = some raw →
      2 < (splitDots raw).length →
      ((splitDots raw).getLast?.getD []).length = 3 →
      extract_amount s = some (amtSign s * (natVal (raw.filter isDigitC) : ℚ))) ∧
    (∀ s raw, firstNumTok (amtClean s) = some raw →
      2 < (splitDots raw).length →
      ((splitDots raw).getLast?.getD []).length ≠ 3 →
      raw.filter isDigitC ≠ [] →
      extract_amount s = some (amtSign s *
        ((natVal ((splitDots raw).dropLast.flatten) : ℚ) +
          (natVal ((splitDots raw).getLast?.getD []) : ℚ) /
            10 ^ ((splitDots raw).getLast?.getD []).length))) := by
  refine ⟨?_, fun _ _ h1 h2 h3 => extract_amount_grouping h1 h2 h3,
    fun _ _ h1 h2 h3 h4 => extract_amount_lastdot h1 h2 h3 h4⟩
  have h := @extract_amount_grouping "4.54.554" ("4.54.554".data)
    rfl (by decide) (by decide)
  rw [h, amtSign, if_neg (by decide)]
  rw [show natVal (List.filter isDigitC "4.54.554".data) = 454554 from by decide]
  norm_num

/-- Witness for C5: the grouped branch on 4.54.554 and the
decimal-point branch on 5.328.28, both via the general statement. -/
theorem extract_amount_multidot_witness :
    extract_amount "4.54.554" = some 454554 ∧
      extract_amount "5.328.28" = some (532828 / 100) := by
  refine ⟨extract_amount_multidot.1, ?_⟩
  have h := extract_amount_multidot.2.2 "5.328.28" ("5.328.28".data)
    rfl (by decide) (by decide) (by decide)
  rw [h, amtSign, if_neg (by decide)]
  rw [show natVal ((splitDots "5.328.28".data).dropLast.flatten) = 5328 from by decide]
  rw [show natVal ((splitDots "5.328.28".data).getLast?.getD []) = 28 from by decide]
  rw [show ((splitDots "5.328.28".data).getLast?.getD []).length = 2 from by decide]
  norm_num

/-- C2: parse_balance maps 1,234.56DR to -1234.56, and in general a
DR marker forces the result negative exactly when the computed
magnitude is non-negative, while a magnitude already negative from a
leading minus is returned unchanged, never negated a second time. -/
theorem parse_balance_dr_sign :
    parse_balance "1,234.56DR" = some (-(123456 / 100 : ℚ)) ∧
    (∀ s m, parseBalanceMag s = some m → 0 ≤ m → hasDRmark s = true →
      parse_balance s = some (-m)) ∧
    (∀ s m, parseBalanceMag s = some m → m < 0 → parse_balance s = some m) ∧
    (∀ s m, parseBalanceMag s = some m → 0 ≤ m → hasDRmark s = false →
      parse_balance s = some m) := by
  refine ⟨?_, ?_, ?_, ?_⟩
  · have hmag : parseBalanceMag "1,234.56DR" = some (floatVal 123456 2) := rfl
    rw [parse_balance, hmag, Option.map_some']
    rw [if_neg (by norm_num [floatVal])]
    rw [if_pos (by decide : hasDRmark "1,234.56DR" = true)]
    rw [floatVal]
    norm_num
  · intro s m hm h0 hdr
    rw [parse_balance, hm, Option.map_some', if_neg (not_lt.mpr h0), if_pos hdr]
  · intro s m hm hneg
    rw [parse_balance, hm, Option.map_some', if_pos hneg]
  · intro s m hm h0 hdr
    rw [parse_balance, hm, Option.map_some', if_neg (not_lt.mpr h0)]
    rw [if_neg (by rw [hdr]; exact Bool.false_ne_true)]

/-- Witness for C2: the DR-negation rule applied to 1,234.56DR and
the no-double-negation rule applied to -5DR, whose magnitude is
already negative and survives unchanged. -/
theorem parse_balance_dr_sign_witness :
    parse_balance "1,234.56DR" = some (-(floatVal 123456 2)) ∧
      parse_balance "-5DR" = some (floatVal (-5) 0) := by
  refine ⟨?_, ?_⟩
  · exact parse_balance_dr_sign.2.1 "1,234.56DR" (floatVal 123456 2) rfl
      (by norm_num [floatVal]) (by decide)
  · exact parse_balance_dr_sign.2.2.1 "-5DR" (floatVal (-5) 0) rfl
      (by norm_num [floatVal])

/-! ## Date and calendar utilities

Models for the date side of the system (date_cleaning.py): decimal
formatting as produced by the f-strings and strftime of the source,
the datetime calendar (dates compare lexicographically by year, month
and day; timedelta arithmetic runs over serial day numbers computed
with the standard civil-calendar conversion), and int() on numeric
strings. -/

/-- Decimal digit character of a value below ten. -/
def digitChar (d : ℕ) : Char := Char.ofNat (48 + d)

/-- Decimal numeral with explicit fuel, structurally recursive so
that it evaluates inside the kernel. -/
def natStrGo : ℕ → ℕ → List Char
  | 0, _ => []
  | fuel + 1, n =>
    if n < 10 then [digitChar n] else natStrGo fuel (n / 10) ++ [digitChar (n % 10)]

/-- Decimal numeral of a natural number, no padding, models str(n)
and the strftime year field. -/
def natStrL (n : ℕ) : List Char := natStrGo (n + 1) n

/-- Two-digit zero-padded numeral, models the 02d format fields. -/
def pad2L (n : ℕ) : List Char := if n < 10 then '0' :: natStrL n else natStrL n

/-- Letter test for the regex class of upper and lower case letters. -/
def isAlphaC (c : Char) : Bool :=
  decide (65 ≤ c.toNat ∧ c.toNat ≤ 90) || decide (97 ≤ c.toNat ∧ c.toNat ≤ 122)

/-- Models int() on a token: optional surrounding whitespace, an
optional sign and at least one digit. -/
def intOfStr? (l : List Char) : Option ℤ :=
  let t := stripL l
  if t.head? = some '-' then
    if t.tail ≠ [] ∧ t.tail.all isDigitC then some (-(natVal t.tail : ℤ)) else none
  else if t.head? = some '+' then
    if t.tail ≠ [] ∧ t.tail.all isDigitC then some ((natVal t.tail : ℤ)) else none
  else if t ≠ [] ∧ t.all isDigitC then some ((natVal t : ℤ)) else none

/-- Split a character list at every occurrence of a separator,
keeping empty segments, models str.split. -/
def splitOnC (sep : Char) : List Char → List (List Char)
  | [] => [[]]
  | c :: rest =>
    if c = sep then [] :: splitOnC sep rest
    else
      match splitOnC sep rest with
      | [] => [[c]]
      | p :: ps => (c :: p) :: ps

/-- One calendar date as handled by datetime. -/
structure DMY where
  day : ℤ
  month : ℤ
  year : ℤ
deriving DecidableEq

/-- datetime comparison: lexicographic by year, month, day. -/
def dmyLE (a b : DMY) : Bool :=
  decide (a.year < b.year) ||
    (decide (a.year = b.year) &&
      (decide (a.month < b.month) ||
        (decide (a.month = b.month) && decide (a.day ≤ b.day))))

/-- Strict datetime comparison. -/
def dmyLT (a b : DMY) : Bool :=
  decide (a.year < b.year) ||
    (decide (a.year = b.year) &&
      (decide (a.month < b.month) ||
        (decide (a.month = b.month) && decide (a.day < b.day))))

/-- Serial day number of a civil date (standard conversion, floor
divisions); models the day count underlying datetime subtraction. -/
def toDayNum (p : DMY) : ℤ :=
  let y := if p.month ≤ 2 then p.year - 1 else p.year
  let era := Int.fdiv y 400
  let yoe := y - era * 400
  let mp := if 2 < p.month then p.month - 3 else p.month + 9
  let doy := Int.fdiv (153 * mp + 2) 5 + p.day - 1
  let doe := yoe * 365 + Int.fdiv yoe 4 - Int.fdiv yoe 100 + doy
  era * 146097 + doe - 719468

/-- Civil date of a serial day number (standard inverse conversion). -/
def ofDayNum (zin : ℤ) : DMY :=
  let z := zin + 719468
  let era := Int.fdiv z 146097
  let doe := z - era * 146097
  let yoe := Int.fdiv (doe - Int.fdiv doe 1460 + Int.fdiv doe 36524 - Int.fdiv doe 146096) 365
  let y := yoe + era * 400
  let doy := doe - (365 * yoe + Int.fdiv yoe 4 - Int.fdiv yoe 100)
  let mp := Int.fdiv (5 * doy + 2) 153
  let d := doy - Int.fdiv (153 * mp + 2) 5 + 1
  let m := if mp < 10 then mp + 3 else mp - 9
  ⟨d, m, if m ≤ 2 then y + 1 else y⟩

/-- strftime of a date in the canonical day/month/year layout: day
and month zero-padded to two digits, the year unpadded. -/
def fmtDMY (p : DMY) : String :=
  String.mk (pad2L p.day.toNat ++ '/' :: pad2L p.month.toNat ++ '/' :: natStrL p.year.toNat)

/-- timedelta addition of a signed number of days followed by
strftime. -/
def addDaysFmt (p : DMY) (k : ℤ) : String := fmtDMY (ofDayNum (toDayNum p + k))

/-- Range and leap-year validity of the three components, as checked
by is_valid_date. -/
def validDMY (d m y : ℤ) : Bool :=
  if 1 ≤ d ∧ d ≤ 31 ∧ 1 ≤ m ∧ m ≤ 12 ∧ 1900 ≤ y ∧ y ≤ 2100 then
    if (m = 4 ∨ m = 6 ∨ m = 9 ∨ m = 11) ∧ 30 < d then false
    else if m = 2 then
      if (y % 4 = 0 ∧ y % 100 ≠ 0) ∨ y % 400 = 0 then decide (d ≤ 29)
      else decide (d ≤ 28)
    else true
  else false

/-- Components of a slash-separated date string via int(), models
map(int, date_str.split(sep)) with exactly three parts. -/
def splitDate? (l : List Char) : Option DMY :=
  match splitOnC '/' l with
  | [a, b, c] =>
    match intOfStr? a, intOfStr? b, intOfStr? c with
    | some d, some m, some y => some ⟨d, m, y⟩
    | _, _, _ => none
  | _ => none

/-- Embedding of is_valid_date (date_cleaning.py, lines 227-253). -/
def is_valid_date (s : String) : Bool :=
  if s.data = [] ∨ stripL s.data = [] ∨ s.data.map lcC = ['n', 'a', 'n'] ∨
      s.data = ['N', 'o', 'n', 'e'] then false
  else
    match splitDate? (stripL s.data) with
    | some p => validDMY p.day p.month p.year
    | none => false

/-- Parsed components of a date string that already passed
is_valid_date, with a junk fallback that the callers never reach. -/
def theDMY (s : String) : DMY := (splitDate? (stripL s.data)).getD ⟨1, 1, 1900⟩

/-! ## Date token parser

Embedding of parse_custom_date and normalize_month
(date_cleaning.py, lines 14-225).  Each regular expression of the
source is hand-compiled into a deterministic scanner; the scanners
are equivalent to the backtracking originals because every adjacent
pair of sub-patterns draws from disjoint character classes.  The
pandas to_datetime fallback and the difflib get_close_matches call
are third-party code outside the repository and enter the embedding
as parameters; to_datetime results carry the pandas Timestamp bounds
as invariants. -/

/-- Left-to-right non-overlapping replacement of a fixed pattern
with explicit fuel (the starting list length suffices). -/
def replaceAllGo (pat rep : List Char) : ℕ → List Char → List Char
  | 0, l => l
  | _, [] => []
  | fuel + 1, c :: rest =>
    if pat ≠ [] ∧ pat.isPrefixOf (c :: rest) then
      rep ++ replaceAllGo pat rep fuel ((c :: rest).drop pat.length)
    else c :: replaceAllGo pat rep fuel rest

/-- Left-to-right non-overlapping replacement of a fixed pattern,
models str.replace. -/
def replaceAll (pat rep l : List Char) : List Char := replaceAllGo pat rep l.length l

/-- Index of the first closing parenthesis reachable without crossing
a newline, as the non-greedy dot of the parenthesis regex sees it. -/
def findClose : List Char → Option ℕ
  | [] => none
  | c :: rest =>
    if c = ')' then some 0
    else if c = '\n' then none
    else (findClose rest).map (· + 1)

/-- Removal of parenthesised fragments with explicit fuel. -/
def removeParensGo : ℕ → List Char → List Char
  | 0, l => l
  | _, [] => []
  | fuel + 1, c :: rest =>
    if c = '(' then
      match findClose rest with
      | some k => removeParensGo fuel (rest.drop (k + 1))
      | none => c :: removeParensGo fuel rest
    else c :: removeParensGo fuel rest

/-- Removal of parenthesised fragments, models the non-greedy
parenthesis substitution. -/
def removeParens (l : List Char) : List Char := removeParensGo l.length l

/-- Collapse of every whitespace run to one space with explicit
fuel. -/
def collapseWSGo : ℕ → List Char → List Char
  | 0, l => l
  | _, [] => []
  | fuel + 1, c :: rest =>
    if isSpaceC c then ' ' :: collapseWSGo fuel (rest.dropWhile isSpaceC)
    else c :: collapseWSGo fuel rest

/-- Collapse of every whitespace run to one space, models the
whitespace substitution. -/
def collapseWS (l : List Char) : List Char := collapseWSGo l.length l

/-- Search for a standalone 00 group: two zeros with no digit
directly on either side.  The flag records whether the previous
character was a digit. -/
def has00go : Bool → List Char → Bool
  | _, [] => false
  | prevD, c :: rest =>
    (decide (c = '0') && !prevD &&
      (match rest with
       | [] => false
       | c2 :: rest2 =>
         decide (c2 = '0') &&
           (match rest2 with
            | [] => true
            | c3 :: _ => !isDigitC c3))) ||
      has00go (isDigitC c) rest

/-- Embedding of the standalone-00 rejection test. -/
def has00 (l : List Char) : Bool := has00go false l

/-- Sequential month-name canonicalisations applied before the
strategies, in the dictionary order of the source. -/
def monthCorrPairs : List (List Char × List Char) :=
  [("JULY".data, "JUL".data), ("JANUARY".data, "JAN".data),
    ("FEBRUARY".data, "FEB".data), ("MARCH".data, "MAR".data),
    ("APRIL".data, "APR".data), ("JUNE".data, "JUN".data),
    ("AUGUST".data, "AUG".data), ("SEPTEMBER".data, "SEP".data),
    ("SEPT".data, "SEP".data), ("OCTOBER".data, "OCT".data),
    ("NOVEMBER".data, "NOV".data), ("DECEMBER".data, "DEC".data)]

/-- Cleaning pipeline of parse_custom_date: upper-case, drop
parenthesised fragments, collapse whitespace, fix the 0CT and A0G
OCR shapes, drop backticks and apostrophes and brackets and braces,
canonicalise month names, strip. -/
def cleanDateTok (ox : List Char) : List Char :=
  stripL
    (monthCorrPairs.foldl (fun acc p => replaceAll p.1 p.2 acc)
      (((replaceAll ['A', '0', 'G'] ['A', 'U', 'G']
            (replaceAll ['0', 'C', 'T'] ['O', 'C', 'T']
              (collapseWS (removeParens (ox.map ucC))))).filter fun c =>
          !(decide (c.toNat = 96) || decide (c.toNat = 39))).filter fun c =>
        !(decide (c = '[') || decide (c = ']') || decide (c.toNat = 123) ||
          decide (c.toNat = 125))))

/-- Base month alias table: the custom OCR-aware map followed by the
full-name map, in insertion order. -/
def monthBase : List (String × String) :=
  [("JAN", "01"), ("AN", "01"), ("JA", "01"), ("JANUARY", "01"),
    ("FEB", "02"), ("FE", "02"), ("FB", "02"), ("FEBRUARY", "02"),
    ("MAR", "03"), ("MR", "03"), ("RCH", "03"), ("MARCH", "03"),
    ("APR", "04"), ("AP", "04"), ("APRIL", "04"),
    ("MAY", "05"), ("MY", "05"),
    ("JUN", "06"), ("JN", "06"), ("UN", "06"), ("JUNE", "06"),
    ("JUL", "07"), ("JL", "07"), ("UL", "07"), ("JULY", "07"), ("JU", "07"),
    ("AUG", "08"), ("AU", "08"), ("A0G", "08"), ("AUGUST", "08"),
    ("SEP", "09"), ("SE", "09"), ("SEPT", "09"), ("SEPTEMBER", "09"),
    ("OCT", "10"), ("OC", "10"), ("0CT", "10"), ("0ct", "10"), ("OCTOBER", "10"),
    ("NOV", "11"), ("NO", "11"), ("NOVEMBER", "11"),
    ("DEC", "12"), ("DE", "12"), ("DECEMBER", "12"),
    ("january", "01"), ("jan", "01"), ("february", "02"), ("feb", "02"),
    ("march", "03"), ("mar", "03"), ("april", "04"), ("apr", "04"),
    ("may", "05"), ("june", "06"), ("jun", "06"), ("july", "07"), ("jul", "07"),
    ("august", "08"), ("aug", "08"), ("september", "09"), ("sep", "09"),
    ("sept", "09"), ("october", "10"), ("oct", "10"), ("november", "11"),
    ("nov", "11"), ("december", "12"), ("dec", "12")]

/-- Python str.upper on a whole string. -/
def upperS (s : String) : String := String.mk (s.data.map ucC)

/-- Python str.lower on a whole string. -/
def lowerS (s : String) : String := String.mk (s.data.map lcC)

/-- Python str.capitalize: first character upper, rest lower. -/
def capPy (s : String) : String :=
  match s.data with
  | [] => ""
  | c :: rest => String.mk (ucC c :: rest.map lcC)

/-- The extended month map: every base key in upper, lower and
capitalised variants, in insertion order, duplicates kept (the first
occurrence decides, as in the dictionary). -/
def monthAList : List (String × String) :=
  (monthBase.map fun p => [(upperS p.1, p.2), (lowerS p.1, p.2), (capPy p.1, p.2)]).flatten

/-- First-match association lookup, models dictionary access. -/
def alookup : List (String × String) → String → Option String
  | [], _ => none
  | p :: rest, k => if p.1 = k then some p.2 else alookup rest k

/-- Embedding of normalize_month, with the approximate-similarity
matcher of difflib abstracted as the parameter fz, which returns a
candidate key of the alias table or nothing.  A key outside the
table makes the lookup raise, which the except of the source turns
into None. -/
def normalizeMonth (fz : String → Option String) (token : String) : Option String :=
  if token.data = [] then none
  else
    let t := String.mk (stripL (token.data.map ucC))
    match alookup monthAList t with
    | some v => some v
    | none =>
      let ct := String.mk (t.data.filter fun c => decide (65 ≤ c.toNat ∧ c.toNat ≤ 90))
      match (if ct.data ≠ [] then alookup monthAList ct else none) with
      | some v => some v
      | none =>
        match (if 4 ≤ t.length then alookup monthAList (String.mk (t.data.take 4)) else none) with
        | some v => some v
        | none =>
          match (if 3 ≤ t.length then alookup monthAList (String.mk (t.data.take 3)) else none) with
          | some v => some v
          | none =>
            match fz t with
            | some k => alookup monthAList k
            | none =>
              (monthAList.find? fun p =>
                containsSeq p.1.data t.data || containsSeq t.data p.1.data).map Prod.snd

/-- Separator class of the mixed numeric prefix pattern. -/
def isSep1 (c : Char) : Bool :=
  decide (c.toNat = 45) || decide (c.toNat = 47) || decide (c.toNat = 46)

/-- Separator class of the strategy patterns: dash, slash, dot and
whitespace. -/
def isSepD (c : Char) : Bool := isSep1 c || isSpaceC c

/-- Scanner for the noise-prefixed numeric date pattern: optional
spaces, a digit run, spaces, a one-or-two digit day, one separator,
a one-or-two digit month, one separator, a two-to-four digit year,
then only spaces. -/
def matchMixed1 (l : List Char) : Option (ℕ × ℕ × List Char) :=
  let r0 := l.dropWhile isSpaceC
  let d1 := r0.takeWhile isDigitC
  let r1 := r0.dropWhile isDigitC
  if d1 = [] then none
  else
    let sp := r1.takeWhile isSpaceC
    let r2 := r1.dropWhile isSpaceC
    if sp = [] then none
    else
      let dd := r2.takeWhile isDigitC
      let r3 := r2.dropWhile isDigitC
      if dd = [] ∨ 2 < dd.length then none
      else
        match r3 with
        | [] => none
        | s1 :: r4 =>
          if isSep1 s1 then
            let mm := r4.takeWhile isDigitC
            let r5 := r4.dropWhile isDigitC
            if mm = [] ∨ 2 < mm.length then none
            else
              match r5 with
              | [] => none
              | s2 :: r6 =>
                if isSep1 s2 then
                  let yy := r6.takeWhile isDigitC
                  let r7 := r6.dropWhile isDigitC
                  if yy.length < 2 ∨ 4 < yy.length then none
                  else if r7.all isSpaceC then some (natVal dd, natVal mm, yy)
                  else none
                else none
          else none

/-- Scanner for the noise-prefixed alphabetic date pattern: optional
spaces, a digit run, spaces, a one-or-two digit day, separators, a
three-to-nine letter month, separators, a two-to-four digit year,
then only spaces. -/
def matchMixed2 (l : List Char) : Option (ℕ × List Char × List Char) :=
  let r0 := l.dropWhile isSpaceC
  let d1 := r0.takeWhile isDigitC
  let r1 := r0.dropWhile isDigitC
  if d1 = [] then none
  else
    let sp := r1.takeWhile isSpaceC
    let r2 := r1.dropWhile isSpaceC
    if sp = [] then none
    else
      let dd := r2.takeWhile isDigitC
      let r3 := r2.dropWhile isDigitC
      if dd = [] ∨ 2 < dd.length then none
      else
        let s1 := r3.takeWhile isSepD
        let r4 := r3.dropWhile isSepD
        if s1 = [] then none
        else
          let mon := r4.takeWhile isAlphaC
          let r5 := r4.dropWhile isAlphaC
          if mon.length < 3 ∨ 9 < mon.length then none
          else
            let s2 := r5.takeWhile isSepD
            let r6 := r5.dropWhile isSepD
            if s2 = [] then none
            else
              let yy := r6.takeWhile isDigitC
              let r7 := r6.dropWhile isDigitC
              if yy.length < 2 ∨ 4 < yy.length then none
              else if r7.all isSpaceC then some (natVal dd, mon, yy)
              else none

/-- Scanner for day, month name, year with separators (prefix
match): the year keeps at most its first four digits. -/
def matchDMonY (l : List Char) : Option (ℕ × List Char × List Char) :=
  let dd := l.takeWhile isDigitC
  let r1 := l.dropWhile isDigitC
  if dd = [] ∨ 2 < dd.length then none
  else
    let s1 := r1.takeWhile isSepD
    let r2 := r1.dropWhile isSepD
    if s1 = [] then none
    else
      let mon := r2.takeWhile isAlphaC
      let r3 := r2.dropWhile isAlphaC
      if mon.length < 3 ∨ 9 < mon.length then none
      else
        let s2 := r3.takeWhile isSepD
        let r4 := r3.dropWhile isSepD
        if s2 = [] then none
        else
          let yy := r4.takeWhile isDigitC
          if yy.length < 2 then none
          else some (natVal dd, mon, yy.take 4)

/-- Scanner for month name, day, year with separators (prefix
match). -/
def matchMonDY (l : List Char) : Option (ℕ × List Char × List Char) :=
  let mon := l.takeWhile isAlphaC
  let r1 := l.dropWhile isAlphaC
  if mon.length < 3 ∨ 9 < mon.length then none
  else
    let s1 := r1.takeWhile isSepD
    let r2 := r1.dropWhile isSepD
    if s1 = [] then none
    else
      let dd := r2.takeWhile isDigitC
      let r3 := r2.dropWhile isDigitC
      if dd = [] ∨ 2 < dd.length then none
      else
        let s2 := r3.takeWhile isSepD
        let r4 := r3.dropWhile isSepD
        if s2 = [] then none
        else
          let yy := r4.takeWhile isDigitC
          if yy.length < 2 then none
          else some (natVal dd, mon, yy.take 4)

/-- Scanner for year, month, day numeric with separators (prefix
match): the leading digit run must be exactly four digits. -/
def matchYMDnum (l : List Char) : Option (ℕ × ℕ × List Char) :=
  let y4 := l.takeWhile isDigitC
  let r1 := l.dropWhile isDigitC
  if y4.length ≠ 4 then none
  else
    let s1 := r1.takeWhile isSepD
    let r2 := r1.dropWhile isSepD
    if s1 = [] then none
    else
      let mm := r2.takeWhile isDigitC
      let r3 := r2.dropWhile isDigitC
      if mm = [] ∨ 2 < mm.length then none
      else
        let s2 := r3.takeWhile isSepD
        let r4 := r3.dropWhile isSepD
        if s2 = [] then none
        else
          let dd := r4.takeWhile isDigitC
          if dd = [] then none
          else some (natVal (dd.take 2), natVal mm, y4)

/-- Scanner for day, month, year numeric with separators (prefix
match): the year takes the first four of at least four digits. -/
def matchDMYnum (l : List Char) : Option (ℕ × ℕ × List Char) :=
  let dd := l.takeWhile isDigitC
  let r1 := l.dropWhile isDigitC
  if dd = [] ∨ 2 < dd.length then none
  else
    let s1 := r1.takeWhile isSepD
    let r2 := r1.dropWhile isSepD
    if s1 = [] then none
    else
      let mm := r2.takeWhile isDigitC
      let r3 := r2.dropWhile isDigitC
      if mm = [] ∨ 2 < mm.length then none
      else
        let s2 := r3.takeWhile isSepD
        let r4 := r3.dropWhile isSepD
        if s2 = [] then none
        else
          let yy := r4.takeWhile isDigitC
          if yy.length < 4 then none
          else some (natVal dd, natVal mm, yy.take 4)

/-- Scanner for the compact eight-digit year month day shape (prefix
match on the digit run). -/
def matchC8 (l : List Char) : Option (ℕ × ℕ × List Char) :=
  let ds := l.takeWhile isDigitC
  if ds.length < 8 then none
  else some (natVal ((ds.drop 6).take 2), natVal ((ds.drop 4).take 2), ds.take 4)

/-- Scanner for compact day, month name, year with no separators. -/
def matchCDMonY (l : List Char) : Option (ℕ × List Char × List Char) :=
  let dd := l.takeWhile isDigitC
  let r1 := l.dropWhile isDigitC
  if dd = [] ∨ 2 < dd.length then none
  else
    let mon := r1.takeWhile isAlphaC
    let r2 := r1.dropWhile isAlphaC
    if mon.length < 3 ∨ 9 < mon.length then none
    else
      let yy := r2.takeWhile isDigitC
      if yy.length < 2 then none
      else some (natVal dd, mon, yy.take 4)

/-- Scanner for compact month name, day, year with no separators:
three digits split one and two, four or more split two and the
rest up to four. -/
def matchCMonDY (l : List Char) : Option (ℕ × List Char × List Char) :=
  let mon := l.takeWhile isAlphaC
  let r1 := l.dropWhile isAlphaC
  if mon.length < 3 ∨ 9 < mon.length then none
  else
    let ds := r1.takeWhile isDigitC
    if ds.length < 3 then none
    else if ds.length = 3 then some (natVal (ds.take 1), mon, (ds.drop 1).take 2)
    else some (natVal (ds.take 2), mon, (ds.drop 2).take 4)

/-- Two-digit year expansion: up to 30 becomes 20xx, else 19xx. -/
def yearFix (y : List Char) : List Char :=
  if y.length = 2 then (if natVal y ≤ 30 then '2' :: '0' :: y else '1' :: '9' :: y) else y

/-- Formatting of a numeric day and month with a year string, as the
f-strings of the source produce it. -/
def fmtNumDate (d m : ℕ) (y : List Char) : String :=
  String.mk (pad2L d ++ '/' :: pad2L m ++ '/' :: y)

/-- Formatting of a numeric day, a resolved month code and a year
string. -/
def fmtMonDate (d : ℕ) (mn : String) (y : List Char) : String :=
  String.mk (pad2L d ++ '/' :: mn.data ++ '/' :: y)

/-- Modelled from the spec: the result of the pandas to_datetime
fallback (the generic locale-aware parse of strategy seven), which
is third-party code outside src.  A successful parse is a pandas
Timestamp, whose components always lie in the documented Timestamp
range. -/
structure PdTs where
  day : ℕ
  month : ℕ
  year : ℕ
  day_pos : 1 ≤ day
  day_le : day ≤ 31
  month_pos : 1 ≤ month
  month_le : month ≤ 12
  year_lb : 1677 ≤ year
  year_ub : year ≤ 2262

/-- strftime of a fallback result in day, month, year layout. -/
def fmtPd (p : PdTs) : String :=
  String.mk (pad2L p.day ++ '/' :: pad2L p.month ++ '/' :: natStrL p.year)

/-- Strategy: day, month name, year. -/
def strat1 (fz : String → Option String) (xu : List Char) : Option String :=
  (matchDMonY xu).bind fun t =>
    (normalizeMonth fz (String.mk t.2.1)).map fun mn => fmtMonDate t.1 mn (yearFix t.2.2)

/-- Strategy: month name, day, year. -/
def strat2 (fz : String → Option String) (xu : List Char) : Option String :=
  (matchMonDY xu).bind fun t =>
    (normalizeMonth fz (String.mk t.2.1)).map fun mn => fmtMonDate t.1 mn (yearFix t.2.2)

/-- Strategy: numeric year, month, day. -/
def strat3 (xu : List Char) : Option String :=
  (matchYMDnum xu).map fun t => fmtNumDate t.1 t.2.1 t.2.2

/-- Strategy: numeric day, month, year. -/
def strat4 (xu : List Char) : Option String :=
  (matchDMYnum xu).map fun t => fmtNumDate t.1 t.2.1 t.2.2

/-- Strategy: compact eight digits. -/
def strat5 (xu : List Char) : Option String :=
  (matchC8 xu).map fun t => fmtNumDate t.1 t.2.1 t.2.2

/-- Strategy: compact day, month name, year. -/
def strat6 (fz : String → Option String) (xns : List Char) : Option String :=
  (matchCDMonY xns).bind fun t =>
    (normalizeMonth fz (String.mk t.2.1)).map fun mn => fmtMonDate t.1 mn (yearFix t.2.2)

/-- Strategy: compact month name, day, year. -/
def strat7 (fz : String → Option String) (xns : List Char) : Option String :=
  (matchCMonDY xns).bind fun t =>
    (normalizeMonth fz (String.mk t.2.1)).map fun mn => fmtMonDate t.1 mn (yearFix t.2.2)

/-- Strategy: a bare four-digit year is returned verbatim. -/
def bareYear (xu : List Char) : Option String :=
  if xu.length = 4 ∧ xu.all isDigitC then some (String.mk xu) else none

/-- Strategy: the to_datetime fallback, day-first then plain, each
result rejected when its day field renders as 00. -/
def pdFallback (fb : Bool → String → Option PdTs) (ox : List Char) : Option String :=
  match fb true (String.mk ox) with
  | some p => if (fmtPd p).data.take 3 = ['0', '0', '/'] then none else some (fmtPd p)
  | none =>
    match fb false (String.mk ox) with
    | some p => if (fmtPd p).data.take 3 = ['0', '0', '/'] then none else some (fmtPd p)
    | none => none

/-- First defined strategy result. -/
def firstSomeS (l : List (Option String)) : Option String := l.findSome? id

/-- Embedding of parse_custom_date: the empty guard, the standalone
00 rejection, the two noise-prefixed patterns on the stripped
original, then the cleaned strategies in source order, the bare
year, and the to_datetime fallback. -/
def parseCustomDate (fb : Bool → String → Option PdTs) (fz : String → Option String)
    (x : String) : Option String :=
  let ox := stripL x.data
  if ox = [] then none
  else if has00 ox then none
  else
    match matchMixed1 ox with
    | some t => some (fmtNumDate t.1 t.2.1 (yearFix t.2.2))
    | none =>
      match
        (matchMixed2 ox).bind fun t =>
          (normalizeMonth fz (String.mk (t.2.1.map ucC))).map fun mn =>
            fmtMonDate t.1 mn (yearFix t.2.2) with
      | some r => some r
      | none =>
        let xu := cleanDateTok ox
        firstSomeS [strat1 fz xu, strat2 fz xu, strat3 xu, strat4 xu, strat5 xu,
          strat6 fz (xu.filter fun c => !isSpaceC c),
          strat7 fz (xu.filter fun c => !isSpaceC c),
          bareYear xu, pdFallback fb ox]

/-- Trivial instantiations of the third-party parameters, used for
concrete evaluations that never reach them. -/
def fbNone : Bool → String → Option PdTs := fun _ _ => none

/-- Trivial similarity matcher: no fuzzy candidate. -/
def fzNone : String → Option String := fun _ => none

/-! ## Chronology repair

Embedding of date_correction, create_date_list_through_backtracking,
rotate_if_descending, fix_chronological_year_issues and
process_all_dates (date_cleaning.py, lines 329-1355).  A table keeps,
per row, the transaction-date cell, the secondary value-date cell and
the remaining cells; only the transaction-date column is ever
rewritten, so the working state of every pass is the list of current
date strings.  An empty cell, a NaN cell and a failed parse all
behave as the empty string, exactly as the str/notna plumbing of the
source makes them. -/

/-- Statement direction. -/
inductive Direction
  | ascending
  | descending
deriving DecidableEq

/-- One table row: transaction date, value date, all other cells. -/
structure DRow where
  xn : String
  vd : String
  rest : List String
deriving DecidableEq

/-- A table: whether a value-date column exists, and the rows. -/
structure DTable where
  hasVD : Bool
  rows : List DRow
deriving DecidableEq

/-- Fallback row for out-of-range access, never reached by the
in-range loops. -/
def defaultDRow : DRow := ⟨"", "", []⟩

/-- Emptiness of one cell: NaN or only whitespace. -/
def cellEmpty (s : String) : Bool := decide (stripL s.data = [])

/-- Emptiness of everything in a row except the transaction date. -/
def rowRestEmpty (hasVD : Bool) (r : DRow) : Bool :=
  (!hasVD || cellEmpty r.vd) && r.rest.all cellEmpty

/-- Embedding of is_empty_row against the current date of the row. -/
def emptyRowAt (t : DTable) (dates : List String) (i : ℕ) : Bool :=
  cellEmpty (dates.getD i "") && rowRestEmpty t.hasVD (t.rows.getD i defaultDRow)

/-- Transaction-date column of a table. -/
def xnList (t : DTable) : List String := t.rows.map DRow.xn

/-- Value-date cell of row i. -/
def vdAt (t : DTable) (i : ℕ) : String := (t.rows.getD i defaultDRow).vd

/-- Step 1 of date_correction: parse every transaction date, blank
rows keeping the empty string. -/
def parsedDates (fb : Bool → String → Option PdTs) (fz : String → Option String)
    (t : DTable) : List String :=
  (List.range t.rows.length).map fun i =>
    if emptyRowAt t (xnList t) i then ""
    else (parseCustomDate fb fz (sstrip ((t.rows.getD i defaultDRow).xn))).getD ""

/-- Nearest valid date strictly before index idx. -/
def findPrevValid (dates : List String) (idx : ℕ) : Option String :=
  ((List.range idx).reverse.find? fun i => is_valid_date (dates.getD i "")).map
    fun i => dates.getD i ""

/-- Nearest valid date strictly after index idx. -/
def findNextValid (dates : List String) (idx : ℕ) : Option String :=
  (((List.range dates.length).drop (idx + 1)).find? fun i =>
      is_valid_date (dates.getD i "")).map fun i => dates.getD i ""

/-- First-occurrence deduplication with an explicit seen list, models
the seen-set loop of get_date_order. -/
def dedupFirstGo (seen : List String) : List String → List String
  | [] => []
  | s :: rest =>
    if seen.contains s then dedupFirstGo seen rest
    else s :: dedupFirstGo (s :: seen) rest

/-- First-occurrence deduplication, models the seen-set of
get_date_order. -/
def dedupFirst (l : List String) : List String := dedupFirstGo [] l

/-- Embedding of get_date_order: unique valid dates, consecutive
pairwise comparison plus the first-versus-last pair, ties ascending. -/
def getDateOrder (dates : List String) : Direction :=
  let vals := dedupFirst (dates.filter fun s => is_valid_date s)
  if vals.length < 2 then Direction.ascending
  else
    let ds := vals.map theDMY
    let pairs := ds.zip ds.tail
    let asc := (pairs.filter fun p => dmyLE p.1 p.2).length
    let desc := pairs.length - asc
    let both : ℕ × ℕ :=
      match ds.head?, ds.getLast? with
      | some f, some l => if dmyLE f l then (asc + 1, desc) else (asc, desc + 1)
      | _, _ => (asc, desc)
    if both.2 ≤ both.1 then Direction.ascending else Direction.descending

/-- Embedding of is_date_in_order. -/
def isDateInOrder (cur : String) (prev? next? : Option String) (ord : Direction) : Bool :=
  if !is_valid_date cur then false
  else
    let c := theDMY cur
    let okPrev :=
      match prev? with
      | some p =>
        if is_valid_date p then
          match ord with
          | Direction.ascending => !dmyLT c (theDMY p)
          | Direction.descending => !dmyLT (theDMY p) c
        else true
      | none => true
    let okNext :=
      match next? with
      | some nx =>
        if is_valid_date nx then
          match ord with
          | Direction.ascending => !dmyLT (theDMY nx) c
          | Direction.descending => !dmyLT c (theDMY nx)
        else true
      | none => true
    okPrev && okNext

/-- Keep an optional date only when it is present and valid. -/
def validOpt : Option String → Option String
  | some s => if is_valid_date s then some s else none
  | none => none

/-- The strict rule: both neighbours exist, are valid and are equal. -/
def prevNextSame (prev? next? : Option String) : Bool :=
  match prev?, next? with
  | some p, some nx => is_valid_date p && is_valid_date nx && decide (p = nx)
  | _, _ => false

/-- Value-date strategy of the main repair loop: the parsed secondary
date, accepted when valid and in order. -/
def vdCandidate (fb : Bool → String → Option PdTs) (fz : String → Option String)
    (t : DTable) (idx : ℕ) (prev? next? : Option String) (ord : Direction) :
    Option String :=
  if t.hasVD then
    let vs := sstrip (vdAt t idx)
    if vs.data = [] then none
    else
      match parseCustomDate fb fz vs with
      | some pv =>
        if is_valid_date pv && isDateInOrder pv prev? next? ord then some pv else none
      | none => none
  else none

/-- Context-prediction strategy of the main repair loop, ascending
and descending mirrored as in the source. -/
def predictCandidate (cur : String) (prev? next? : Option String) (ord : Direction) :
    Option String :=
  match ord with
  | Direction.ascending =>
    match validOpt prev? with
    | some p =>
      let pD := theDMY p
      match validOpt next? with
      | some nx =>
        let nD := theDMY nx
        if dmyLT pD nD then
          let cD := theDMY cur
          if dmyLT cD pD then some (addDaysFmt pD 1)
          else if dmyLT nD cD then some (addDaysFmt nD (-1))
          else if cD = pD then
            if p ≠ nx then some (addDaysFmt pD 1) else some p
          else
            let total := toDayNum nD - toDayNum pD
            if 0 < total ∧ total ≤ 100 then some (addDaysFmt pD (total / 2))
            else if p ≠ nx then some (addDaysFmt pD 1) else some p
        else if p ≠ nx then some (addDaysFmt pD 1) else some p
      | none => some (addDaysFmt pD 1)
    | none =>
      match validOpt next? with
      | some nx => some (addDaysFmt (theDMY nx) (-1))
      | none => none
  | Direction.descending =>
    match validOpt next? with
    | some nx =>
      let nD := theDMY nx
      match validOpt prev? with
      | some p =>
        let pD := theDMY p
        if dmyLT nD pD then
          let cD := theDMY cur
          if dmyLT pD cD then some (addDaysFmt pD (-1))
          else if dmyLT cD nD then some (addDaysFmt nD 1)
          else if cD = pD then
            if p ≠ nx then some (addDaysFmt pD (-1)) else some p
          else
            let total := toDayNum pD - toDayNum nD
            if 0 < total ∧ total ≤ 100 then some (addDaysFmt nD (total / 2))
            else if p ≠ nx then some (addDaysFmt nD 1) else some nx
        else if p ≠ nx then some (addDaysFmt nD 1) else some nx
      | none => some (addDaysFmt nD 1)
    | none =>
      match validOpt prev? with
      | some p => some (addDaysFmt (theDMY p) (-1))
      | none => none

/-- Candidate of the main repair loop: the strict equal-neighbour
rule, then the value date, then context prediction. -/
def mainCandidate (fb : Bool → String → Option PdTs) (fz : String → Option String)
    (t : DTable) (idx : ℕ) (cur : String) (prev? next? : Option String)
    (ord : Direction) : Option String :=
  if prevNextSame prev? next? then prev?
  else
    match vdCandidate fb fz t idx prev? next? ord with
    | some c => some c
    | none => predictCandidate cur prev? next? ord

/-- One row of one pass of the main repair loop.  Emptiness is
judged against the dates the data frame held when the pass started,
neighbour lookups against the live working list. -/
def loopBody (fb : Bool → String → Option PdTs) (fz : String → Option String)
    (t : DTable) (startDates : List String) (ord : Direction)
    (st : List String × Bool) (idx : ℕ) : List String × Bool :=
  if emptyRowAt t startDates idx then st
  else
    let cur := st.1.getD idx ""
    if cur = "" then st
    else if is_valid_date cur then
      let prev? := findPrevValid st.1 idx
      let next? := findNextValid st.1 idx
      if !isDateInOrder cur prev? next? ord then
        match mainCandidate fb fz t idx cur prev? next? ord with
        | some cand =>
          if is_valid_date cand && isDateInOrder cand prev? next? ord then
            (st.1.set idx cand, true)
          else (st.1, true)
        | none => (st.1, true)
      else st
    else st

/-- One full pass of the main repair loop. -/
def mainIter (fb : Bool → String → Option PdTs) (fz : String → Option String)
    (t : DTable) (ord : Direction) (d : List String) : List String × Bool :=
  (List.range t.rows.length).foldl (loopBody fb fz t d ord) (d, false)

/-- Up to five passes with early exit when a pass flags nothing. -/
def mainLoop (fb : Bool → String → Option PdTs) (fz : String → Option String)
    (t : DTable) (ord : Direction) : ℕ → List String → List String
  | 0, d => d
  | k + 1, d =>
    let r := mainIter fb fz t ord d
    if r.2 then mainLoop fb fz t ord k r.1 else r.1

/-- Consecutive-index grouping of the unresolved rows. -/
def groupConsec (l : List ℕ) : List (List ℕ) :=
  let st := l.foldl
    (fun (st : List (List ℕ) × List ℕ) i =>
      match st.2.getLast? with
      | none => (st.1, [i])
      | some last => if i = last + 1 then (st.1, st.2 ++ [i]) else (st.1 ++ [st.2], [i]))
    ([], [])
  if st.2 = [] then st.1 else st.1 ++ [st.2]

/-- Stateful one-day stepping of the backtracking interpolation: the
cursor advances every iteration, a date is emitted only if valid. -/
def stepList (idxs : List ℕ) (startDN : ℤ) (delta : ℤ) : List (ℕ × String) :=
  (idxs.foldl
    (fun (st : ℤ × List (ℕ × String)) i =>
      let dn := st.1 + delta
      let nd := fmtDMY (ofDayNum dn)
      (dn, if is_valid_date nd then st.2 ++ [(i, nd)] else st.2))
    (startDN, [])).2

/-- Stateful stepping with a per-index increment, for the
fallback that walks away from the only valid date of the table. -/
def stepCumulList (idxs : List ℕ) (startDN : ℤ) (inc : ℕ → ℤ) : List (ℕ × String) :=
  (idxs.foldl
    (fun (st : ℤ × List (ℕ × String)) i =>
      let dn := st.1 + inc i
      let nd := fmtDMY (ofDayNum dn)
      (dn, if is_valid_date nd then st.2 ++ [(i, nd)] else st.2))
    (startDN, [])).2

/-- First valid date anywhere in the frame. -/
def findFirstValidIdx (dfDates : List String) : Option (ℕ × String) :=
  ((List.range dfDates.length).find? fun i => is_valid_date (dfDates.getD i "")).map
    fun i => (i, dfDates.getD i "")

/-- Core of create_date_list_through_backtracking once the value
dates are exhausted: interpolation between two bounds, one-day
stepping from a single bound, or the global-fallback walk. -/
def backtrackCore (dfDates : List String) (remaining : List ℕ) (ord : Direction)
    (before? after? : Option String) : List (ℕ × String) :=
  match before?, after? with
  | some bd, some ad =>
    let bN := toDayNum (theDMY bd)
    let aN := toDayNum (theDMY ad)
    match ord with
    | Direction.ascending =>
      let total := aN - bN
      if 0 < total then
        ((List.range remaining.length).zip remaining).filterMap fun p =>
          let nd := fmtDMY (ofDayNum (bN + ((p.1 : ℤ) + 1) * total / (remaining.length + 1)))
          if is_valid_date nd then some (p.2, nd) else none
      else stepList remaining bN 1
    | Direction.descending =>
      let total := bN - aN
      if 0 < total then
        ((List.range remaining.length).zip remaining).filterMap fun p =>
          let nd := fmtDMY (ofDayNum (bN - ((p.1 : ℤ) + 1) * total / (remaining.length + 1)))
          if is_valid_date nd then some (p.2, nd) else none
      else stepList remaining bN (-1)
  | some bd, none =>
    match ord with
    | Direction.ascending => stepList remaining (toDayNum (theDMY bd)) 1
    | Direction.descending => stepList remaining (toDayNum (theDMY bd)) (-1)
  | none, some ad =>
    match ord with
    | Direction.ascending => stepList remaining.reverse (toDayNum (theDMY ad)) (-1)
    | Direction.descending => stepList remaining.reverse (toDayNum (theDMY ad)) 1
  | none, none =>
    match findFirstValidIdx dfDates with
    | none => []
    | some av =>
      let avN := toDayNum (theDMY av.2)
      if av.1 < remaining.headD 0 then
        match ord with
        | Direction.ascending => stepCumulList remaining avN fun i => (i : ℤ) - av.1
        | Direction.descending => stepCumulList remaining avN fun i => -((i : ℤ) - av.1)
      else
        match ord with
        | Direction.ascending => stepCumulList remaining.reverse avN fun i => -((av.1 : ℤ) - i)
        | Direction.descending => stepCumulList remaining.reverse avN fun i => (av.1 : ℤ) - i

/-- Embedding of create_date_list_through_backtracking: bounding
valid dates, chronologically validated raw value dates, then the
interpolation core.  The frame dates are the snapshot the data frame
held when the group stage began. -/
def createBacktrack (t : DTable) (dfDates : List String) (missing : List ℕ)
    (ord : Direction) : List (ℕ × String) :=
  match missing.head? with
  | none => []
  | some first =>
    let before? := findPrevValid dfDates first
    let after? := findNextValid dfDates (missing.getLast?.getD first)
    let res0 : List (ℕ × String) := missing.filterMap fun idx =>
      if t.hasVD then
        let vs := sstrip (vdAt t idx)
        if vs.data ≠ [] ∧ is_valid_date vs then
          if isDateInOrder vs before? after? ord then some (idx, vs) else none
        else none
      else none
    if res0.length = missing.length then res0
    else
      let found := res0.map Prod.fst
      let remaining := missing.filter fun i => !found.contains i
      if remaining = [] then res0
      else res0 ++ backtrackCore dfDates remaining ord before? after?

/-- The equal-neighbour rule around one index over a working list. -/
def samePrevNext (dates : List String) (idx : ℕ) : Option String :=
  let p? := findPrevValid dates idx
  let n? := findNextValid dates idx
  if prevNextSame p? n? then p? else none

/-- Processing of one group of consecutive unresolved rows: the
parsed value-date pre-pass, the sequential equal-neighbour pass with
removal, then backtracking with the equal-neighbour rule applied to
each produced date. -/
def processGroup (fb : Bool → String → Option PdTs) (fz : String → Option String)
    (t : DTable) (dfDates : List String) (ord : Direction)
    (dates : List String) (group : List ℕ) : List String :=
  let dateList : List (ℕ × String) := group.filterMap fun idx =>
    if t.hasVD then
      let vs := sstrip (vdAt t idx)
      if vs.data ≠ [] then
        match parseCustomDate fb fz vs with
        | some pv =>
          if is_valid_date pv then
            let p? := findPrevValid dates idx
            let n? := findNextValid dates idx
            if prevNextSame p? n? then p?.map fun pd => (idx, pd)
            else if isDateInOrder pv p? n? ord then some (idx, pv)
            else none
          else none
        | none => none
      else none
    else none
  let dates1 := dateList.foldl (fun d p => d.set p.1 p.2) dates
  let rem1 := group.filter fun idx => !is_valid_date (dates1.getD idx "")
  let st2 := rem1.foldl
    (fun (st : List String × List ℕ) idx =>
      match samePrevNext st.1 idx with
      | some pd => (st.1.set idx pd, st.2.filter fun j => j ≠ idx)
      | none => st)
    (dates1, rem1)
  if st2.2 = [] then st2.1
  else
    (createBacktrack t dfDates st2.2 ord).foldl
      (fun d p =>
        if is_valid_date p.2 then
          match samePrevNext d p.1 with
          | some pd => d.set p.1 pd
          | none => d.set p.1 p.2
        else d)
      st2.1

/-- Step 4 of date_correction: group the rows that are neither blank
nor valid and run the group processing over each group in turn. -/
def backtrackPhase (fb : Bool → String → Option PdTs) (fz : String → Option String)
    (t : DTable) (ord : Direction) (dLoop : List String) : List String :=
  let remInv := (List.range t.rows.length).filter fun i =>
    !emptyRowAt t dLoop i && !is_valid_date (dLoop.getD i "")
  if remInv = [] then dLoop
  else (groupConsec remInv).foldl (processGroup fb fz t dLoop ord) dLoop

/-- One row of the final verification pass: residual out-of-order
valid dates get the equal-neighbour date, else a one-day step from
the neighbour dictated by the direction, unconditionally. -/
def finalBody (t : DTable) (startDates : List String) (ord : Direction)
    (dates : List String) (idx : ℕ) : List String :=
  if emptyRowAt t startDates idx then dates
  else
    let cur := dates.getD idx ""
    if cur = "" ∨ !is_valid_date cur then dates
    else
      let p? := findPrevValid dates idx
      let n? := findNextValid dates idx
      if isDateInOrder cur p? n? ord then dates
      else if prevNextSame p? n? then
        match p? with
        | some pd => dates.set idx pd
        | none => dates
      else
        match ord with
        | Direction.ascending =>
          match validOpt p? with
          | some pd => dates.set idx (addDaysFmt (theDMY pd) 1)
          | none => dates
        | Direction.descending =>
          match validOpt n? with
          | some nd => dates.set idx (addDaysFmt (theDMY nd) 1)
          | none => dates

/-- The final verification pass over every row. -/
def finalPhase (t : DTable) (ord : Direction) (d : List String) : List String :=
  (List.range t.rows.length).foldl (finalBody t d ord) d

/-- Replace the transaction-date column of a table. -/
def setDates (t : DTable) (dates : List String) : DTable :=
  ⟨t.hasVD, List.zipWith (fun r s => ⟨s, r.vd, r.rest⟩) t.rows dates⟩

/-- Embedding of date_correction: parse, direction inference, up to
five repair passes, run repair by backtracking, final verification,
and the recomputed final direction. -/
def dateCorrection (fb : Bool → String → Option PdTs) (fz : String → Option String)
    (t : DTable) : DTable × Direction :=
  let d0 := parsedDates fb fz t
  let ord := getDateOrder d0
  let dL := mainLoop fb fz t ord 5 d0
  let dB := backtrackPhase fb fz t ord dL
  let dF := finalPhase t ord dB
  (setDates t dF, getDateOrder dF)

/-- Embedding of rotate_if_descending: reverse the whole row sequence
as a single unit and report ascending. -/
def rotateIfDescending (t : DTable) (ord : Direction) : DTable × Direction :=
  if ord = Direction.descending then (⟨t.hasVD, t.rows.reverse⟩, Direction.ascending)
  else (t, ord)

/-- Rendering of a date with a replaced year as the year-fix
f-string produces it: padded day and month, unpadded year. -/
def fmtYearSwap (c : DMY) (y : ℤ) : String :=
  String.mk (pad2L c.day.toNat ++ '/' :: pad2L c.month.toNat ++ '/' :: natStrL y.toNat)

/-- Embedding of fix_chronological_year_issues: its own direction
inference without deduplication, the value-date year replacement,
and the small-drift year correction, each applied only when it keeps
the row in order. -/
def fixYear (t : DTable) : DTable × ℕ :=
  let dates := xnList t
  let infos := (dates.filter fun s => is_valid_date s).map theDMY
  if infos.length < 2 then (t, 0)
  else
    let pairs := infos.zip infos.tail
    let asc := (pairs.filter fun p => dmyLE p.1 p.2).length
    let desc := pairs.length - asc
    let both : ℕ × ℕ :=
      match infos.head?, infos.getLast? with
      | some f, some l => if dmyLE f l then (asc + 1, desc) else (asc, desc + 1)
      | _, _ => (asc, desc)
    let ord := if both.2 ≤ both.1 then Direction.ascending else Direction.descending
    let res := (List.range dates.length).foldl
      (fun (st : List String × ℕ) i =>
        if !is_valid_date (st.1.getD i "") then st
        else
          let c := theDMY (st.1.getD i "")
          let p? := findPrevValid st.1 i
          let n? := findNextValid st.1 i
          let vdTry : Option String :=
            if t.hasVD then
              let vs := sstrip (vdAt t i)
              if vs.data ≠ [] ∧ is_valid_date vs then
                let v := theDMY vs
                if v.year ≠ c.year then
                  let test := fmtYearSwap c v.year
                  if isDateInOrder test p? n? ord then some test else none
                else none
              else none
            else none
          match vdTry with
          | some test => (st.1.set i test, st.2 + 1)
          | none =>
            match ord with
            | Direction.ascending =>
              match validOpt p? with
              | some pd =>
                let p := theDMY pd
                if c.year < p.year ∧ (c.year - p.year).natAbs ≤ 5 then
                  let test := fmtYearSwap c p.year
                  if isDateInOrder test p? n? ord then (st.1.set i test, st.2 + 1) else st
                else st
              | none => st
            | Direction.descending => st)
      (dates, 0)
    (setDates t res.1, res.2)

/-- Embedding of process_all_dates: parse every date column, run
date_correction, rotate a descending table, run the year fix, and
drop the value-date column. -/
def processAllDates (fb : Bool → String → Option PdTs) (fz : String → Option String)
    (t : DTable) : DTable :=
  let t1 : DTable := ⟨t.hasVD, t.rows.map fun r =>
    ⟨(parseCustomDate fb fz r.xn).getD "",
      if t.hasVD then (parseCustomDate fb fz r.vd).getD "" else r.vd, r.rest⟩⟩
  let c := dateCorrection fb fz t1
  let r := rotateIfDescending c.1 c.2
  let f := fixYear r.1
  if f.1.hasVD then ⟨false, f.1.rows.map fun r => ⟨r.xn, "", r.rest⟩⟩ else f.1

/-- C7: when the inferred direction is descending the repairer
reverses the entire row sequence as one unit, every row keeping its
data and date together, and reports the direction ascending; row 0
of the output is the former last row. -/
theorem rotate_descending_reverses (t : DTable) :
    rotateIfDescending t Direction.descending =
      (⟨t.hasVD, t.rows.reverse⟩, Direction.ascending) ∧
    (∀ i, i < t.rows.length →
      (rotateIfDescending t Direction.descending).1.rows.getD i defaultDRow =
        t.rows.getD (t.rows.length - 1 - i) defaultDRow) := by
  have hrot : rotateIfDescending t Direction.descending =
      (⟨t.hasVD, t.rows.reverse⟩, Direction.ascending) := by
    rw [rotateIfDescending, if_pos rfl]
  refine ⟨hrot, ?_⟩
  intro i hi
  rw [hrot]
  show t.rows.reverse.getD i defaultDRow = _
  rw [List.getD_eq_getElem?_getD, List.getD_eq_getElem?_getD, List.getElem?_reverse hi]

/-- Witness for C7: a concrete three-row descending table is reversed
with its payloads intact and row 0 is the former last row. -/
theorem rotate_descending_reverses_witness :
    rotateIfDescending
        ⟨false, [⟨"03/01/2024", "", ["a"]⟩, ⟨"02/01/2024", "", ["b"]⟩,
          ⟨"01/01/2024", "", ["c"]⟩]⟩ Direction.descending =
      (⟨false, [⟨"01/01/2024", "", ["c"]⟩, ⟨"02/01/2024", "", ["b"]⟩,
        ⟨"03/01/2024", "", ["a"]⟩]⟩, Direction.ascending) ∧
    (rotateIfDescending
        ⟨false, [⟨"03/01/2024", "", ["a"]⟩, ⟨"02/01/2024", "", ["b"]⟩,
          ⟨"01/01/2024", "", ["c"]⟩]⟩ Direction.descending).1.rows.getD 0 defaultDRow =
      ⟨"01/01/2024", "", ["c"]⟩ := by
  refine ⟨?_, ?_⟩
  · rw [(rotate_descending_reverses _).1]
    decide
  · rw [(rotate_descending_reverses
      ⟨false, [⟨"03/01/2024", "", ["a"]⟩, ⟨"02/01/2024", "", ["b"]⟩,
        ⟨"01/01/2024", "", ["c"]⟩]⟩).2 0 (by decide)]
    decide

/-- Ledger of six valid dates on which chronology repair is not
idempotent: the first run leaves row five at 19/01/2024 behind a
21/01/2024 row, the second run pushes it to 22/01/2024. -/
def c3table : DTable :=
  ⟨false, [⟨"19/01/2024", "", ["x"]⟩, ⟨"01/01/2024", "", ["x"]⟩, ⟨"20/01/2024", "", ["x"]⟩,
    ⟨"15/01/2024", "", ["x"]⟩, ⟨"10/01/2024", "", ["x"]⟩, ⟨"05/01/2024", "", ["x"]⟩]⟩

set_option maxRecDepth 200000 in
/-- C3 counterexample: repair applied twice differs from repair
applied once on a concrete six-row ledger, so chronology repair is
not idempotent for every ledger. -/
theorem repair_not_idempotent :
    (processAllDates fbNone fzNone (processAllDates fbNone fzNone c3table)).rows.map DRow.xn ≠
      (processAllDates fbNone fzNone c3table).rows.map DRow.xn := by
  decide

/-! ## Output shape of the date parser

Every defined result of parse_custom_date is produced by one of the
f-string formatters, by the bare-year return or by the strftime of
the fallback.  The lemmas below bound the shape of each formatter
and combine them into the full codomain description: two digits,
slash, two digits, slash, then a three or four digit year string, or
a verbatim four digit year. -/

theorem char_toNat_inj {a b : Char} (h : a.toNat = b.toNat) : a = b :=
  Char.eq_of_val_eq (UInt32.ext h)

theorem char_toNat_ofNat {n : ℕ} (h : n < 55296) : (Char.ofNat n).toNat = n := by
  unfold Char.ofNat
  split
  · rfl
  · rename_i hv
    exact absurd (Or.inl h) hv

theorem digitChar_toNat {d : ℕ} (h : d ≤ 9) : (digitChar d).toNat = 48 + d := by
  unfold digitChar
  exact char_toNat_ofNat (by omega)

theorem isDigitC_digitChar {d : ℕ} (h : d ≤ 9) : isDigitC (digitChar d) = true := by
  simp [isDigitC, digitChar_toNat h]
  omega

theorem natStrGo_eq {f1 f2 n : ℕ} (h1 : n < f1) (h2 : n < f2) :
    natStrGo f1 n = natStrGo f2 n := by
  induction f1 generalizing f2 n with
  | zero => omega
  | succ f ih =>
    cases f2 with
    | zero => omega
    | succ g =>
      by_cases hn : n < 10
      · simp [natStrGo, hn]
      · simp only [natStrGo, if_neg hn]
        rw [ih (show n / 10 < f by omega) (show n / 10 < g by omega)]

theorem natStrL_single {n : ℕ} (h : n < 10) : natStrL n = [digitChar n] := by
  unfold natStrL natStrGo
  simp [h]

theorem natStrL_step {n : ℕ} (h : 10 ≤ n) :
    natStrL n = natStrL (n / 10) ++ [digitChar (n % 10)] := by
  unfold natStrL
  show natStrGo (n + 1) n = _
  rw [show natStrGo (n + 1) n = natStrGo n (n / 10) ++ [digitChar (n % 10)] from by
    simp [natStrGo, Nat.not_lt.mpr h]]
  rw [natStrGo_eq (show n / 10 < n by omega) (show n / 10 < n / 10 + 1 by omega)]

theorem natStrL_digits (n : ℕ) : (natStrL n).all isDigitC = true := by
  induction n using Nat.strong_induction_on with
  | _ n ih =>
    by_cases h : n < 10
    · rw [natStrL_single h]
      simp [isDigitC_digitChar (by omega : n ≤ 9)]
    · rw [natStrL_step (by omega), List.all_append, Bool.and_eq_true]
      refine ⟨ih (n / 10) (by omega), ?_⟩
      simp [isDigitC_digitChar (by omega : n % 10 ≤ 9)]

theorem natStrL_len {k : ℕ} : ∀ {n : ℕ}, 10 ^ k ≤ n → n < 10 ^ (k + 1) →
    (natStrL n).length = k + 1 := by
  induction k with
  | zero =>
    intro n _ hhi
    rw [natStrL_single (by simpa using hhi)]
    rfl
  | succ k ih =>
    intro n hlo hhi
    have h10 : 10 ≤ n := le_trans (by calc 10 = 10 ^ 1 := by norm_num
      _ ≤ 10 ^ (k + 1) := Nat.pow_le_pow_right (by norm_num) (by omega)) hlo
    rw [natStrL_step h10, List.length_append]
    have hlo2 : 10 ^ k ≤ n / 10 := by
      rw [Nat.le_div_iff_mul_le (by norm_num)]
      calc 10 ^ k * 10 = 10 ^ (k + 1) := by ring
        _ ≤ n := hlo
    have hhi2 : n / 10 < 10 ^ (k + 1) := by
      rw [Nat.div_lt_iff_lt_mul (by norm_num)]
      calc n < 10 ^ (k + 1 + 1) := hhi
        _ = 10 ^ (k + 1) * 10 := by ring
    rw [ih hlo2 hhi2]
    rfl

theorem pad2L_shape {n : ℕ} (h : n < 100) :
    (pad2L n).length = 2 ∧ (pad2L n).all isDigitC = true := by
  unfold pad2L
  by_cases h10 : n < 10
  · rw [if_pos h10, natStrL_single h10]
    refine ⟨rfl, ?_⟩
    simp [isDigitC_digitChar (by omega : n ≤ 9)]
    decide
  · rw [if_neg h10]
    refine ⟨natStrL_len (by simpa using Nat.not_lt.mp h10) (by simpa using h), natStrL_digits n⟩

/-- Bound on the value of a digit run from its length. -/
theorem natVal_lt {l : List Char} (hd : l.all isDigitC = true) :
    natVal l < 10 ^ l.length := by
  induction l with
  | nil => simp [natVal]
  | cons c rest ih =>
    rw [List.all_cons, Bool.and_eq_true] at hd
    have hc : c.toNat - 48 ≤ 9 := by
      have := hd.1
      simp [isDigitC] at this
      omega
    have := ih hd.2
    show natVal (c :: rest) < 10 ^ (rest.length + 1)
    rw [show (c :: rest) = [c] ++ rest from rfl, natVal_append]
    have h1 : natVal [c] ≤ 9 := by
      simp [natVal]
      omega
    calc natVal [c] * 10 ^ rest.length + natVal rest
        ≤ 9 * 10 ^ rest.length + natVal rest := by
          exact Nat.add_le_add_right (Nat.mul_le_mul_right _ h1) _
      _ < 9 * 10 ^ rest.length + 10 ^ rest.length := by omega
      _ = 10 ^ (rest.length + 1) := by ring

/-- Shape test of the amended parser codomain: two digit characters,
a slash, two digit characters, a slash, then an all digit year of
three or four characters. -/
def shapeDMY34 (s : String) : Bool :=
  match s.data with
  | d1 :: d2 :: s1 :: m1 :: m2 :: s2 :: y =>
    isDigitC d1 && isDigitC d2 && decide (s1 = '/') && isDigitC m1 && isDigitC m2 &&
      decide (s2 = '/') && (decide (y.length = 3) || decide (y.length = 4)) && y.all isDigitC
  | _ => false

/-- Verbatim four digit year output. -/
def bare4 (s : String) : Bool := decide (s.data.length = 4) && s.data.all isDigitC

/-- The exact shape claimed by the specification: two digit day,
two digit month and a four digit year. -/
def specCanon (s : String) : Bool :=
  match s.data with
  | d1 :: d2 :: s1 :: m1 :: m2 :: s2 :: y =>
    isDigitC d1 && isDigitC d2 && decide (s1 = '/') && isDigitC m1 && isDigitC m2 &&
      decide (s2 = '/') && decide (y.length = 4) && y.all isDigitC
  | _ => false

theorem yearFix_shape {y : List Char} (h2 : 2 ≤ y.length) (h4 : y.length ≤ 4)
    (hd : y.all isDigitC = true) :
    ((yearFix y).length = 3 ∨ (yearFix y).length = 4) ∧ (yearFix y).all isDigitC = true := by
  unfold yearFix
  by_cases hl : y.length = 2
  · rw [if_pos hl]
    split
    · refine ⟨Or.inr (by simp [hl]), ?_⟩
      simp [hd]
      decide
    · refine ⟨Or.inr (by simp [hl]), ?_⟩
      simp [hd]
      decide
  · rw [if_neg hl]
    exact ⟨by omega, hd⟩

theorem fmtNumDate_shape {d m : ℕ} {y : List Char} (hd : d < 100) (hm : m < 100)
    (hy : y.length = 3 ∨ y.length = 4) (hyd : y.all isDigitC = true) :
    shapeDMY34 (fmtNumDate d m y) = true := by
  obtain ⟨a, b, hab⟩ := List.length_eq_two.mp (pad2L_shape hd).1
  obtain ⟨c, e, hce⟩ := List.length_eq_two.mp (pad2L_shape hm).1
  have hd2 := (pad2L_shape hd).2
  have hm2 := (pad2L_shape hm).2
  rw [hab] at hd2
  rw [hce] at hm2
  simp only [List.all_cons, List.all_nil, Bool.and_eq_true, Bool.and_true] at hd2 hm2
  unfold fmtNumDate
  rw [hab, hce]
  show shapeDMY34 (String.mk (a :: b :: '/' :: c :: e :: '/' :: y)) = true
  unfold shapeDMY34
  simp [hd2.1, hd2.2, hm2.1, hm2.2, hyd]
  omega

theorem fmtMonDate_shape {d : ℕ} {mn : String} {y : List Char} (hd : d < 100)
    (hmn : mn.data.length = 2 ∧ mn.data.all isDigitC = true)
    (hy : y.length = 3 ∨ y.length = 4) (hyd : y.all isDigitC = true) :
    shapeDMY34 (fmtMonDate d mn y) = true := by
  obtain ⟨a, b, hab⟩ := List.length_eq_two.mp (pad2L_shape hd).1
  obtain ⟨c, e, hce⟩ := List.length_eq_two.mp hmn.1
  have hd2 := (pad2L_shape hd).2
  have hm2 := hmn.2
  rw [hab] at hd2
  rw [hce] at hm2
  simp only [List.all_cons, List.all_nil, Bool.and_eq_true, Bool.and_true] at hd2 hm2
  unfold fmtMonDate
  rw [hab, hce]
  show shapeDMY34 (String.mk (a :: b :: '/' :: c :: e :: '/' :: y)) = true
  unfold shapeDMY34
  simp [hd2.1, hd2.2, hm2.1, hm2.2, hyd]
  omega

theorem alookup_mem {al : List (String × String)} {k v : String}
    (h : alookup al k = some v) : v ∈ al.map Prod.snd := by
  induction al with
  | nil => simp [alookup] at h
  | cons p rest ih =>
    rw [alookup] at h
    by_cases hk : p.1 = k
    · rw [if_pos hk] at h
      injection h with h
      simp [h]
    · rw [if_neg hk] at h
      simp [ih h]

set_option maxRecDepth 8000 in
theorem monthAList_snd_shape :
    ∀ v ∈ monthAList.map Prod.snd, v.data.length = 2 ∧ v.data.all isDigitC = true := by
  decide

theorem normalizeMonth_shape {fz : String → Option String} {token mn : String}
    (h : normalizeMonth fz token = some mn) :
    mn.data.length = 2 ∧ mn.data.all isDigitC = true := by
  unfold normalizeMonth at h
  split at h
  · exact absurd h (by simp)
  · dsimp only at h
    split at h
    · injection h with h
      exact monthAList_snd_shape mn (h ▸ alookup_mem (by assumption))
    · split at h
      · injection h with h
        rename_i heq
        split at heq
        · exact monthAList_snd_shape mn (h ▸ alookup_mem heq)
        · exact absurd heq (by simp)
      · split at h
        · injection h with h
          rename_i heq
          split at heq
          · exact monthAList_snd_shape mn (h ▸ alookup_mem heq)
          · exact absurd heq (by simp)
        · split at h
          · injection h with h
            rename_i heq
            split at heq
            · exact monthAList_snd_shape mn (h ▸ alookup_mem heq)
            · exact absurd heq (by simp)
          · split at h
            · exact monthAList_snd_shape mn (alookup_mem h)
            · rw [Option.map_eq_some'] at h
              obtain ⟨p, hp, hv⟩ := h
              exact monthAList_snd_shape mn
                (hv ▸ List.mem_map_of_mem Prod.snd (List.mem_of_find?_eq_some hp))

theorem all_take {l : List Char} {p : Char → Bool} (h : l.all p = true) (n : ℕ) :
    (l.take n).all p = true := by
  rw [List.all_eq_true] at h ⊢
  exact fun c hc => h c (List.mem_of_mem_take hc)

theorem all_drop {l : List Char} {p : Char → Bool} (h : l.all p = true) (n : ℕ) :
    (l.drop n).all p = true := by
  rw [List.all_eq_true] at h ⊢
  exact fun c hc => h c (List.mem_of_mem_drop hc)

theorem natVal_lt_100 {l : List Char} (hd : l.all isDigitC = true) (hl : l.length ≤ 2) :
    natVal l < 100 :=
  lt_of_lt_of_le (natVal_lt hd)
    (le_trans (Nat.pow_le_pow_right (by norm_num) hl) (by norm_num))

theorem matchMixed1_wf {l : List Char} {a b : ℕ} {y : List Char}
    (h : matchMixed1 l = some (a, b, y)) :
    a < 100 ∧ b < 100 ∧ 2 ≤ y.length ∧ y.length ≤ 4 ∧ y.all isDigitC = true := by
  unfold matchMixed1 at h
  dsimp only at h
  split at h
  · exact absurd h (by simp)
  split at h
  · exact absurd h (by simp)
  split at h
  · exact absurd h (by simp)
  rename_i hdd
  split at h
  case h_1 => exact absurd h (by simp)
  split at h
  case isFalse => exact absurd h (by simp)
  split at h
  · exact absurd h (by simp)
  rename_i hmm
  split at h
  case h_1 => exact absurd h (by simp)
  split at h
  case isFalse => exact absurd h (by simp)
  split at h
  · exact absurd h (by simp)
  rename_i hyy
  split at h
  · injection h with h
    rw [Prod.mk.injEq, Prod.mk.injEq] at h
    obtain ⟨ha, hb, hy⟩ := h
    subst ha hb hy
    push_neg at hdd hmm hyy
    refine ⟨natVal_lt_100 List.all_takeWhile hdd.2, natVal_lt_100 List.all_takeWhile hmm.2,
      hyy.1, hyy.2, List.all_takeWhile⟩
  · exact absurd h (by simp)

theorem matchMixed2_wf {l : List Char} {a : ℕ} {mon y : List Char}
    (h : matchMixed2 l = some (a, mon, y)) :
    a < 100 ∧ 2 ≤ y.length ∧ y.length ≤ 4 ∧ y.all isDigitC = true := by
  unfold matchMixed2 at h
  dsimp only at h
  split at h
  · exact absurd h (by simp)
  split at h
  · exact absurd h (by simp)
  split at h
  · exact absurd h (by simp)
  rename_i hdd
  split at h
  · exact absurd h (by simp)
  split at h
  · exact absurd h (by simp)
  split at h
  · exact absurd h (by simp)
  split at h
  · exact absurd h (by simp)
  rename_i hyy
  split at h
  · injection h with h
    rw [Prod.mk.injEq, Prod.mk.injEq] at h
    obtain ⟨ha, hm, hy⟩ := h
    subst ha hm hy
    push_neg at hdd hyy
    exact ⟨natVal_lt_100 List.all_takeWhile hdd.2, hyy.1, hyy.2, List.all_takeWhile⟩
  · exact absurd h (by simp)

theorem matchDMonY_wf {l : List Char} {a : ℕ} {mon y : List Char}
    (h : matchDMonY l = some (a, mon, y)) :
    a < 100 ∧ 2 ≤ y.length ∧ y.length ≤ 4 ∧ y.all isDigitC = true := by
  unfold matchDMonY at h
  dsimp only at h
  split at h
  · exact absurd h (by simp)
  rename_i hdd
  split at h
  · exact absurd h (by simp)
  split at h
  · exact absurd h (by simp)
  split at h
  · exact absurd h (by simp)
  split at h
  · exact absurd h (by simp)
  rename_i hyy
  injection h with h
  rw [Prod.mk.injEq, Prod.mk.injEq] at h
  obtain ⟨ha, hm, hy⟩ := h
  subst ha hm hy
  push_neg at hdd hyy
  refine ⟨natVal_lt_100 List.all_takeWhile hdd.2, ?_, ?_, all_take List.all_takeWhile 4⟩
  · rw [List.length_take]
    omega
  · rw [List.length_take]
    omega

theorem matchMonDY_wf {l : List Char} {a : ℕ} {mon y : List Char}
    (h : matchMonDY l = some (a, mon, y)) :
    a < 100 ∧ 2 ≤ y.length ∧ y.length ≤ 4 ∧ y.all isDigitC = true := by
  unfold matchMonDY at h
  dsimp only at h
  split at h
  · exact absurd h (by simp)
  split at h
  · exact absurd h (by simp)
  split at h
  · exact absurd h (by simp)
  rename_i hdd
  split at h
  · exact absurd h (by simp)
  split at h
  · exact absurd h (by simp)
  rename_i hyy
  injection h with h
  rw [Prod.mk.injEq, Prod.mk.injEq] at h
  obtain ⟨ha, hm, hy⟩ := h
  subst ha hm hy
  push_neg at hdd hyy
  refine ⟨natVal_lt_100 List.all_takeWhile hdd.2, ?_, ?_, all_take List.all_takeWhile 4⟩
  · rw [List.length_take]
    omega
  · rw [List.length_take]
    omega

theorem matchYMDnum_wf {l : List Char} {a b : ℕ} {y : List Char}
    (h : matchYMDnum l = some (a, b, y)) :
    a < 100 ∧ b < 100 ∧ y.length = 4 ∧ y.all isDigitC = true := by
  unfold matchYMDnum at h
  dsimp only at h
  split at h
  · exact absurd h (by simp)
  rename_i hy4
  split at h
  · exact absurd h (by simp)
  split at h
  · exact absurd h (by simp)
  rename_i hmm
  split at h
  · exact absurd h (by simp)
  split at h
  · exact absurd h (by simp)
  injection h with h
  rw [Prod.mk.injEq, Prod.mk.injEq] at h
  obtain ⟨ha, hb, hy⟩ := h
  subst ha hb hy
  push_neg at hy4 hmm
  refine ⟨natVal_lt_100 (all_take List.all_takeWhile 2) (by rw [List.length_take]; omega),
    natVal_lt_100 List.all_takeWhile hmm.2, hy4, List.all_takeWhile⟩

theorem matchDMYnum_wf {l : List Char} {a b : ℕ} {y : List Char}
    (h : matchDMYnum l = some (a, b, y)) :
    a < 100 ∧ b < 100 ∧ y.length = 4 ∧ y.all isDigitC = true := by
  unfold matchDMYnum at h
  dsimp only at h
  split at h
  · exact absurd h (by simp)
  rename_i hdd
  split at h
  · exact absurd h (by simp)
  split at h
  · exact absurd h (by simp)
  rename_i hmm
  split at h
  · exact absurd h (by simp)
  split at h
  · exact absurd h (by simp)
  rename_i hyy
  injection h with h
  rw [Prod.mk.injEq, Prod.mk.injEq] at h
  obtain ⟨ha, hb, hy⟩ := h
  subst ha hb hy
  push_neg at hdd hmm hyy
  refine ⟨natVal_lt_100 List.all_takeWhile hdd.2, natVal_lt_100 List.all_takeWhile hmm.2,
    ?_, all_take List.all_takeWhile 4⟩
  rw [List.length_take]
  omega

theorem matchC8_wf {l : List Char} {a b : ℕ} {y : List Char}
    (h : matchC8 l = some (a, b, y)) :
    a < 100 ∧ b < 100 ∧ y.length = 4 ∧ y.all isDigitC = true := by
  unfold matchC8 at h
  dsimp only at h
  split at h
  · exact absurd h (by simp)
  rename_i hds
  injection h with h
  rw [Prod.mk.injEq, Prod.mk.injEq] at h
  obtain ⟨ha, hb, hy⟩ := h
  subst ha hb hy
  push_neg at hds
  refine ⟨natVal_lt_100 (all_take (all_drop List.all_takeWhile 6) 2) (by rw [List.length_take]; omega),
    natVal_lt_100 (all_take (all_drop List.all_takeWhile 4) 2) (by rw [List.length_take]; omega),
    ?_, all_take List.all_takeWhile 4⟩
  rw [List.length_take]
  omega

theorem matchCDMonY_wf {l : List Char} {a : ℕ} {mon y : List Char}
    (h : matchCDMonY l = some (a, mon, y)) :
    a < 100 ∧ 2 ≤ y.length ∧ y.length ≤ 4 ∧ y.all isDigitC = true := by
  unfold matchCDMonY at h
  dsimp only at h
  split at h
  · exact absurd h (by simp)
  rename_i hdd
  split at h
  · exact absurd h (by simp)
  split at h
  · exact absurd h (by simp)
  rename_i hyy
  injection h with h
  rw [Prod.mk.injEq, Prod.mk.injEq] at h
  obtain ⟨ha, hm, hy⟩ := h
  subst ha hm hy
  push_neg at hdd hyy
  refine ⟨natVal_lt_100 List.all_takeWhile hdd.2, ?_, ?_, all_take List.all_takeWhile 4⟩
  · rw [List.length_take]
    omega
  · rw [List.length_take]
    omega

theorem matchCMonDY_wf {l : List Char} {a : ℕ} {mon y : List Char}
    (h : matchCMonDY l = some (a, mon, y)) :
    a < 100 ∧ 2 ≤ y.length ∧ y.length ≤ 4 ∧ y.all isDigitC = true := by
  unfold matchCMonDY at h
  dsimp only at h
  split at h
  · exact absurd h (by simp)
  split at h
  · exact absurd h (by simp)
  rename_i hds
  split at h
  · injection h with h
    rw [Prod.mk.injEq, Prod.mk.injEq] at h
    obtain ⟨ha, hm, hy⟩ := h
    subst ha hm hy
    push_neg at hds
    rename_i h3
    refine ⟨natVal_lt_100 (all_take List.all_takeWhile 1) (by rw [List.length_take]; omega),
      ?_, ?_, all_take (all_drop List.all_takeWhile 1) 2⟩
    · rw [List.length_take, List.length_drop]
      omega
    · rw [List.length_take, List.length_drop]
      omega
  · injection h with h
    rw [Prod.mk.injEq, Prod.mk.injEq] at h
    obtain ⟨ha, hm, hy⟩ := h
    subst ha hm hy
    push_neg at hds
    rename_i h3
    refine ⟨natVal_lt_100 (all_take List.all_takeWhile 2) (by rw [List.length_take]; omega),
      ?_, ?_, all_take (all_drop List.all_takeWhile 2) 4⟩
    · rw [List.length_take, List.length_drop]
      omega
    · rw [List.length_take, List.length_drop]
      omega

theorem fmtPd_shape (p : PdTs) : shapeDMY34 (fmtPd p) = true := by
  have hd : p.day < 100 := lt_of_le_of_lt p.day_le (by norm_num)
  have hm : p.month < 100 := lt_of_le_of_lt p.month_le (by norm_num)
  obtain ⟨a, b, hab⟩ := List.length_eq_two.mp (pad2L_shape hd).1
  obtain ⟨c, e, hce⟩ := List.length_eq_two.mp (pad2L_shape hm).1
  have hd2 := (pad2L_shape hd).2
  have hm2 := (pad2L_shape hm).2
  rw [hab] at hd2
  rw [hce] at hm2
  simp only [List.all_cons, List.all_nil, Bool.and_eq_true, Bool.and_true] at hd2 hm2
  have hylen : (natStrL p.year).length = 4 := by
    have := @natStrL_len 3 p.year
      (by have := p.year_lb; omega) (by have := p.year_ub; norm_num; omega)
    simpa using this
  unfold fmtPd
  rw [hab, hce]
  show shapeDMY34 (String.mk (a :: b :: '/' :: c :: e :: '/' :: natStrL p.year)) = true
  unfold shapeDMY34
  simp [hd2.1, hd2.2, hm2.1, hm2.2, natStrL_digits, hylen]

theorem strat1_shape {fz : String → Option String} {xu : List Char} {r : String}
    (h : strat1 fz xu = some r) : shapeDMY34 r = true := by
  unfold strat1 at h
  obtain ⟨t, ht, hmap⟩ := Option.bind_eq_some.mp h
  obtain ⟨a, mon, y⟩ := t
  obtain ⟨mn, hmn, hr⟩ := Option.map_eq_some'.mp hmap
  subst hr
  have hw := matchDMonY_wf ht
  have hy := yearFix_shape hw.2.1 hw.2.2.1 hw.2.2.2
  exact fmtMonDate_shape hw.1 (normalizeMonth_shape hmn) hy.1 hy.2

theorem strat2_shape {fz : String → Option String} {xu : List Char} {r : String}
    (h : strat2 fz xu = some r) : shapeDMY34 r = true := by
  unfold strat2 at h
  obtain ⟨t, ht, hmap⟩ := Option.bind_eq_some.mp h
  obtain ⟨a, mon, y⟩ := t
  obtain ⟨mn, hmn, hr⟩ := Option.map_eq_some'.mp hmap
  subst hr
  have hw := matchMonDY_wf ht
  have hy := yearFix_shape hw.2.1 hw.2.2.1 hw.2.2.2
  exact fmtMonDate_shape hw.1 (normalizeMonth_shape hmn) hy.1 hy.2

theorem strat3_shape {xu : List Char} {r : String}
    (h : strat3 xu = some r) : shapeDMY34 r = true := by
  unfold strat3 at h
  obtain ⟨t, ht, hr⟩ := Option.map_eq_some'.mp h
  obtain ⟨a, b, y⟩ := t
  subst hr
  have hw := matchYMDnum_wf ht
  exact fmtNumDate_shape hw.1 hw.2.1 (Or.inr hw.2.2.1) hw.2.2.2

theorem strat4_shape {xu : List Char} {r : String}
    (h : strat4 xu = some r) : shapeDMY34 r = true := by
  unfold strat4 at h
  obtain ⟨t, ht, hr⟩ := Option.map_eq_some'.mp h
  obtain ⟨a, b, y⟩ := t
  subst hr
  have hw := matchDMYnum_wf ht
  exact fmtNumDate_shape hw.1 hw.2.1 (Or.inr hw.2.2.1) hw.2.2.2

theorem strat5_shape {xu : List Char} {r : String}
    (h : strat5 xu = some r) : shapeDMY34 r = true := by
  unfold strat5 at h
  obtain ⟨t, ht, hr⟩ := Option.map_eq_some'.mp h
  obtain ⟨a, b, y⟩ := t
  subst hr
  have hw := matchC8_wf ht
  exact fmtNumDate_shape hw.1 hw.2.1 (Or.inr hw.2.2.1) hw.2.2.2

theorem strat6_shape {fz : String → Option String} {xns : List Char} {r : String}
    (h : strat6 fz xns = some r) : shapeDMY34 r = true := by
  unfold strat6 at h
  obtain ⟨t, ht, hmap⟩ := Option.bind_eq_some.mp h
  obtain ⟨a, mon, y⟩ := t
  obtain ⟨mn, hmn, hr⟩ := Option.map_eq_some'.mp hmap
  subst hr
  have hw := matchCDMonY_wf ht
  have hy := yearFix_shape hw.2.1 hw.2.2.1 hw.2.2.2
  exact fmtMonDate_shape hw.1 (normalizeMonth_shape hmn) hy.1 hy.2

theorem strat7_shape {fz : String → Option String} {xns : List Char} {r : String}
    (h : strat7 fz xns = some r) : shapeDMY34 r = true := by
  unfold strat7 at h
  obtain ⟨t, ht, hmap⟩ := Option.bind_eq_some.mp h
  obtain ⟨a, mon, y⟩ := t
  obtain ⟨mn, hmn, hr⟩ := Option.map_eq_some'.mp hmap
  subst hr
  have hw := matchCMonDY_wf ht
  have hy := yearFix_shape hw.2.1 hw.2.2.1 hw.2.2.2
  exact fmtMonDate_shape hw.1 (normalizeMonth_shape hmn) hy.1 hy.2

theorem bareYear_shape {xu : List Char} {r : String}
    (h : bareYear xu = some r) : bare4 r = true := by
  unfold bareYear at h
  split at h
  · injection h with h
    subst h
    rename_i hg
    simp [bare4, hg.1, hg.2]
  · exact absurd h (by simp)

theorem pdFallback_shape {fb : Bool → String → Option PdTs} {ox : List Char} {r : String}
    (h : pdFallback fb ox = some r) : shapeDMY34 r = true := by
  unfold pdFallback at h
  split at h
  · split at h
    · exact absurd h (by simp)
    · injection h with h
      subst h
      exact fmtPd_shape _
  · split at h
    · split at h
      · exact absurd h (by simp)
      · injection h with h
        subst h
        exact fmtPd_shape _
    · exact absurd h (by simp)

/-- C6 (amended): every defined result of the date parser is either
a string of shape two digits, slash, two digits, slash and a three
or four digit year, or a verbatim four digit year; the year keeps
three digits when the input carried a three digit year, and a bare
four digit year is returned unchanged, so the exact DD/MM/YYYY
codomain of the specification does not hold. -/
theorem parse_output_shape (fb : Bool → String → Option PdTs)
    (fz : String → Option String) (s r : String)
    (h : parseCustomDate fb fz s = some r) :
    shapeDMY34 r = true ∨ bare4 r = true := by
  unfold parseCustomDate at h
  dsimp only at h
  split at h
  · exact absurd h (by simp)
  split at h
  · exact absurd h (by simp)
  split at h
  case h_1 t heq =>
    injection h with h
    subst h
    obtain ⟨a, b, y⟩ := t
    have hw := matchMixed1_wf heq
    have hy := yearFix_shape hw.2.2.1 hw.2.2.2.1 hw.2.2.2.2
    exact Or.inl (fmtNumDate_shape hw.1 hw.2.1 hy.1 hy.2)
  case h_2 heq0 =>
    split at h
    case h_1 r0 heq =>
      injection h with h
      subst h
      obtain ⟨t, ht, hmap⟩ := Option.bind_eq_some.mp heq
      obtain ⟨a, mon, y⟩ := t
      obtain ⟨mn, hmn, hr⟩ := Option.map_eq_some'.mp hmap
      subst hr
      have hw := matchMixed2_wf ht
      have hy := yearFix_shape hw.2.1 hw.2.2.1 hw.2.2.2
      exact Or.inl (fmtMonDate_shape hw.1 (normalizeMonth_shape hmn) hy.1 hy.2)
    case h_2 =>
      obtain ⟨o, ho, hor⟩ := List.exists_of_findSome?_eq_some h
      have hro : o = some r := hor
      subst hro
      simp only [List.mem_cons, List.not_mem_nil, or_false] at ho
      rcases ho with h1 | h2 | h3 | h4 | h5 | h6 | h7 | h8 | h9
      · exact Or.inl (strat1_shape h1.symm)
      · exact Or.inl (strat2_shape h2.symm)
      · exact Or.inl (strat3_shape h3.symm)
      · exact Or.inl (strat4_shape h4.symm)
      · exact Or.inl (strat5_shape h5.symm)
      · exact Or.inl (strat6_shape h6.symm)
      · exact Or.inl (strat7_shape h7.symm)
      · exact Or.inr (bareYear_shape h8.symm)
      · exact Or.inl (pdFallback_shape h9.symm)

set_option maxRecDepth 100000 in
/-- C6 counterexample: the token 2024 parses to the verbatim string
2024, which is not of the DD/MM/YYYY shape the specification
promises for every defined result. -/
theorem parse_bare_year_not_canonical :
    parseCustomDate fbNone fzNone "2024" = some "2024" ∧ specCanon "2024" = false := by
  decide

set_option maxRecDepth 100000 in
/-- Witness: the amended shape theorem applied to the concrete token
15-01-2024, whose parse is defined. -/
theorem parse_output_shape_witness :
    parseCustomDate fbNone fzNone "15-01-2024" = some "15/01/2024" ∧
      (shapeDMY34 "15/01/2024" = true ∨ bare4 "15/01/2024" = true) :=
  ⟨by decide, parse_output_shape fbNone fzNone "15-01-2024" "15/01/2024" (by decide)⟩

/-! ## Blank rows through chronology repair

A blank row (empty transaction date, empty value date, every other
cell empty) is skipped by the parse step, by every pass of the main
repair loop, by the backtracking groups and by the final pass, and
none of those phases writes at its index, so its date cell is still
empty when date_correction finishes.  The lemmas below follow the
phases one by one; the fold invariance lemma carries the index
predicate through each loop. -/

theorem foldl_inv {α β : Type} (Q : β → Prop) {f : β → α → β} {l : List α} {b : β}
    (hb : Q b) (hf : ∀ st a, a ∈ l → Q st → Q (f st a)) : Q (l.foldl f b) := by
  suffices h : ∀ l2 : List α, (∀ a ∈ l2, a ∈ l) → ∀ b2, Q b2 → Q (l2.foldl f b2) from
    h l (fun a ha => ha) b hb
  intro l2
  induction l2 with
  | nil => exact fun _ b2 hb2 => hb2
  | cons x rest ih =>
    intro hsub b2 hb2
    exact ih (fun a ha => hsub a (List.mem_cons_of_mem x ha)) _
      (hf b2 x (hsub x (List.mem_cons_self x rest)) hb2)

theorem getD_set_ne (l : List String) {j i : ℕ} (h : j ≠ i) (a : String) :
    (l.set j a).getD i "" = l.getD i "" := by
  rw [List.getD_eq_getElem?_getD, List.getD_eq_getElem?_getD, List.getElem?_set_ne h]

theorem cellEmpty_nil : cellEmpty "" = true := by decide

theorem emptyRowAt_of_cellEmpty {t : DTable} {i : ℕ} {d : List String}
    (hrest : rowRestEmpty t.hasVD (t.rows.getD i defaultDRow) = true)
    (hc : cellEmpty (d.getD i "") = true) : emptyRowAt t d i = true := by
  unfold emptyRowAt
  rw [hc, hrest]
  rfl

theorem xnList_getD {t : DTable} {i : ℕ} (hi : i < t.rows.length) :
    (xnList t).getD i "" = (t.rows.getD i defaultDRow).xn := by
  unfold xnList
  rw [List.getD_eq_getElem?_getD, List.getElem?_map, List.getElem?_eq_getElem hi]
  rw [List.getD_eq_getElem?_getD, List.getElem?_eq_getElem hi]
  rfl

theorem parsedDates_blank {fb : Bool → String → Option PdTs} {fz : String → Option String}
    {t : DTable} {i : ℕ} (hi : i < t.rows.length)
    (hxn : cellEmpty (t.rows.getD i defaultDRow).xn = true)
    (hrest : rowRestEmpty t.hasVD (t.rows.getD i defaultDRow) = true) :
    (parsedDates fb fz t).getD i "" = "" := by
  unfold parsedDates
  have he : emptyRowAt t (xnList t) i = true :=
    emptyRowAt_of_cellEmpty hrest (by rw [xnList_getD hi]; exact hxn)
  rw [List.getD_eq_getElem?_getD, List.getElem?_map, List.getElem?_range hi, Option.map_some']
  simp [he]

theorem loopBody_fst (fb : Bool → String → Option PdTs) (fz : String → Option String)
    (t : DTable) (sd : List String) (ord : Direction) (st : List String × Bool) (idx : ℕ) :
    (loopBody fb fz t sd ord st idx).1 = st.1 ∨
      ∃ c, (loopBody fb fz t sd ord st idx).1 = st.1.set idx c := by
  unfold loopBody
  split
  · exact Or.inl rfl
  dsimp only
  split
  · exact Or.inl rfl
  split
  · split
    · split
      · split
        · exact Or.inr ⟨_, rfl⟩
        · exact Or.inl rfl
      · exact Or.inl rfl
    · exact Or.inl rfl
  · exact Or.inl rfl

theorem loopBody_P {fb : Bool → String → Option PdTs} {fz : String → Option String}
    {t : DTable} {sd : List String} {ord : Direction} {st : List String × Bool}
    {idx i : ℕ} (hsd : emptyRowAt t sd i = true) (hP : st.1.getD i "" = "") :
    (loopBody fb fz t sd ord st idx).1.getD i "" = "" := by
  by_cases hix : idx = i
  · subst hix
    unfold loopBody
    rw [if_pos hsd]
    exact hP
  · rcases loopBody_fst fb fz t sd ord st idx with h | ⟨c, h⟩
    · rw [h]
      exact hP
    · rw [h, getD_set_ne _ hix]
      exact hP

theorem mainLoop_P {fb : Bool → String → Option PdTs} {fz : String → Option String}
    {t : DTable} {ord : Direction} {i : ℕ}
    (hrest : rowRestEmpty t.hasVD (t.rows.getD i defaultDRow) = true) :
    ∀ (k : ℕ) (d : List String), d.getD i "" = "" →
      (mainLoop fb fz t ord k d).getD i "" = "" := by
  intro k
  induction k with
  | zero => exact fun d hP => hP
  | succ k ih =>
    intro d hP
    have hsd : emptyRowAt t d i = true :=
      emptyRowAt_of_cellEmpty hrest (by rw [hP]; exact cellEmpty_nil)
    have hiter : (mainIter fb fz t ord d).1.getD i "" = "" := by
      unfold mainIter
      exact foldl_inv (fun st : List String × Bool => st.1.getD i "" = "") hP
        (fun st a _ hQ => loopBody_P hsd hQ)
    unfold mainLoop
    dsimp only
    split
    · exact ih _ hiter
    · exact hiter

theorem groupConsec_mem {l : List ℕ} {g : List ℕ} (hg : g ∈ groupConsec l) {j : ℕ}
    (hj : j ∈ g) : j ∈ l := by
  revert hg
  unfold groupConsec
  dsimp only
  have key : (∀ g2 ∈ (l.foldl
      (fun (st : List (List ℕ) × List ℕ) i =>
        match st.2.getLast? with
        | none => (st.1, [i])
        | some last => if i = last + 1 then (st.1, st.2 ++ [i]) else (st.1 ++ [st.2], [i]))
      ([], [])).1, ∀ j2 ∈ g2, j2 ∈ l) ∧
      (∀ j2 ∈ (l.foldl
      (fun (st : List (List ℕ) × List ℕ) i =>
        match st.2.getLast? with
        | none => (st.1, [i])
        | some last => if i = last + 1 then (st.1, st.2 ++ [i]) else (st.1 ++ [st.2], [i]))
      ([], [])).2, j2 ∈ l) := by
    refine foldl_inv (fun st : List (List ℕ) × List ℕ =>
      (∀ g2 ∈ st.1, ∀ j2 ∈ g2, j2 ∈ l) ∧ (∀ j2 ∈ st.2, j2 ∈ l)) (by simp) ?_
    intro st a ha hQ
    dsimp only
    split
    · refine ⟨hQ.1, ?_⟩
      intro j2 hj2
      rw [List.mem_singleton] at hj2
      exact hj2 ▸ ha
    · split
      · refine ⟨hQ.1, ?_⟩
        intro j2 hj2
        rcases List.mem_append.mp hj2 with h | h
        · exact hQ.2 j2 h
        · rw [List.mem_singleton] at h
          exact h ▸ ha
      · refine ⟨?_, ?_⟩
        · intro g2 hg2
          rcases List.mem_append.mp hg2 with h | h
          · exact hQ.1 g2 h
          · rw [List.mem_singleton] at h
            exact fun j2 hj2 => hQ.2 j2 (h ▸ hj2)
        · intro j2 hj2
          rw [List.mem_singleton] at hj2
          exact hj2 ▸ ha
  intro hg
  split at hg
  · exact key.1 g hg j hj
  · rcases List.mem_append.mp hg with h | h
    · exact key.1 g h j hj
    · rw [List.mem_singleton] at h
      exact key.2 j (h ▸ hj)

theorem filterMap_fst {γ : Type} {l : List ℕ} {f : ℕ → Option (ℕ × γ)}
    (hf : ∀ idx q, f idx = some q → q.1 = idx) :
    ∀ p ∈ l.filterMap f, p.1 ∈ l := by
  intro p hp
  obtain ⟨a, ha, hfa⟩ := List.mem_filterMap.mp hp
  rw [hf a p hfa]
  exact ha

theorem stepList_fst {idxs : List ℕ} {s delta : ℤ} :
    ∀ p ∈ stepList idxs s delta, p.1 ∈ idxs := by
  unfold stepList
  refine foldl_inv (fun st : ℤ × List (ℕ × String) => ∀ p ∈ st.2, p.1 ∈ idxs)
    (by simp) ?_
  intro st a ha hQ
  dsimp only
  split
  · intro p hp
    rcases List.mem_append.mp hp with h | h
    · exact hQ p h
    · rw [List.mem_singleton] at h
      rw [h]
      exact ha
  · exact hQ

theorem stepCumulList_fst {idxs : List ℕ} {s : ℤ} {inc : ℕ → ℤ} :
    ∀ p ∈ stepCumulList idxs s inc, p.1 ∈ idxs := by
  unfold stepCumulList
  refine foldl_inv (fun st : ℤ × List (ℕ × String) => ∀ p ∈ st.2, p.1 ∈ idxs)
    (by simp) ?_
  intro st a ha hQ
  dsimp only
  split
  · intro p hp
    rcases List.mem_append.mp hp with h | h
    · exact hQ p h
    · rw [List.mem_singleton] at h
      rw [h]
      exact ha
  · exact hQ

theorem backtrackCore_fst {df : List String} {rem : List ℕ} {ord : Direction}
    {b? a? : Option String} :
    ∀ p ∈ backtrackCore df rem ord b? a?, p.1 ∈ rem := by
  unfold backtrackCore
  split
  · dsimp only
    split
    · split
      · intro p hp
        obtain ⟨q, hq, hfq⟩ := List.mem_filterMap.mp hp
        split at hfq
        · injection hfq with hfq
          rw [← hfq]
          exact (List.of_mem_zip hq).2
        · exact absurd hfq (by simp)
      · exact stepList_fst
    · split
      · intro p hp
        obtain ⟨q, hq, hfq⟩ := List.mem_filterMap.mp hp
        split at hfq
        · injection hfq with hfq
          rw [← hfq]
          exact (List.of_mem_zip hq).2
        · exact absurd hfq (by simp)
      · exact stepList_fst
  · split
    · exact stepList_fst
    · exact stepList_fst
  · split
    · exact fun p hp => List.mem_reverse.mp (stepList_fst p hp)
    · exact fun p hp => List.mem_reverse.mp (stepList_fst p hp)
  · split
    · exact fun p hp => absurd hp (List.not_mem_nil p)
    · dsimp only
      split
      · split
        · exact stepCumulList_fst
        · exact stepCumulList_fst
      · split
        · exact fun p hp => List.mem_reverse.mp (stepCumulList_fst p hp)
        · exact fun p hp => List.mem_reverse.mp (stepCumulList_fst p hp)

theorem createBacktrack_fst {t : DTable} {df : List String} {missing : List ℕ}
    {ord : Direction} :
    ∀ p ∈ createBacktrack t df missing ord, p.1 ∈ missing := by
  unfold createBacktrack
  split
  case h_1 => exact fun p hp => absurd hp (List.not_mem_nil p)
  case h_2 first heq =>
    dsimp only
    intro p hp
    split at hp
    · have hf : ∀ (idx : ℕ) (q : ℕ × String),
          (if (sstrip (vdAt t idx)).data ≠ [] ∧ is_valid_date (sstrip (vdAt t idx)) then
            if isDateInOrder (sstrip (vdAt t idx)) (findPrevValid df first)
                (findNextValid df (missing.getLast?.getD first)) ord then
              some (idx, sstrip (vdAt t idx))
            else none
          else none) = some q → q.1 = idx := by
        intro idx q hq
        split at hq
        · split at hq
          · injection hq with hq
            rw [← hq]
          · exact absurd hq (by simp)
        · exact absurd hq (by simp)
      split at hp
      · exact filterMap_fst hf p hp
      · split at hp
        · exact filterMap_fst hf p hp
        · rcases List.mem_append.mp hp with h | h
          · exact filterMap_fst hf p h
          · exact List.mem_of_mem_filter (backtrackCore_fst p h)
    · have hf : ∀ (idx : ℕ) (q : ℕ × String),
          (none : Option (ℕ × String)) = some q → q.1 = idx := by
        intro idx q hq
        exact absurd hq (by simp)
      split at hp
      · exact filterMap_fst hf p hp
      · split at hp
        · exact filterMap_fst hf p hp
        · rcases List.mem_append.mp hp with h | h
          · exact filterMap_fst hf p h
          · exact List.mem_of_mem_filter (backtrackCore_fst p h)

theorem setFold_P {dl : List (ℕ × String)} {d : List String} {i : ℕ}
    (hdl : ∀ p ∈ dl, p.1 ≠ i) (hP : d.getD i "" = "") :
    (dl.foldl (fun d2 p => d2.set p.1 p.2) d).getD i "" = "" := by
  refine foldl_inv (fun d2 : List String => d2.getD i "" = "") hP ?_
  intro st a ha hQ
  dsimp only
  rw [getD_set_ne _ (hdl a ha)]
  exact hQ

theorem remFold_P {rem : List ℕ} {start : List String × List ℕ} {i : ℕ}
    (hrem : ∀ j ∈ rem, j ≠ i) (hP : start.1.getD i "" = "")
    (hsub : ∀ j ∈ start.2, j ≠ i) :
    ((rem.foldl (fun (st : List String × List ℕ) idx =>
        match samePrevNext st.1 idx with
        | some pd => (st.1.set idx pd, st.2.filter fun j => j ≠ idx)
        | none => st) start).1.getD i "" = "") ∧
      (∀ j ∈ (rem.foldl (fun (st : List String × List ℕ) idx =>
        match samePrevNext st.1 idx with
        | some pd => (st.1.set idx pd, st.2.filter fun j => j ≠ idx)
        | none => st) start).2, j ≠ i) := by
  refine foldl_inv (fun st : List String × List ℕ =>
    st.1.getD i "" = "" ∧ ∀ j ∈ st.2, j ≠ i) ⟨hP, hsub⟩ ?_
  intro st a ha hQ
  dsimp only
  split
  · exact ⟨by rw [getD_set_ne _ (hrem a ha)]; exact hQ.1,
      fun j hj => hQ.2 j (List.mem_of_mem_filter hj)⟩
  · exact hQ

theorem btFold_P {bl : List (ℕ × String)} {d : List String} {i : ℕ}
    (hbl : ∀ p ∈ bl, p.1 ≠ i) (hP : d.getD i "" = "") :
    (bl.foldl (fun d2 p =>
        if is_valid_date p.2 then
          match samePrevNext d2 p.1 with
          | some pd => d2.set p.1 pd
          | none => d2.set p.1 p.2
        else d2) d).getD i "" = "" := by
  refine foldl_inv (fun d2 : List String => d2.getD i "" = "") hP ?_
  intro st a ha hQ
  dsimp only
  split
  · split
    · rw [getD_set_ne _ (hbl a ha)]
      exact hQ
    · rw [getD_set_ne _ (hbl a ha)]
      exact hQ
  · exact hQ

theorem processGroup_P {fb : Bool → String → Option PdTs} {fz : String → Option String}
    {t : DTable} {df : List String} {ord : Direction} {dates : List String}
    {group : List ℕ} {i : ℕ} (hig : i ∉ group) (hP : dates.getD i "" = "") :
    (processGroup fb fz t df ord dates group).getD i "" = "" := by
  unfold processGroup
  dsimp only
  split
  · -- the table has a value-date column
    have hf : ∀ (idx : ℕ) (q : ℕ × String), (fun idx =>
      if (sstrip (vdAt t idx)).data ≠ [] then
        match parseCustomDate fb fz (sstrip (vdAt t idx)) with
        | some pv =>
          if is_valid_date pv then
            if prevNextSame (findPrevValid dates idx) (findNextValid dates idx) then
              (findPrevValid dates idx).map fun pd => (idx, pd)
            else if isDateInOrder pv (findPrevValid dates idx) (findNextValid dates idx)
                ord then some (idx, pv)
            else none
          else none
        | none => none
      else none) idx = some q → q.1 = idx := by
      intro idx q hq
      dsimp only at hq
      split at hq
      · split at hq
        · split at hq
          · split at hq
            · obtain ⟨pd, _, hq2⟩ := Option.map_eq_some'.mp hq
              rw [← hq2]
            · split at hq
              · injection hq with hq
                rw [← hq]
              · exact absurd hq (by simp)
          · exact absurd hq (by simp)
        · exact absurd hq (by simp)
      · exact absurd hq (by simp)
    have hdl : ∀ p ∈ group.filterMap (fun idx =>
      if (sstrip (vdAt t idx)).data ≠ [] then
        match parseCustomDate fb fz (sstrip (vdAt t idx)) with
        | some pv =>
          if is_valid_date pv then
            if prevNextSame (findPrevValid dates idx) (findNextValid dates idx) then
              (findPrevValid dates idx).map fun pd => (idx, pd)
            else if isDateInOrder pv (findPrevValid dates idx) (findNextValid dates idx)
                ord then some (idx, pv)
            else none
          else none
        | none => none
      else none), p.1 ≠ i := by
      intro p hp he
      exact hig (he ▸ filterMap_fst hf p hp)
    have hd1 := setFold_P hdl hP
    have hrem : ∀ j ∈ (group.filter fun idx => !is_valid_date (((group.filterMap (fun idx =>
      if (sstrip (vdAt t idx)).data ≠ [] then
        match parseCustomDate fb fz (sstrip (vdAt t idx)) with
        | some pv =>
          if is_valid_date pv then
            if prevNextSame (findPrevValid dates idx) (findNextValid dates idx) then
              (findPrevValid dates idx).map fun pd => (idx, pd)
            else if isDateInOrder pv (findPrevValid dates idx) (findNextValid dates idx)
                ord then some (idx, pv)
            else none
          else none
        | none => none
      else none)).foldl (fun d2 p => d2.set p.1 p.2) dates).getD idx "")), j ≠ i := by
      intro j hj he
      rw [he] at hj
      exact hig (List.mem_of_mem_filter hj)
    have hpair : (((group.filter fun idx => !is_valid_date (((group.filterMap (fun idx =>
      if (sstrip (vdAt t idx)).data ≠ [] then
        match parseCustomDate fb fz (sstrip (vdAt t idx)) with
        | some pv =>
          if is_valid_date pv then
            if prevNextSame (findPrevValid dates idx) (findNextValid dates idx) then
              (findPrevValid dates idx).map fun pd => (idx, pd)
            else if isDateInOrder pv (findPrevValid dates idx) (findNextValid dates idx)
                ord then some (idx, pv)
            else none
          else none
        | none => none
      else none)).foldl (fun d2 p => d2.set p.1 p.2) dates).getD idx "")).foldl (fun (st : List String × List ℕ) idx =>
        match samePrevNext st.1 idx with
        | some pd => (st.1.set idx pd, st.2.filter fun j => j ≠ idx)
        | none => st) (((group.filterMap (fun idx =>
      if (sstrip (vdAt t idx)).data ≠ [] then
        match parseCustomDate fb fz (sstrip (vdAt t idx)) with
        | some pv =>
          if is_valid_date pv then
            if prevNextSame (findPrevValid dates idx) (findNextValid dates idx) then
              (findPrevValid dates idx).map fun pd => (idx, pd)
            else if isDateInOrder pv (findPrevValid dates idx) (findNextValid dates idx)
                ord then some (idx, pv)
            else none
          else none
        | none => none
      else none)).foldl (fun d2 p => d2.set p.1 p.2) dates), (group.filter fun idx => !is_valid_date (((group.filterMap (fun idx =>
      if (sstrip (vdAt t idx)).data ≠ [] then
        match parseCustomDate fb fz (sstrip (vdAt t idx)) with
        | some pv =>
          if is_valid_date pv then
            if prevNextSame (findPrevValid dates idx) (findNextValid dates idx) then
              (findPrevValid dates idx).map fun pd => (idx, pd)
            else if isDateInOrder pv (findPrevValid dates idx) (findNextValid dates idx)
                ord then some (idx, pv)
            else none
          else none
        | none => none
      else none)).foldl (fun d2 p => d2.set p.1 p.2) dates).getD idx "")))).1.getD i "" = "") ∧
        (∀ j ∈ ((group.filter fun idx => !is_valid_date (((group.filterMap (fun idx =>
      if (sstrip (vdAt t idx)).data ≠ [] then
        match parseCustomDate fb fz (sstrip (vdAt t idx)) with
        | some pv =>
          if is_valid_date pv then
            if prevNextSame (findPrevValid dates idx) (findNextValid dates idx) then
              (findPrevValid dates idx).map fun pd => (idx, pd)
            else if isDateInOrder pv (findPrevValid dates idx) (findNextValid dates idx)
                ord then some (idx, pv)
            else none
          else none
        | none => none
      else none)).foldl (fun d2 p => d2.set p.1 p.2) dates).getD idx "")).foldl (fun (st : List String × List ℕ) idx =>
        match samePrevNext st.1 idx with
        | some pd => (st.1.set idx pd, st.2.filter fun j => j ≠ idx)
        | none => st) (((group.filterMap (fun idx =>
      if (sstrip (vdAt t idx)).data ≠ [] then
        match parseCustomDate fb fz (sstrip (vdAt t idx)) with
        | some pv =>
          if is_valid_date pv then
            if prevNextSame (findPrevValid dates idx) (findNextValid dates idx) then
              (findPrevValid dates idx).map fun pd => (idx, pd)
            else if isDateInOrder pv (findPrevValid dates idx) (findNextValid dates idx)
                ord then some (idx, pv)
            else none
          else none
        | none => none
      else none)).foldl (fun d2 p => d2.set p.1 p.2) dates), (group.filter fun idx => !is_valid_date (((group.filterMap (fun idx =>
      if (sstrip (vdAt t idx)).data ≠ [] then
        match parseCustomDate fb fz (sstrip (vdAt t idx)) with
        | some pv =>
          if is_valid_date pv then
            if prevNextSame (findPrevValid dates idx) (findNextValid dates idx) then
              (findPrevValid dates idx).map fun pd => (idx, pd)
            else if isDateInOrder pv (findPrevValid dates idx) (findNextValid dates idx)
                ord then some (idx, pv)
            else none
          else none
        | none => none
      else none)).foldl (fun d2 p => d2.set p.1 p.2) dates).getD idx "")))).2, j ≠ i) :=
      remFold_P hrem hd1 hrem
    split
    · exact hpair.1
    · refine btFold_P ?_ hpair.1
      intro p hp he
      exact hpair.2 p.1 (createBacktrack_fst p hp) he
  · -- no value-date column: the pre-pass finds nothing
    have hf : ∀ (idx : ℕ) (q : ℕ × String), (fun _ => (none : Option (ℕ × String))) idx = some q → q.1 = idx := by
      intro idx q hq
      dsimp only at hq
      exact absurd hq (by simp)
    have hdl : ∀ p ∈ group.filterMap (fun _ => (none : Option (ℕ × String))), p.1 ≠ i := by
      intro p hp he
      exact hig (he ▸ filterMap_fst hf p hp)
    have hd1 := setFold_P hdl hP
    have hrem : ∀ j ∈ (group.filter fun idx => !is_valid_date (((group.filterMap (fun _ => (none : Option (ℕ × String)))).foldl (fun d2 p => d2.set p.1 p.2) dates).getD idx "")), j ≠ i := by
      intro j hj he
      rw [he] at hj
      exact hig (List.mem_of_mem_filter hj)
    have hpair : (((group.filter fun idx => !is_valid_date (((group.filterMap (fun _ => (none : Option (ℕ × String)))).foldl (fun d2 p => d2.set p.1 p.2) dates).getD idx "")).foldl (fun (st : List String × List ℕ) idx =>
        match samePrevNext st.1 idx with
        | some pd => (st.1.set idx pd, st.2.filter fun j => j ≠ idx)
        | none => st) (((group.filterMap (fun _ => (none : Option (ℕ × String)))).foldl (fun d2 p => d2.set p.1 p.2) dates), (group.filter fun idx => !is_valid_date (((group.filterMap (fun _ => (none : Option (ℕ × String)))).foldl (fun d2 p => d2.set p.1 p.2) dates).getD idx "")))).1.getD i "" = "") ∧
        (∀ j ∈ ((group.filter fun idx => !is_valid_date (((group.filterMap (fun _ => (none : Option (ℕ × String)))).foldl (fun d2 p => d2.set p.1 p.2) dates).getD idx "")).foldl (fun (st : List String × List ℕ) idx =>
        match samePrevNext st.1 idx with
        | some pd => (st.1.set idx pd, st.2.filter fun j => j ≠ idx)
        | none => st) (((group.filterMap (fun _ => (none : Option (ℕ × String)))).foldl (fun d2 p => d2.set p.1 p.2) dates), (group.filter fun idx => !is_valid_date (((group.filterMap (fun _ => (none : Option (ℕ × String)))).foldl (fun d2 p => d2.set p.1 p.2) dates).getD idx "")))).2, j ≠ i) :=
      remFold_P hrem hd1 hrem
    split
    · exact hpair.1
    · refine btFold_P ?_ hpair.1
      intro p hp he
      exact hpair.2 p.1 (createBacktrack_fst p hp) he

theorem backtrackPhase_P {fb : Bool → String → Option PdTs} {fz : String → Option String}
    {t : DTable} {ord : Direction} {i : ℕ}
    (hrest : rowRestEmpty t.hasVD (t.rows.getD i defaultDRow) = true)
    {d : List String} (hP : d.getD i "" = "") :
    (backtrackPhase fb fz t ord d).getD i "" = "" := by
  unfold backtrackPhase
  dsimp only
  have hnm : i ∉ (List.range t.rows.length).filter fun j =>
      !emptyRowAt t d j && !is_valid_date (d.getD j "") := by
    intro hmem
    have hcond := List.of_mem_filter hmem
    rw [emptyRowAt_of_cellEmpty hrest (by rw [hP]; exact cellEmpty_nil)] at hcond
    simp at hcond
  split
  · exact hP
  · refine foldl_inv (fun d2 : List String => d2.getD i "" = "") hP ?_
    intro st g hg hQ
    refine processGroup_P ?_ hQ
    intro hmem
    exact hnm (groupConsec_mem hg hmem)

theorem finalBody_fst (t : DTable) (sd : List String) (ord : Direction)
    (dates : List String) (idx : ℕ) :
    finalBody t sd ord dates idx = dates ∨
      ∃ v, finalBody t sd ord dates idx = dates.set idx v := by
  unfold finalBody
  split
  · exact Or.inl rfl
  dsimp only
  split
  · exact Or.inl rfl
  split
  · exact Or.inl rfl
  split
  · split
    · exact Or.inr ⟨_, rfl⟩
    · exact Or.inl rfl
  · split
    · split
      · exact Or.inr ⟨_, rfl⟩
      · exact Or.inl rfl
    · split
      · exact Or.inr ⟨_, rfl⟩
      · exact Or.inl rfl

theorem finalPhase_P {t : DTable} {ord : Direction} {i : ℕ}
    (hrest : rowRestEmpty t.hasVD (t.rows.getD i defaultDRow) = true)
    {d : List String} (hP : d.getD i "" = "") :
    (finalPhase t ord d).getD i "" = "" := by
  unfold finalPhase
  refine foldl_inv (fun d2 : List String => d2.getD i "" = "") hP ?_
  intro st a _ hQ
  by_cases hai : a = i
  · subst hai
    unfold finalBody
    rw [if_pos (emptyRowAt_of_cellEmpty hrest (by rw [hP]; exact cellEmpty_nil))]
    exact hQ
  · rcases finalBody_fst t d ord st a with h | ⟨v, h⟩ <;> rw [h]
    · exact hQ
    · rw [getD_set_ne _ hai]
      exact hQ

theorem setDates_xn_getD {t : DTable} {d : List String} {i : ℕ}
    (hP : d.getD i "" = "") :
    ((setDates t d).rows.getD i defaultDRow).xn = "" := by
  unfold setDates
  dsimp only
  rw [List.getD_eq_getElem?_getD]
  by_cases h : i < (List.zipWith (fun r s => (⟨s, r.vd, r.rest⟩ : DRow)) t.rows d).length
  · rw [List.getElem?_eq_getElem h]
    have hd : i < d.length := by
      simp at h
      omega
    show ((List.zipWith (fun r s => (⟨s, r.vd, r.rest⟩ : DRow)) t.rows d)[i]).xn = ""
    rw [List.getElem_zipWith]
    show d[i] = ""
    rw [List.getD_eq_getElem?_getD, List.getElem?_eq_getElem hd] at hP
    exact hP
  · rw [List.getElem?_eq_none (by omega)]
    rfl

/-- C9: a row whose cells are all empty (the blank page-break row) is
skipped by every phase of date_correction and no phase writes at its
index, so its date cell is still empty when the repair finishes: a
blank row is never assigned a date. -/
theorem blank_row_never_dated (fb : Bool → String → Option PdTs)
    (fz : String → Option String) (t : DTable) (i : ℕ)
    (hi : i < t.rows.length)
    (hxn : cellEmpty (t.rows.getD i defaultDRow).xn = true)
    (hrest : rowRestEmpty t.hasVD (t.rows.getD i defaultDRow) = true) :
    ((dateCorrection fb fz t).1.rows.getD i defaultDRow).xn = "" := by
  unfold dateCorrection
  dsimp only
  exact setDates_xn_getD (finalPhase_P hrest (backtrackPhase_P hrest
    (mainLoop_P hrest 5 (parsedDates fb fz t) (parsedDates_blank hi hxn hrest))))

/-- Three-row table whose middle row is entirely empty. -/
def c9table : DTable :=
  ⟨false, [⟨"01/01/2024", "", ["a"]⟩, ⟨"", "", [""]⟩, ⟨"03/01/2024", "", ["b"]⟩]⟩

/-- Witness for C9: the blank middle row of a concrete table still
has an empty date after date_correction. -/
theorem blank_row_never_dated_witness :
    (1 < c9table.rows.length ∧ cellEmpty (c9table.rows.getD 1 defaultDRow).xn = true ∧
      rowRestEmpty c9table.hasVD (c9table.rows.getD 1 defaultDRow) = true) ∧
    ((dateCorrection fbNone fzNone c9table).1.rows.getD 1 defaultDRow).xn = "" :=
  ⟨⟨by decide, by decide, by decide⟩,
    blank_row_never_dated fbNone fzNone c9table 1 (by decide) (by decide) (by decide)⟩

/-! ## Fixed point of chronology repair on sorted canonical ledgers

The amended idempotence statement: on a table without a value-date
column whose rows are each either fully blank or carry a canonical
valid DD/MM/YYYY date, with the valid dates monotone, the repairer
changes nothing and reports the direction ascending.  Applied twice
it therefore changes nothing either.  The development first shows
that the parser maps a canonical valid date to itself, then follows
every phase of date_correction, rotation and the year fix. -/

/-- A canonical transaction date: exactly the shape two digits,
slash, two digits, slash, four digits, and valid as a date. -/
def canonDate (s : String) : Bool :=
  (match s.data with
   | [d1, d2, s1, m1, m2, s2, y1, y2, y3, y4] =>
     isDigitC d1 && isDigitC d2 && decide (s1 = '/') && isDigitC m1 && isDigitC m2 &&
       decide (s2 = '/') && isDigitC y1 && isDigitC y2 && isDigitC y3 && isDigitC y4
   | _ => false) && is_valid_date s

theorem canon_toNat {c : Char} (h : isDigitC c = true ∨ c = '/') :
    47 ≤ c.toNat ∧ c.toNat ≤ 57 := by
  rcases h with h | h
  · simp [isDigitC] at h
    omega
  · subst h
    decide

theorem isSpaceC_eq_false {c : Char} (h47 : 47 ≤ c.toNat) (h57 : c.toNat ≤ 57) :
    isSpaceC c = false := by
  simp [isSpaceC]
  omega

theorem ucC_id {c : Char} (h57 : c.toNat ≤ 57) : ucC c = c := by
  unfold ucC
  rw [if_neg]
  omega

theorem isDigitC_ne_slash {c : Char} (h : isDigitC c = true) : ¬(c = '/') := by
  intro he
  subst he
  simp [isDigitC] at h

theorem digitChar_eq_of {c : Char} (h : isDigitC c = true) :
    digitChar (c.toNat - 48) = c := by
  simp [isDigitC] at h
  exact char_toNat_inj (by rw [digitChar_toNat (by omega)]; omega)

theorem natVal_two (a b : Char) :
    natVal [a, b] = (a.toNat - 48) * 10 + (b.toNat - 48) := by
  simp [natVal]

theorem pad2L_natVal2 {a b : Char} (ha : isDigitC a = true) (hb : isDigitC b = true) :
    pad2L (natVal [a, b]) = [a, b] := by
  have hta := ha
  have htb := hb
  simp [isDigitC] at hta htb
  rw [natVal_two]
  by_cases hva : a.toNat - 48 = 0
  · rw [hva]
    unfold pad2L
    rw [if_pos (by omega), natStrL_single (by omega)]
    have h1 : (0 : ℕ) * 10 + (b.toNat - 48) = b.toNat - 48 := by omega
    rw [h1, digitChar_eq_of hb]
    have h0 : ('0' : Char) = a := char_toNat_inj (by simp; omega)
    rw [h0]
  · unfold pad2L
    rw [if_neg (by omega)]
    rw [natStrL_step (by omega)]
    have hdiv : ((a.toNat - 48) * 10 + (b.toNat - 48)) / 10 = a.toNat - 48 := by omega
    have hmod : ((a.toNat - 48) * 10 + (b.toNat - 48)) % 10 = b.toNat - 48 := by omega
    rw [hdiv, hmod, natStrL_single (by omega), digitChar_eq_of ha, digitChar_eq_of hb]
    rfl

theorem dropWhile_all_false {p : Char → Bool} : ∀ {l : List Char},
    (∀ c ∈ l, p c = false) → l.dropWhile p = l := by
  intro l h
  cases l with
  | nil => rfl
  | cons c rest =>
    rw [List.dropWhile_cons, if_neg (by rw [h c (List.mem_cons_self c rest)]; simp)]

theorem stripL_id {l : List Char} (h : ∀ c ∈ l, isSpaceC c = false) : stripL l = l := by
  unfold stripL
  rw [dropWhile_all_false h, dropWhile_all_false fun c hc => h c (List.mem_reverse.mp hc),
    List.reverse_reverse]

theorem removeParensGo_id : ∀ (fuel : ℕ) (m : List Char),
    (∀ c ∈ m, ¬(c = '(')) → removeParensGo fuel m = m := by
  intro fuel
  induction fuel with
  | zero => intro m _; cases m <;> rfl
  | succ f ih =>
    intro m h
    cases m with
    | nil => rfl
    | cons c rest =>
      rw [removeParensGo, if_neg (h c (List.mem_cons_self c rest))]
      rw [ih rest fun c2 hc2 => h c2 (List.mem_cons_of_mem c hc2)]

theorem collapseWSGo_id : ∀ (fuel : ℕ) (m : List Char),
    (∀ c ∈ m, isSpaceC c = false) → collapseWSGo fuel m = m := by
  intro fuel
  induction fuel with
  | zero => intro m _; cases m <;> rfl
  | succ f ih =>
    intro m h
    cases m with
    | nil => rfl
    | cons c rest =>
      rw [collapseWSGo, if_neg (by rw [h c (List.mem_cons_self c rest)]; simp)]
      rw [ih rest fun c2 hc2 => h c2 (List.mem_cons_of_mem c hc2)]

theorem replaceAllGo_skip {pat rep : List Char} {pc : Char} (hpc : pc ∈ pat) :
    ∀ (fuel : ℕ) (m : List Char), (∀ c ∈ m, ¬(c = pc)) →
      replaceAllGo pat rep fuel m = m := by
  intro fuel
  induction fuel with
  | zero => intro m _; cases m <;> rfl
  | succ f ih =>
    intro m h
    cases m with
    | nil => rfl
    | cons c rest =>
      rw [replaceAllGo, if_neg]
      · rw [ih rest fun c2 hc2 => h c2 (List.mem_cons_of_mem c hc2)]
      · intro hcon
        have hpref := List.isPrefixOf_iff_prefix.mp hcon.2
        exact h pc (hpref.subset hpc) rfl

theorem replaceAll_id {pat rep : List Char} {pc : Char} (hpc : pc ∈ pat)
    {m : List Char} (h : ∀ c ∈ m, ¬(c = pc)) : replaceAll pat rep m = m :=
  replaceAllGo_skip hpc m.length m h

theorem filter_id_of (p : Char → Bool) {l : List Char} (h : ∀ c ∈ l, p c = true) :
    l.filter p = l :=
  List.filter_eq_self.mpr h

theorem cleanDateTok_id {l : List Char} (hcl : ∀ c ∈ l, isDigitC c = true ∨ c = '/') :
    cleanDateTok l = l := by
  have hb : ∀ c ∈ l, 47 ≤ c.toNat ∧ c.toNat ≤ 57 := fun c hc => canon_toNat (hcl c hc)
  have hsp : ∀ c ∈ l, isSpaceC c = false := fun c hc =>
    isSpaceC_eq_false (hb c hc).1 (hb c hc).2
  have hno : ∀ (pc : Char), 65 ≤ pc.toNat → ∀ c ∈ l, ¬(c = pc) := by
    intro pc hpc c hc he
    subst he
    have := (hb c hc).2
    omega
  have hmap : l.map ucC = l := by
    rw [show l.map ucC = l.map id from List.map_congr_left fun c hc => ucC_id (hb c hc).2]
    exact List.map_id l
  unfold cleanDateTok
  rw [hmap]
  rw [show removeParens l = l from removeParensGo_id l.length l fun c hc he => by
    subst he; exact absurd (hb _ hc) (by decide)]
  rw [show collapseWS l = l from collapseWSGo_id l.length l hsp]
  rw [replaceAll_id (show ('C' : Char) ∈ ['0', 'C', 'T'] from by decide)
    (hno 'C' (by decide))]
  rw [replaceAll_id (show ('A' : Char) ∈ ['A', '0', 'G'] from by decide)
    (hno 'A' (by decide))]
  rw [filter_id_of (fun c => !(decide (c.toNat = 96) || decide (c.toNat = 39)))
    (by intro c hc; have := hb c hc; simp; omega)]
  rw [filter_id_of (fun c => !(decide (c = '[') || decide (c = ']') ||
      decide (c.toNat = 123) || decide (c.toNat = 125))) (by
    intro c hc
    have hcb := hb c hc
    have h1 : ¬(c = '[') := fun he => by subst he; exact absurd hcb (by decide)
    have h2 : ¬(c = ']') := fun he => by subst he; exact absurd hcb (by decide)
    simp [h1, h2]
    omega)]
  simp only [monthCorrPairs, List.foldl_cons, List.foldl_nil]
  rw [replaceAll_id (show ('J' : Char) ∈ "JULY".data from by decide) (hno 'J' (by decide))]
  rw [replaceAll_id (show ('J' : Char) ∈ "JANUARY".data from by decide) (hno 'J' (by decide))]
  rw [replaceAll_id (show ('F' : Char) ∈ "FEBRUARY".data from by decide) (hno 'F' (by decide))]
  rw [replaceAll_id (show ('M' : Char) ∈ "MARCH".data from by decide) (hno 'M' (by decide))]
  rw [replaceAll_id (show ('A' : Char) ∈ "APRIL".data from by decide) (hno 'A' (by decide))]
  rw [replaceAll_id (show ('J' : Char) ∈ "JUNE".data from by decide) (hno 'J' (by decide))]
  rw [replaceAll_id (show ('A' : Char) ∈ "AUGUST".data from by decide) (hno 'A' (by decide))]
  rw [replaceAll_id (show ('S' : Char) ∈ "SEPTEMBER".data from by decide) (hno 'S' (by decide))]
  rw [replaceAll_id (show ('S' : Char) ∈ "SEPT".data from by decide) (hno 'S' (by decide))]
  rw [replaceAll_id (show ('O' : Char) ∈ "OCTOBER".data from by decide) (hno 'O' (by decide))]
  rw [replaceAll_id (show ('N' : Char) ∈ "NOVEMBER".data from by decide) (hno 'N' (by decide))]
  rw [replaceAll_id (show ('D' : Char) ∈ "DECEMBER".data from by decide) (hno 'D' (by decide))]
  exact stripL_id hsp

theorem digit_space {c : Char} (h : isDigitC c = true) : isSpaceC c = false := by
  simp [isDigitC] at h
  exact isSpaceC_eq_false (by omega) (by omega)

theorem digit_alpha {c : Char} (h : isDigitC c = true) : isAlphaC c = false := by
  simp [isDigitC] at h
  simp [isAlphaC]
  omega

theorem digit_sep1 {c : Char} (h : isDigitC c = true) : isSep1 c = false := by
  simp [isDigitC] at h
  simp [isSep1]
  omega

theorem digit_sepD {c : Char} (h : isDigitC c = true) : isSepD c = false := by
  unfold isSepD
  rw [digit_sep1 h, digit_space h]
  rfl

theorem intOfStr_digits {a : List Char} (hne : a ≠ []) (hd : a.all isDigitC = true) :
    intOfStr? a = some ((natVal a : ℤ)) := by
  unfold intOfStr?
  dsimp only
  have hsp : ∀ c ∈ a, isSpaceC c = false := fun c hc =>
    digit_space (by rw [List.all_eq_true] at hd; exact hd c hc)
  rw [stripL_id hsp]
  cases a with
  | nil => exact absurd rfl hne
  | cons c rest =>
    have hc : isDigitC c = true := by
      rw [List.all_cons, Bool.and_eq_true] at hd
      exact hd.1
    have hm : ¬(c = '-') := fun he => by rw [he] at hc; exact absurd hc (by decide)
    have hp : ¬(c = '+') := fun he => by rw [he] at hc; exact absurd hc (by decide)
    rw [if_neg (by simp [hm]), if_neg (by simp [hp]),
      if_pos ⟨List.cons_ne_nil c rest, hd⟩]

theorem canonDate_decomp {s : String} (h : canonDate s = true) :
    ∃ d1 d2 m1 m2 y1 y2 y3 y4 : Char,
      s.data = [d1, d2, '/', m1, m2, '/', y1, y2, y3, y4] ∧
      isDigitC d1 = true ∧ isDigitC d2 = true ∧ isDigitC m1 = true ∧ isDigitC m2 = true ∧
      isDigitC y1 = true ∧ isDigitC y2 = true ∧ isDigitC y3 = true ∧ isDigitC y4 = true ∧
      is_valid_date s = true := by
  unfold canonDate at h
  rw [Bool.and_eq_true] at h
  obtain ⟨hsh, hval⟩ := h
  split at hsh
  case h_1 d1 d2 s1 m1 m2 s2 y1 y2 y3 y4 heq =>
    simp only [Bool.and_eq_true, decide_eq_true_eq] at hsh
    obtain ⟨⟨⟨⟨⟨⟨⟨⟨⟨h1, h2⟩, h3⟩, h4⟩, h5⟩, h6⟩, h7⟩, h8⟩, h9⟩, h10⟩ := hsh
    subst h3
    subst h6
    exact ⟨d1, d2, m1, m2, y1, y2, y3, y4, heq, h1, h2, h4, h5, h7, h8, h9, h10, hval⟩
  case h_2 => exact absurd hsh (by simp)

theorem canonL_class {d1 d2 m1 m2 y1 y2 y3 y4 : Char}
    (hd1 : isDigitC d1 = true) (hd2 : isDigitC d2 = true)
    (hm1 : isDigitC m1 = true) (hm2 : isDigitC m2 = true)
    (hy1 : isDigitC y1 = true) (hy2 : isDigitC y2 = true)
    (hy3 : isDigitC y3 = true) (hy4 : isDigitC y4 = true) :
    ∀ c ∈ [d1, d2, '/', m1, m2, '/', y1, y2, y3, y4],
      isDigitC c = true ∨ c = '/' := by
  intro c hc
  simp only [List.mem_cons, List.not_mem_nil, or_false] at hc
  rcases hc with rfl | rfl | rfl | rfl | rfl | rfl | rfl | rfl | rfl | rfl
  · exact Or.inl hd1
  · exact Or.inl hd2
  · exact Or.inr rfl
  · exact Or.inl hm1
  · exact Or.inl hm2
  · exact Or.inr rfl
  · exact Or.inl hy1
  · exact Or.inl hy2
  · exact Or.inl hy3
  · exact Or.inl hy4

theorem canonL_strip {d1 d2 m1 m2 y1 y2 y3 y4 : Char}
    (hd1 : isDigitC d1 = true) (hd2 : isDigitC d2 = true)
    (hm1 : isDigitC m1 = true) (hm2 : isDigitC m2 = true)
    (hy1 : isDigitC y1 = true) (hy2 : isDigitC y2 = true)
    (hy3 : isDigitC y3 = true) (hy4 : isDigitC y4 = true) :
    stripL [d1, d2, '/', m1, m2, '/', y1, y2, y3, y4] =
      [d1, d2, '/', m1, m2, '/', y1, y2, y3, y4] := by
  refine stripL_id ?_
  intro c hc
  rcases canonL_class hd1 hd2 hm1 hm2 hy1 hy2 hy3 hy4 c hc with h | h
  · exact digit_space h
  · subst h
    decide

theorem canonL_split {d1 d2 m1 m2 y1 y2 y3 y4 : Char}
    (hd1 : isDigitC d1 = true) (hd2 : isDigitC d2 = true)
    (hm1 : isDigitC m1 = true) (hm2 : isDigitC m2 = true)
    (hy1 : isDigitC y1 = true) (hy2 : isDigitC y2 = true)
    (hy3 : isDigitC y3 = true) (hy4 : isDigitC y4 = true) :
    splitOnC '/' [d1, d2, '/', m1, m2, '/', y1, y2, y3, y4] =
      [[d1, d2], [m1, m2], [y1, y2, y3, y4]] := by
  simp [splitOnC, isDigitC_ne_slash hd1, isDigitC_ne_slash hd2, isDigitC_ne_slash hm1,
    isDigitC_ne_slash hm2, isDigitC_ne_slash hy1, isDigitC_ne_slash hy2,
    isDigitC_ne_slash hy3, isDigitC_ne_slash hy4]

theorem canonL_splitDate {d1 d2 m1 m2 y1 y2 y3 y4 : Char}
    (hd1 : isDigitC d1 = true) (hd2 : isDigitC d2 = true)
    (hm1 : isDigitC m1 = true) (hm2 : isDigitC m2 = true)
    (hy1 : isDigitC y1 = true) (hy2 : isDigitC y2 = true)
    (hy3 : isDigitC y3 = true) (hy4 : isDigitC y4 = true) :
    splitDate? [d1, d2, '/', m1, m2, '/', y1, y2, y3, y4] =
      some ⟨(natVal [d1, d2] : ℤ), (natVal [m1, m2] : ℤ),
        (natVal [y1, y2, y3, y4] : ℤ)⟩ := by
  unfold splitDate?
  rw [canonL_split hd1 hd2 hm1 hm2 hy1 hy2 hy3 hy4]
  have e1 : intOfStr? [d1, d2] = some ((natVal [d1, d2] : ℤ)) :=
    intOfStr_digits (by simp) (by simp [hd1, hd2])
  have e2 : intOfStr? [m1, m2] = some ((natVal [m1, m2] : ℤ)) :=
    intOfStr_digits (by simp) (by simp [hm1, hm2])
  have e3 : intOfStr? [y1, y2, y3, y4] = some ((natVal [y1, y2, y3, y4] : ℤ)) :=
    intOfStr_digits (by simp) (by simp [hy1, hy2, hy3, hy4])
  simp [e1, e2, e3]

theorem canonL_valid {s : String} {d1 d2 m1 m2 y1 y2 y3 y4 : Char}
    (heq : s.data = [d1, d2, '/', m1, m2, '/', y1, y2, y3, y4])
    (hd1 : isDigitC d1 = true) (hd2 : isDigitC d2 = true)
    (hm1 : isDigitC m1 = true) (hm2 : isDigitC m2 = true)
    (hy1 : isDigitC y1 = true) (hy2 : isDigitC y2 = true)
    (hy3 : isDigitC y3 = true) (hy4 : isDigitC y4 = true)
    (hval : is_valid_date s = true) :
    validDMY (natVal [d1, d2] : ℤ) (natVal [m1, m2] : ℤ)
      (natVal [y1, y2, y3, y4] : ℤ) = true := by
  unfold is_valid_date at hval
  rw [heq, canonL_strip hd1 hd2 hm1 hm2 hy1 hy2 hy3 hy4] at hval
  rw [if_neg] at hval
  · rw [canonL_splitDate hd1 hd2 hm1 hm2 hy1 hy2 hy3 hy4] at hval
    exact hval
  · rintro (h | h | h | h)
    · simp at h
    · simp at h
    · have := congrArg List.length h
      simp at this
    · have := congrArg List.length h
      simp at this

theorem canonL_has00 {d1 d2 m1 m2 y1 y2 y3 y4 : Char}
    (hd1 : isDigitC d1 = true) (hd2 : isDigitC d2 = true)
    (hm1 : isDigitC m1 = true) (hm2 : isDigitC m2 = true)
    (hy1 : isDigitC y1 = true) (hy2 : isDigitC y2 = true)
    (hy3 : isDigitC y3 = true) (hy4 : isDigitC y4 = true)
    (hday : 1 ≤ natVal [d1, d2]) (hmon : 1 ≤ natVal [m1, m2]) :
    has00 [d1, d2, '/', m1, m2, '/', y1, y2, y3, y4] = false := by
  have hsd : isDigitC '/' = false := by decide
  have hnd : ¬(d1 = '0' ∧ d2 = '0') := by
    rintro ⟨rfl, rfl⟩
    exact absurd hday (by decide)
  have hnm : ¬(m1 = '0' ∧ m2 = '0') := by
    rintro ⟨rfl, rfl⟩
    exact absurd hmon (by decide)
  simp [has00, has00go, hd1, hd2, hm1, hm2, hy1, hy2, hy3, hy4, hsd]
  constructor
  · intro h1
    exact fun h2 => hnd ⟨h1, h2⟩
  · intro h1
    exact fun h2 => hnm ⟨h1, h2⟩

theorem canonL_strats {d1 d2 m1 m2 y1 y2 y3 y4 : Char}
    (hd1 : isDigitC d1 = true) (hd2 : isDigitC d2 = true)
    (hm1 : isDigitC m1 = true) (hm2 : isDigitC m2 = true)
    (hy1 : isDigitC y1 = true) (hy2 : isDigitC y2 = true)
    (hy3 : isDigitC y3 = true) (hy4 : isDigitC y4 = true) :
    matchMixed1 [d1, d2, '/', m1, m2, '/', y1, y2, y3, y4] = none ∧
    matchMixed2 [d1, d2, '/', m1, m2, '/', y1, y2, y3, y4] = none ∧
    matchDMonY [d1, d2, '/', m1, m2, '/', y1, y2, y3, y4] = none ∧
    matchMonDY [d1, d2, '/', m1, m2, '/', y1, y2, y3, y4] = none ∧
    matchYMDnum [d1, d2, '/', m1, m2, '/', y1, y2, y3, y4] = none ∧
    matchDMYnum [d1, d2, '/', m1, m2, '/', y1, y2, y3, y4] =
      some (natVal [d1, d2], natVal [m1, m2], [y1, y2, y3, y4]) := by
  have hsd : isDigitC '/' = false := by decide
  have hss : isSpaceC '/' = false := by decide
  have hsa : isAlphaC '/' = false := by decide
  have hsD : isSepD '/' = true := by decide
  refine ⟨?_, ?_, ?_, ?_, ?_, ?_⟩
  · simp [matchMixed1, List.takeWhile, List.dropWhile, hd1, hd2, hm1, hm2, hy1, hy2,
      hy3, hy4, hsd, hss, digit_space hd1, digit_space hd2]
  · simp [matchMixed2, List.takeWhile, List.dropWhile, hd1, hd2, hm1, hm2, hy1, hy2,
      hy3, hy4, hsd, hss, digit_space hd1, digit_space hd2]
  · simp [matchDMonY, List.takeWhile, List.dropWhile, hd1, hd2, hm1, hm2, hy1, hy2,
      hy3, hy4, hsd, hsD, digit_sepD hm1, digit_alpha hm1]
  · simp [matchMonDY, List.takeWhile, List.dropWhile, hd1, hd2, hm1, hm2, hy1, hy2,
      hy3, hy4, digit_alpha hd1]
  · simp [matchYMDnum, List.takeWhile, List.dropWhile, hd1, hd2, hm1, hm2, hy1, hy2,
      hy3, hy4, hsd]
  · simp [matchDMYnum, List.takeWhile, List.dropWhile, hd1, hd2, hm1, hm2, hy1, hy2,
      hy3, hy4, hsd, hsD, digit_sepD hm1, digit_sepD hy1]

theorem parseCustomDate_canon (fb : Bool → String → Option PdTs)
    (fz : String → Option String) {s : String} (h : canonDate s = true) :
    parseCustomDate fb fz s = some s := by
  obtain ⟨d1, d2, m1, m2, y1, y2, y3, y4, heq, hd1, hd2, hm1, hm2, hy1, hy2, hy3, hy4, hval⟩ :=
    canonDate_decomp h
  have hstrip := canonL_strip hd1 hd2 hm1 hm2 hy1 hy2 hy3 hy4
  have hvd := canonL_valid heq hd1 hd2 hm1 hm2 hy1 hy2 hy3 hy4 hval
  have hrange : 1 ≤ natVal [d1, d2] ∧ 1 ≤ natVal [m1, m2] := by
    unfold validDMY at hvd
    split at hvd
    · rename_i hcond
      exact ⟨by exact_mod_cast hcond.1, by exact_mod_cast hcond.2.2.1⟩
    · exact absurd hvd (by simp)
  have h00 := canonL_has00 hd1 hd2 hm1 hm2 hy1 hy2 hy3 hy4 hrange.1 hrange.2
  have hstr := canonL_strats hd1 hd2 hm1 hm2 hy1 hy2 hy3 hy4
  have hclean := cleanDateTok_id (canonL_class hd1 hd2 hm1 hm2 hy1 hy2 hy3 hy4)
  have hs1 : strat1 fz [d1, d2, '/', m1, m2, '/', y1, y2, y3, y4] = none := by
    unfold strat1
    rw [hstr.2.2.1]
    rfl
  have hs2 : strat2 fz [d1, d2, '/', m1, m2, '/', y1, y2, y3, y4] = none := by
    unfold strat2
    rw [hstr.2.2.2.1]
    rfl
  have hs3 : strat3 [d1, d2, '/', m1, m2, '/', y1, y2, y3, y4] = none := by
    unfold strat3
    rw [hstr.2.2.2.2.1]
    rfl
  have hfmt : fmtNumDate (natVal [d1, d2]) (natVal [m1, m2]) [y1, y2, y3, y4] = s := by
    unfold fmtNumDate
    rw [pad2L_natVal2 hd1 hd2, pad2L_natVal2 hm1 hm2]
    have hsmk : String.mk s.data = s := rfl
    rw [← hsmk, heq]
    rfl
  have hs4 : strat4 [d1, d2, '/', m1, m2, '/', y1, y2, y3, y4] = some s := by
    unfold strat4
    rw [hstr.2.2.2.2.2, Option.map_some', hfmt]
  unfold parseCustomDate
  rw [heq]
  simp only [hstrip]
  rw [if_neg (by simp), if_neg (by rw [h00]; simp)]
  rw [hstr.1]
  simp only [hstr.2.1, Option.none_bind, hclean, firstSomeS, List.findSome?_cons, hs1,
    hs2, hs3, hs4, id]

theorem dedupFirstGo_sublist : ∀ (l seen : List String),
    List.Sublist (dedupFirstGo seen l) l := by
  intro l
  induction l with
  | nil => intro seen; simp [dedupFirstGo]
  | cons s rest ih =>
    intro seen
    rw [dedupFirstGo]
    split
    · exact (ih seen).cons s
    · exact (ih (s :: seen)).cons₂ s

theorem pairwise_zip_tail {α : Type} {S : α → α → Prop} :
    ∀ {ds : List α}, ds.Pairwise S → ∀ p ∈ ds.zip ds.tail, S p.1 p.2 := by
  intro ds
  induction ds with
  | nil =>
    intro _ p hp
    simp at hp
  | cons a tl ih =>
    intro hP p hp
    cases tl with
    | nil => simp at hp
    | cons b tl2 =>
      rcases List.mem_cons.mp hp with rfl | hp2
      · exact List.rel_of_pairwise_cons hP (List.mem_cons_self b tl2)
      · exact ih (List.Pairwise.of_cons hP) p hp2

theorem ordCore_asc {vals : List String}
    (hvals : vals.Pairwise fun a b => dmyLE (theDMY a) (theDMY b) = true)
    (hlen : 2 ≤ vals.length) :
    (let ds := vals.map theDMY
     let pairs := ds.zip ds.tail
     let asc := (pairs.filter fun p => dmyLE p.1 p.2).length
     let desc := pairs.length - asc
     let both : ℕ × ℕ :=
       match ds.head?, ds.getLast? with
       | some f, some l => if dmyLE f l then (asc + 1, desc) else (asc, desc + 1)
       | _, _ => (asc, desc)
     if both.2 ≤ both.1 then Direction.ascending else Direction.descending) =
      Direction.ascending := by
  dsimp only
  have hds : (vals.map theDMY).Pairwise (fun a b => dmyLE a b = true) :=
    List.pairwise_map.mpr hvals
  have hfil : ((vals.map theDMY).zip (vals.map theDMY).tail).filter
      (fun p => dmyLE p.1 p.2) = (vals.map theDMY).zip (vals.map theDMY).tail :=
    List.filter_eq_self.mpr (pairwise_zip_tail hds)
  rw [hfil]
  have h1 : 1 ≤ ((vals.map theDMY).zip (vals.map theDMY).tail).length := by
    rw [List.length_zip]
    simp
    omega
  split
  · rfl
  · rename_i hcon
    exfalso
    split at hcon
    · split at hcon
      · exact hcon (by simp)
      · exact hcon (by simp; omega)
    · exact hcon (by simp)

theorem getDateOrder_asc {dates : List String}
    (hmono : dates.Pairwise fun a b =>
      is_valid_date a = true → is_valid_date b = true →
        dmyLE (theDMY a) (theDMY b) = true) :
    getDateOrder dates = Direction.ascending := by
  unfold getDateOrder
  dsimp only
  split
  · rfl
  · rename_i hlen
    refine ordCore_asc ?_ (by omega)
    have hfil : (dates.filter fun s => is_valid_date s).Pairwise fun a b =>
        dmyLE (theDMY a) (theDMY b) = true := by
      refine (hmono.filter (fun s => is_valid_date s)).imp_of_mem ?_
      intro a b ha hb hR
      exact hR (List.of_mem_filter ha) (List.of_mem_filter hb)
    exact hfil.sublist (dedupFirstGo_sublist _ [])

theorem findPrevValid_spec {d : List String} {idx : ℕ} {p : String}
    (h : findPrevValid d idx = some p) :
    ∃ j, j < idx ∧ d.getD j "" = p ∧ is_valid_date (d.getD j "") = true := by
  unfold findPrevValid at h
  obtain ⟨j, hj, hjp⟩ := Option.map_eq_some'.mp h
  have hmem := List.mem_of_find?_eq_some hj
  have hpred := List.find?_some hj
  rw [List.mem_reverse, List.mem_range] at hmem
  exact ⟨j, hmem, hjp, hpred⟩

theorem findNextValid_spec {d : List String} {idx : ℕ} {nx : String}
    (h : findNextValid d idx = some nx) :
    ∃ j, idx < j ∧ j < d.length ∧ d.getD j "" = nx ∧
      is_valid_date (d.getD j "") = true := by
  unfold findNextValid at h
  obtain ⟨j, hj, hjn⟩ := Option.map_eq_some'.mp h
  have hmem := List.mem_of_find?_eq_some hj
  have hpred := List.find?_some hj
  have hlt : j < d.length := by
    have := List.mem_of_mem_drop hmem
    rw [List.mem_range] at this
    exact this
  have hge : idx + 1 ≤ j := by
    rw [List.mem_drop_iff_getElem] at hmem
    obtain ⟨i, hi, he⟩ := hmem
    rw [List.getElem_range] at he
    omega
  exact ⟨j, by omega, hlt, hjn, hpred⟩

theorem dmyLE_not_lt {a b : DMY} (h : dmyLE a b = true) : dmyLT b a = false := by
  simp [dmyLE] at h
  simp [dmyLT]
  omega

theorem isDateInOrder_of_le {cur : String} {p? n? : Option String}
    (hvc : is_valid_date cur = true)
    (hp : ∀ p, p? = some p → is_valid_date p = true →
      dmyLE (theDMY p) (theDMY cur) = true)
    (hn : ∀ nx, n? = some nx → is_valid_date nx = true →
      dmyLE (theDMY cur) (theDMY nx) = true) :
    isDateInOrder cur p? n? Direction.ascending = true := by
  unfold isDateInOrder
  rw [hvc]
  dsimp only
  cases p? with
  | none =>
    cases n? with
    | none => rfl
    | some nx =>
      by_cases hv : is_valid_date nx = true
      · simp [hv, dmyLE_not_lt (hn nx rfl hv)]
      · simp [hv]
  | some p =>
    by_cases hvp : is_valid_date p = true
    · cases n? with
      | none => simp [hvp, dmyLE_not_lt (hp p rfl hvp)]
      | some nx =>
        by_cases hv : is_valid_date nx = true
        · simp [hvp, hv, dmyLE_not_lt (hp p rfl hvp), dmyLE_not_lt (hn nx rfl hv)]
        · simp [hvp, hv, dmyLE_not_lt (hp p rfl hvp)]
    · cases n? with
      | none => simp [hvp]
      | some nx =>
        by_cases hv : is_valid_date nx = true
        · simp [hvp, hv, dmyLE_not_lt (hn nx rfl hv)]
        · simp [hvp, hv]

theorem canon_valid {s : String} (h : canonDate s = true) : is_valid_date s = true := by
  unfold canonDate at h
  rw [Bool.and_eq_true] at h
  exact h.2

theorem canon_cellEmpty {s : String} (h : canonDate s = true) : cellEmpty s = false := by
  obtain ⟨d1, d2, m1, m2, y1, y2, y3, y4, heq, hd1, hd2, hm1, hm2, hy1, hy2, hy3, hy4, -⟩ :=
    canonDate_decomp h
  unfold cellEmpty
  rw [heq, canonL_strip hd1 hd2 hm1 hm2 hy1 hy2 hy3 hy4]
  simp

theorem canon_sstrip {s : String} (h : canonDate s = true) : sstrip s = s := by
  obtain ⟨d1, d2, m1, m2, y1, y2, y3, y4, heq, hd1, hd2, hm1, hm2, hy1, hy2, hy3, hy4, -⟩ :=
    canonDate_decomp h
  unfold sstrip
  rw [heq, canonL_strip hd1 hd2 hm1 hm2 hy1 hy2 hy3 hy4, ← heq]

theorem rowRestEmpty_noVD {r : DRow} : rowRestEmpty false r = r.rest.all cellEmpty := by
  unfold rowRestEmpty
  rfl

theorem dmyLE_year {a b : DMY} (h : dmyLE a b = true) : a.year ≤ b.year := by
  simp [dmyLE] at h
  omega

theorem parseCustomDate_empty (fb : Bool → String → Option PdTs)
    (fz : String → Option String) : parseCustomDate fb fz "" = none := by
  rfl

theorem getD_getElem {d : List String} {k : ℕ} (hk : k < d.length) :
    d.getD k "" = d[k] := by
  rw [List.getD_eq_getElem?_getD, List.getElem?_eq_getElem hk]
  rfl

theorem rows_getD_getElem {rows : List DRow} {k : ℕ} (hk : k < rows.length) :
    rows.getD k defaultDRow = rows[k] := by
  rw [List.getD_eq_getElem?_getD, List.getElem?_eq_getElem hk]
  rfl

theorem parsedDates_id {fb : Bool → String → Option PdTs} {fz : String → Option String}
    {t : DTable} (hvd : t.hasVD = false)
    (hrow : ∀ r ∈ t.rows,
      (r.xn = "" ∧ r.rest.all cellEmpty = true) ∨ canonDate r.xn = true) :
    parsedDates fb fz t = xnList t := by
  unfold parsedDates
  apply List.ext_getElem
  · simp [xnList]
  · intro i h1 h2
    have hi : i < t.rows.length := by simpa using h1
    rw [List.getElem_map, List.getElem_range]
    have hxr : (xnList t)[i] = t.rows[i].xn := by
      unfold xnList
      rw [List.getElem_map]
    have hmem : t.rows[i] ∈ t.rows := List.getElem_mem hi
    have hgd : t.rows.getD i defaultDRow = t.rows[i] := rows_getD_getElem hi
    rcases hrow _ hmem with ⟨hxn, hrest⟩ | hcanon
    · rw [if_pos]
      · rw [hxr, hxn]
      · unfold emptyRowAt
        rw [xnList_getD hi, hgd, hxn, hvd, rowRestEmpty_noVD, hrest, cellEmpty_nil]
        rfl
    · rw [if_neg]
      · rw [hgd, canon_sstrip hcanon, parseCustomDate_canon fb fz hcanon, hxr]
        rfl
      · unfold emptyRowAt
        rw [xnList_getD hi, hgd, canon_cellEmpty hcanon]
        simp

theorem inOrder_of_pairwise {d : List String}
    (hpw : d.Pairwise fun a b => is_valid_date a = true → is_valid_date b = true →
      dmyLE (theDMY a) (theDMY b) = true)
    (idx : ℕ) (hv : is_valid_date (d.getD idx "") = true) :
    isDateInOrder (d.getD idx "") (findPrevValid d idx) (findNextValid d idx)
      Direction.ascending = true := by
  have hidx : idx < d.length := by
    by_contra hge
    rw [List.getD_eq_getElem?_getD, List.getElem?_eq_none (by omega)] at hv
    exact absurd hv (by decide)
  have hpwi := List.pairwise_iff_getElem.mp hpw
  refine isDateInOrder_of_le hv ?_ ?_
  · intro p hsome hvp
    obtain ⟨j, hj, hje, hjv⟩ := findPrevValid_spec hsome
    have hjlen : j < d.length := by omega
    rw [← hje]
    rw [getD_getElem hjlen] at hjv ⊢
    rw [getD_getElem hidx] at hv ⊢
    exact hpwi j idx hjlen hidx hj hjv hv
  · intro nx hsome hvn
    obtain ⟨j, hj, hjlen, hje, hjv⟩ := findNextValid_spec hsome
    rw [← hje]
    rw [getD_getElem hjlen] at hjv ⊢
    rw [getD_getElem hidx] at hv ⊢
    exact hpwi idx j hidx hjlen hj hv hjv

theorem loopBody_noop {fb : Bool → String → Option PdTs} {fz : String → Option String}
    {t : DTable} {d : List String}
    (hpw : d.Pairwise fun a b => is_valid_date a = true → is_valid_date b = true →
      dmyLE (theDMY a) (theDMY b) = true)
    (idx : ℕ) :
    loopBody fb fz t d Direction.ascending (d, false) idx = (d, false) := by
  unfold loopBody
  dsimp only
  split
  · rfl
  · split
    · rfl
    · split
      · rename_i hcur hval
        rw [if_neg]
        rw [inOrder_of_pairwise hpw idx hval]
        simp
      · rfl

theorem mainLoop_noop {fb : Bool → String → Option PdTs} {fz : String → Option String}
    {t : DTable} {d : List String}
    (hpw : d.Pairwise fun a b => is_valid_date a = true → is_valid_date b = true →
      dmyLE (theDMY a) (theDMY b) = true)
    (k : ℕ) :
    mainLoop fb fz t Direction.ascending (k + 1) d = d := by
  have hiter : mainIter fb fz t Direction.ascending d = (d, false) := by
    unfold mainIter
    refine foldl_inv (fun st : List String × Bool => st = (d, false)) rfl ?_
    intro st a _ hQ
    rw [hQ]
    exact loopBody_noop hpw a
  unfold mainLoop
  rw [hiter]
  rfl

theorem backtrackPhase_noop {fb : Bool → String → Option PdTs} {fz : String → Option String}
    {t : DTable} {ord : Direction} (hvd : t.hasVD = false)
    (hrow : ∀ r ∈ t.rows,
      (r.xn = "" ∧ r.rest.all cellEmpty = true) ∨ canonDate r.xn = true) :
    backtrackPhase fb fz t ord (xnList t) = xnList t := by
  unfold backtrackPhase
  dsimp only
  rw [List.filter_eq_nil_iff.mpr]
  · rfl
  · intro i hi
    rw [List.mem_range] at hi
    have hgd : t.rows.getD i defaultDRow = t.rows[i] := rows_getD_getElem hi
    rcases hrow t.rows[i] (List.getElem_mem hi) with ⟨hxn, hrest⟩ | hcanon
    · have hemp : emptyRowAt t (xnList t) i = true := by
        unfold emptyRowAt
        rw [xnList_getD hi, hgd, hxn, hvd, rowRestEmpty_noVD, hrest, cellEmpty_nil]
        rfl
      rw [hemp]
      simp
    · have hvalid : is_valid_date ((xnList t).getD i "") = true := by
        rw [xnList_getD hi, hgd]
        exact canon_valid hcanon
      rw [hvalid]
      simp

theorem finalPhase_noop {t : DTable} {d : List String}
    (hpw : d.Pairwise fun a b => is_valid_date a = true → is_valid_date b = true →
      dmyLE (theDMY a) (theDMY b) = true) :
    finalPhase t Direction.ascending d = d := by
  unfold finalPhase
  refine foldl_inv (fun d2 : List String => d2 = d) rfl ?_
  intro st a _ hQ
  rw [hQ]
  unfold finalBody
  dsimp only
  split
  · rfl
  · split
    · rfl
    · rename_i hcur
      rw [if_pos]
      refine inOrder_of_pairwise hpw a ?_
      push_neg at hcur
      simpa using hcur.2

theorem zipWith_setback : ∀ rows : List DRow,
    List.zipWith (fun r s => (⟨s, r.vd, r.rest⟩ : DRow)) rows (rows.map DRow.xn) = rows := by
  intro rows
  induction rows with
  | nil => rfl
  | cons r rest ih =>
    rw [List.map_cons, List.zipWith_cons_cons, ih]

theorem setDates_xn (t : DTable) : setDates t (xnList t) = t := by
  unfold setDates xnList
  rw [zipWith_setback]

theorem fixYear_noop {t : DTable} (hvd : t.hasVD = false)
    (hpw : (xnList t).Pairwise fun a b => is_valid_date a = true →
      is_valid_date b = true → dmyLE (theDMY a) (theDMY b) = true) :
    fixYear t = (t, 0) := by
  unfold fixYear
  dsimp only
  split
  · rfl
  · rw [hvd]
    have key : ∀ res : List String × ℕ, res = (xnList t, 0) →
        (setDates t res.1, res.2) = (t, 0) := by
      rintro res rfl
      rw [setDates_xn]
    apply key
    refine foldl_inv (fun st : List String × ℕ => st = (xnList t, 0)) rfl ?_
    intro st a ha hQ
    rw [List.mem_range] at ha
    rw [hQ]
    dsimp only
    split
    · rfl
    · rename_i hnval
      have hval : is_valid_date ((xnList t).getD a "") = true := by
        simpa using hnval
      split
      · rename_i test heq
        rw [if_neg (by simp)] at heq
        exact absurd heq (by simp)
      · split
        · split
          · rename_i pd heq
            unfold validOpt at heq
            split at heq
            · rename_i p hp
              split at heq
              · rename_i hpv
                injection heq with heq
                subst heq
                obtain ⟨j, hj, hje, hjv⟩ := findPrevValid_spec hp
                have hjlen : j < (xnList t).length := by omega
                have hpwi := List.pairwise_iff_getElem.mp hpw
                have hle : dmyLE (theDMY ((xnList t).getD j ""))
                    (theDMY ((xnList t).getD a "")) = true := by
                  rw [getD_getElem hjlen, getD_getElem ha]
                  rw [getD_getElem hjlen] at hjv
                  rw [getD_getElem ha] at hval
                  exact hpwi j a hjlen ha hj hjv hval
                rw [hje] at hle
                rw [if_neg]
                intro hcon
                have := dmyLE_year hle
                omega
              · exact absurd heq (by simp)
            · exact absurd heq (by simp)
          · rfl
        · rfl

theorem dateCorrection_noop {fb : Bool → String → Option PdTs}
    {fz : String → Option String} {t : DTable} (hvd : t.hasVD = false)
    (hrow : ∀ r ∈ t.rows,
      (r.xn = "" ∧ r.rest.all cellEmpty = true) ∨ canonDate r.xn = true)
    (hpw : (xnList t).Pairwise fun a b => is_valid_date a = true →
      is_valid_date b = true → dmyLE (theDMY a) (theDMY b) = true) :
    dateCorrection fb fz t = (t, Direction.ascending) := by
  unfold dateCorrection
  dsimp only
  rw [parsedDates_id hvd hrow, getDateOrder_asc hpw]
  rw [show mainLoop fb fz t Direction.ascending 5 (xnList t) = xnList t from
    mainLoop_noop hpw 4]
  rw [backtrackPhase_noop hvd hrow, finalPhase_noop hpw, setDates_xn,
    getDateOrder_asc hpw]

/-- C3 (amended): on a ledger without a value-date column whose rows
are each either fully blank or carry a canonical valid DD/MM/YYYY
transaction date, the valid dates being monotone non-decreasing in
date order, the full repair pipeline changes nothing and the inferred
direction is ascending; hence repair is idempotent on such ledgers,
while the counterexample above shows it is not idempotent in
general. -/
theorem repair_fixed_on_sorted (fb : Bool → String → Option PdTs)
    (fz : String → Option String) (t : DTable) (hvd : t.hasVD = false)
    (hrow : ∀ r ∈ t.rows,
      (r.xn = "" ∧ r.rest.all cellEmpty = true) ∨ canonDate r.xn = true)
    (hpw : (xnList t).Pairwise fun a b => is_valid_date a = true →
      is_valid_date b = true → dmyLE (theDMY a) (theDMY b) = true) :
    processAllDates fb fz t = t ∧
      (dateCorrection fb fz t).2 = Direction.ascending := by
  have hdc : dateCorrection fb fz t = (t, Direction.ascending) :=
    dateCorrection_noop hvd hrow hpw
  refine ⟨?_, by rw [hdc]⟩
  unfold processAllDates
  dsimp only
  have ht1 : (⟨t.hasVD, t.rows.map fun r =>
      ⟨(parseCustomDate fb fz r.xn).getD "",
        if t.hasVD then (parseCustomDate fb fz r.vd).getD "" else r.vd, r.rest⟩⟩ :
      DTable) = t := by
    rw [hvd]
    have hmap : (t.rows.map fun r =>
        (⟨(parseCustomDate fb fz r.xn).getD "",
          if false = true then (parseCustomDate fb fz r.vd).getD "" else r.vd, r.rest⟩ :
          DRow)) = t.rows := by
      rw [show (t.rows.map fun r =>
          (⟨(parseCustomDate fb fz r.xn).getD "",
            if false = true then (parseCustomDate fb fz r.vd).getD "" else r.vd,
            r.rest⟩ : DRow)) = t.rows.map id from
        List.map_congr_left ?_, List.map_id]
      intro r hr
      rw [if_neg (by simp)]
      rcases hrow r hr with ⟨hxn, -⟩ | hcanon
      · rw [hxn, parseCustomDate_empty]
        show (⟨"", r.vd, r.rest⟩ : DRow) = r
        rw [← hxn]
      · rw [parseCustomDate_canon fb fz hcanon]
        rfl
    rw [hmap]
    rw [← hvd]
  rw [ht1, hdc]
  dsimp only
  rw [show rotateIfDescending t Direction.ascending = (t, Direction.ascending) from by
    unfold rotateIfDescending
    rw [if_neg (by decide)]]
  dsimp only
  rw [fixYear_noop hvd hpw]
  dsimp only
  rw [if_neg (by rw [hvd]; simp)]

/-- A sorted canonical ledger with a blank page-break row. -/
def c3sorted : DTable :=
  ⟨false, [⟨"01/01/2024", "", ["a"]⟩, ⟨"", "", [""]⟩, ⟨"05/01/2024", "", ["b"]⟩,
    ⟨"05/01/2024", "", ["c"]⟩, ⟨"28/02/2024", "", ["d"]⟩]⟩

set_option maxRecDepth 200000 in
/-- Witness for the amended C3: the fixed-point theorem applied to a
concrete sorted ledger. -/
theorem repair_fixed_on_sorted_witness :
    processAllDates fbNone fzNone c3sorted = c3sorted ∧
      (dateCorrection fbNone fzNone c3sorted).2 = Direction.ascending :=
  repair_fixed_on_sorted fbNone fzNone c3sorted (by decide) (by decide) (by decide)
